import Mathlib

/-!
Verification of the storage-layer core (buffer pool, LRU-K replacer,
extendible hash table, B+ tree) of the repository, by a shallow embedding
of the C++ sources into Lean.  Each data structure is translated from its
source file; the few routines whose implementation files are absent from
the repository (the leaf-page and header-page methods, and the replacer
entry defaults) are modelled from the specification and marked as such.
-/

namespace Storage

/-! ## LRU-K replacer, from src/buffer/lru_k_replacer.cpp

State of one tracked frame.  The replacer header is not part of the
repository; `hintCount` mirrors the per-frame access counter and
`isEvictable` the evictability bit.

Modelled from the spec: the evictability bit of a freshly tracked frame
defaults to false ("an evictability bit (default false on first
tracking)"); the header file that would fix the default is absent. -/
structure LEntry where
  hintCount : Nat
  isEvictable : Bool
  deriving Repr, DecidableEq

def LEntry.default : LEntry := { hintCount := 0, isEvictable := false }

/-- Replacer state: `inf` and `kth` mirror the two intrusive lists
`inf_` and `kth_` (head = front), `entries` the `entries_` map, and
`currSize` the `curr_size_` counter. -/
structure LRUK where
  k : Nat
  replacerSize : Nat
  currSize : Nat
  entries : List (Nat × LEntry)
  inf : List Nat
  kth : List Nat
  deriving Repr, DecidableEq

def lrukInit (numFrames k : Nat) : LRUK :=
  { k := k, replacerSize := numFrames, currSize := 0, entries := [], inf := [], kth := [] }

def lookupEntry (es : List (Nat × LEntry)) (f : Nat) : Option LEntry :=
  (es.find? (fun p => p.1 = f)).map Prod.snd

/-- `entries_[f]` with default construction, as done by `operator[]`. -/
def getEntry (es : List (Nat × LEntry)) (f : Nat) : LEntry :=
  (lookupEntry es f).getD LEntry.default

def setEntry (es : List (Nat × LEntry)) (f : Nat) (e : LEntry) : List (Nat × LEntry) :=
  if (es.find? (fun p => p.1 = f)).isSome then
    es.map (fun p => if p.1 = f then (f, e) else p)
  else
    es ++ [(f, e)]

def eraseEntry (es : List (Nat × LEntry)) (f : Nat) : List (Nat × LEntry) :=
  es.filter (fun p => ¬ p.1 = f)

/-- `LRUKReplacer::RecordAccess`.  Returns `none` when the frame id is out
of range, mirroring the thrown `std::invalid_argument`. -/
def recordAccess (s : LRUK) (f : Nat) : Option LRUK :=
  if s.replacerSize < f then none else
  let e := getEntry s.entries f
  let n := e.hintCount + 1
  let es := setEntry s.entries f { e with hintCount := n }
  if n = 1 then
    some { s with entries := es, currSize := s.currSize + 1, inf := f :: s.inf }
  else if n = s.k then
    some { s with entries := es, inf := s.inf.erase f, kth := f :: s.kth }
  else if s.k < n then
    some { s with entries := es, kth := f :: (s.kth.erase f) }
  else
    some { s with entries := es }

/-- `LRUKReplacer::SetEvictable`. -/
def setEvictable (s : LRUK) (f : Nat) (b : Bool) : Option LRUK :=
  if s.replacerSize < f then none else
  match lookupEntry s.entries f with
  | none => some s
  | some e =>
    if e.isEvictable = b then some s
    else
      let es := setEntry s.entries f { e with isEvictable := b }
      if b then some { s with entries := es, currSize := s.currSize + 1 }
      else some { s with entries := es, currSize := s.currSize - 1 }

/-- Is the frame's entry marked evictable (`entries_[f].is_evictable_`)? -/
def frameEvictable (s : LRUK) (f : Nat) : Bool :=
  (getEntry s.entries f).isEvictable

/-- `LRUKReplacer::Evict`: scan `inf_` from its back, then `kth_` from its
back, for the first evictable frame; unlink it and drop its entry. -/
def evict (s : LRUK) : Option (Nat × LRUK) :=
  match s.inf.reverse.find? (fun f => frameEvictable s f) with
  | some f =>
    some (f, { s with inf := s.inf.erase f, currSize := s.currSize - 1,
                      entries := eraseEntry s.entries f })
  | none =>
    match s.kth.reverse.find? (fun f => frameEvictable s f) with
    | some f =>
      some (f, { s with kth := s.kth.erase f, currSize := s.currSize - 1,
                        entries := eraseEntry s.entries f })
    | none => none

/-- `LRUKReplacer::Remove`. -/
def lrukRemove (s : LRUK) (f : Nat) : Option LRUK :=
  if s.replacerSize < f then none else
  match lookupEntry s.entries f with
  | none => some s
  | some e =>
    if e.isEvictable = false then some s
    else if e.hintCount < s.k then
      some { s with inf := s.inf.erase f, currSize := s.currSize - 1,
                    entries := eraseEntry s.entries f }
    else
      some { s with kth := s.kth.erase f, currSize := s.currSize - 1,
                    entries := eraseEntry s.entries f }

/-- `LRUKReplacer::Size`. -/
def lrukSize (s : LRUK) : Nat := s.currSize

/-- Run a list of `RecordAccess` calls. -/
def recordAll (s : LRUK) : List Nat → Option LRUK
  | [] => some s
  | f :: fs => match recordAccess s f with
    | none => none
    | some s1 => recordAll s1 fs

/-- Mark a list of frames evictable. -/
def setAllEvictable (s : LRUK) : List Nat → Option LRUK
  | [] => some s
  | f :: fs => match setEvictable s f true with
    | none => none
    | some s1 => setAllEvictable s1 fs

/-- Perform `n` successive evictions, collecting the evicted frames. -/
def evictFrames : LRUK → Nat → (List Nat × LRUK)
  | s, 0 => ([], s)
  | s, n + 1 => match evict s with
    | none => ([], s)
    | some (f, s1) =>
      let r := evictFrames s1 n
      (f :: r.1, r.2)

/-- The end-to-end scenario of the spec: a replacer with k = 2 tracking
frames 1, 2, 3; accesses 1,2,3,1,2,3,1,2; all three frames evictable. -/
def lrukScenario : Option LRUK :=
  (recordAll (lrukInit 3 2) [1, 2, 3, 1, 2, 3, 1, 2]).bind
    (fun s => setAllEvictable s [1, 2, 3])

/-- The evicted frames and final size of three evictions in the scenario. -/
def lrukScenarioResult : Option (List Nat × Nat) :=
  lrukScenario.map (fun s => ((evictFrames s 3).1, lrukSize (evictFrames s 3).2))

/-! ## Buffer pool manager, from src/buffer/buffer_pool_manager_instance.cpp

A frame's `Page` object: its current page id (`none` mirrors
`INVALID_PAGE_ID`), pin count, dirty flag, and the byte buffer, abstracted
to a single natural number (`0` is the zeroed buffer). -/
structure PageF where
  pageId : Option Nat
  pinCount : Nat
  isDirty : Bool
  data : Nat
  deriving Repr, DecidableEq

def PageF.blank : PageF := { pageId := none, pinCount := 0, isDirty := false, data := 0 }

/-- Buffer pool state.  The page table (an `ExtendibleHashTable` in the
source, used purely as a map from page id to frame id here) and the disk
are association lists. -/
structure BPM where
  poolSize : Nat
  pages : List PageF
  pageTable : List (Nat × Nat)
  replacer : LRUK
  freeList : List Nat
  nextPageId : Nat
  disk : List (Nat × Nat)
  deriving Repr, DecidableEq

/-- Association-list find (the page table's `Find`). -/
def alFind (al : List (Nat × Nat)) (k : Nat) : Option Nat :=
  (al.find? (fun p => p.1 = k)).map Prod.snd

/-- Association-list upsert (the hash table's `Insert` overwrites). -/
def alInsert (al : List (Nat × Nat)) (k v : Nat) : List (Nat × Nat) :=
  if (al.find? (fun p => p.1 = k)).isSome then
    al.map (fun p => if p.1 = k then (k, v) else p)
  else al ++ [(k, v)]

def alRemove (al : List (Nat × Nat)) (k : Nat) : List (Nat × Nat) :=
  al.filter (fun p => ¬ p.1 = k)

/-- The constructor: every frame blank and on the free list (in order),
`next_page_id_` starting at zero. -/
def bpmInit (poolSize k : Nat) : BPM :=
  { poolSize := poolSize, pages := List.replicate poolSize PageF.blank, pageTable := [],
    replacer := lrukInit poolSize k, freeList := List.range poolSize,
    nextPageId := 0, disk := [] }

def getFrame (s : BPM) (f : Nat) : PageF := s.pages.getD f PageF.blank

def setFrame (s : BPM) (f : Nat) (p : PageF) : BPM := { s with pages := s.pages.set f p }

/-- The shared frame-acquisition prefix of `NewPgImp` and `FetchPgImp`:
pop the free list, else evict a victim; a dirty victim is written to disk
and reset (`ResetPage`), a clean victim is left as is; the victim's page
table entry is removed unconditionally.  Returns `none` for "all frames
pinned". -/
def acquireFrame (s : BPM) : Option Nat × BPM :=
  match s.freeList with
  | f :: rest => (some f, { s with freeList := rest })
  | [] =>
    match evict s.replacer with
    | none => (none, s)
    | some (f, r) =>
      let s1 : BPM := { s with replacer := r }
      let pg := getFrame s1 f
      let s2 : BPM := { s1 with
        pageTable := match pg.pageId with
          | some pid => alRemove s1.pageTable pid
          | none => s1.pageTable }
      if pg.isDirty then
        let s3 := match pg.pageId with
          | some pid => { s2 with disk := alInsert s2.disk pid pg.data }
          | none => s2
        (some f, setFrame s3 f PageF.blank)
      else
        (some f, s2)

/-- The shared suffix of `NewPgImp`/`FetchPgImp` once a frame holds the
new page: install the page-table entry, record one access, pin the frame.
Propagates the replacer's invalid-frame exception as `none`. -/
def installFrame (s : BPM) (f : Nat) (pid : Nat) : Option BPM :=
  let s1 := { s with pageTable := alInsert s.pageTable pid f }
  match recordAccess s1.replacer f with
  | none => none
  | some r1 =>
    match setEvictable r1 f false with
    | none => none
    | some r2 =>
      let pg := getFrame s1 f
      some (setFrame { s1 with replacer := r2 } f { pg with pinCount := pg.pinCount + 1 })

/-- `BufferPoolManagerInstance::NewPgImp`.  The result is the allocated
page id, or `none` for the null return. -/
def newPage (s : BPM) : Option (Option Nat × BPM) :=
  match acquireFrame s with
  | (none, s1) => some (none, s1)
  | (some f, s1) =>
    let pid := s1.nextPageId
    let pg := getFrame s1 f
    let s2 := setFrame { s1 with nextPageId := pid + 1 } f { pg with pageId := some pid }
    match installFrame s2 f pid with
    | none => none
    | some s3 => some (some pid, s3)

/-- `BufferPoolManagerInstance::FetchPgImp`.  The result is the frame id
of the returned `Page`, or `none` for the null return. -/
def fetchPage (s : BPM) (pid : Nat) : Option (Option Nat × BPM) :=
  match alFind s.pageTable pid with
  | some f =>
    match recordAccess s.replacer f with
    | none => none
    | some r1 =>
      match setEvictable r1 f false with
      | none => none
      | some r2 =>
        let pg := getFrame s f
        some (some f, setFrame { s with replacer := r2 } f { pg with pinCount := pg.pinCount + 1 })
  | none =>
    match acquireFrame s with
    | (none, s1) => some (none, s1)
    | (some f, s1) =>
      let pg := getFrame s1 f
      let pg1 : PageF := { pg with data := (alFind s1.disk pid).getD 0, pageId := some pid }
      let s2 := setFrame s1 f pg1
      match installFrame s2 f pid with
      | none => none
      | some s3 => some (some f, s3)

/-- `BufferPoolManagerInstance::UnpinPgImp`. -/
def unpinPage (s : BPM) (pid : Nat) (dirty : Bool) : Option (Bool × BPM) :=
  match alFind s.pageTable pid with
  | none => some (false, s)
  | some f =>
    let pg := getFrame s f
    if 0 < pg.pinCount then
      let pg1 : PageF := { pg with pinCount := pg.pinCount - 1,
                                   isDirty := pg.isDirty || dirty }
      let s1 := setFrame s f pg1
      if pg1.pinCount = 0 then
        match setEvictable s1.replacer f true with
        | none => none
        | some r => some (true, { s1 with replacer := r })
      else
        some (true, s1)
    else
      some (false, s)

/-- Test harness: the client of a pinned page writing into its buffer
(`Page::GetData` is handed out mutably); not a BPM operation. -/
def clientWrite (s : BPM) (pid : Nat) (v : Nat) : BPM :=
  match alFind s.pageTable pid with
  | none => s
  | some f =>
    let pg := getFrame s f
    setFrame s f { pg with data := v }

/-! ## Extendible hash table, from src/container/hash/extendible_hash_table.cpp

Keys and values are naturals; `std::hash<K>` is a parameter `hash`.
A bucket holds its `local_depth` and its key/value pairs in insertion
order.  Buckets are identified by numeric ids standing for the
`shared_ptr` identities, so that several directory slots can share one
bucket. -/
structure HBucket where
  depth : Nat
  items : List (Nat × Nat)
  deriving Repr, DecidableEq

structure EHT where
  globalDepth : Nat
  bucketSize : Nat
  numBuckets : Nat
  dir : List Nat
  buckets : List (Nat × HBucket)
  nextBid : Nat
  deriving Repr, DecidableEq

def ehtInit (bucketSize : Nat) : EHT :=
  { globalDepth := 0, bucketSize := bucketSize, numBuckets := 1,
    dir := [0], buckets := [(0, { depth := 0, items := [] })], nextBid := 1 }

def getBucket (t : EHT) (bid : Nat) : HBucket :=
  ((t.buckets.find? (fun p => p.1 = bid)).map Prod.snd).getD { depth := 0, items := [] }

def setBucket (t : EHT) (bid : Nat) (b : HBucket) : EHT :=
  if (t.buckets.find? (fun p => p.1 = bid)).isSome then
    { t with buckets := t.buckets.map (fun p => if p.1 = bid then (bid, b) else p) }
  else
    { t with buckets := t.buckets ++ [(bid, b)] }

/-- `dir_[i]` (bucket id at directory slot `i`). -/
def dirAt (t : EHT) (i : Nat) : Nat := t.dir.getD i 0

/-- The bucket referenced by directory slot `i`. -/
def bucketAt (t : EHT) (i : Nat) : HBucket := getBucket t (dirAt t i)

section EHTOps

variable (hash : Nat → Nat)

/-- `IndexOf`: `hash(key) & ((1 << global_depth) - 1)`. -/
def indexOf (t : EHT) (k : Nat) : Nat := hash k % 2 ^ t.globalDepth

/-- `Bucket::Find`. -/
def bFind (b : HBucket) (k : Nat) : Option Nat :=
  (b.items.find? (fun kv => kv.1 = k)).map Prod.snd

/-- Modelled from the spec: `Bucket::IsFull` (the class body lives in the
absent header) — a bucket is full when it holds `bucket_size` pairs. -/
def bIsFull (cap : Nat) (b : HBucket) : Bool := cap ≤ b.items.length

/-- `Bucket::Insert`: overwrite an existing key, else append if not full. -/
def bInsert (cap : Nat) (b : HBucket) (k v : Nat) : HBucket :=
  if (b.items.find? (fun kv => kv.1 = k)).isSome then
    { b with items := b.items.map (fun kv => if kv.1 = k then (k, v) else kv) }
  else if bIsFull cap b then b
  else { b with items := b.items ++ [(k, v)] }

/-- `Bucket::Remove`: erase the first pair with the key, if any. -/
def bRemove (b : HBucket) (k : Nat) : Bool × HBucket :=
  if (b.items.find? (fun kv => kv.1 = k)).isSome then
    (true, { b with items := b.items.eraseP (fun kv => kv.1 = k) })
  else (false, b)

/-- `ExtendibleHashTable::Find`. -/
def ehtFind (t : EHT) (k : Nat) : Option Nat :=
  bFind (bucketAt t (indexOf hash t k)) k

/-- `ExtendibleHashTable::Remove`. -/
def ehtRemove (t : EHT) (k : Nat) : Bool × EHT :=
  let i := indexOf hash t k
  let r := bRemove (bucketAt t i) k
  (r.1, setBucket t (dirAt t i) r.2)

/-- `Expansion`: append a copy of the directory to itself and increment
the global depth. -/
def expansion (t : EHT) : EHT :=
  { t with dir := t.dir ++ t.dir, globalDepth := t.globalDepth + 1 }

/-- `RedistributeBucket(bucket = dir_[IndexOf(key)], key)`: split the
bucket into two fresh buckets by bit `old_depth` of each item's hash
(the source inserts each item in order, which keeps insertion order, so
the two new item lists are the two filters), then repoint every
directory slot congruent to `hash(key) mod 2^old_depth` at whichever new
bucket bit `old_depth` of the slot index selects. -/
def redistributeBucket (t : EHT) (bid : Nat) (k : Nat) : EHT :=
  let old := getBucket t bid
  let od := old.depth
  let b0id := t.nextBid
  let b1id := t.nextBid + 1
  let b0 : HBucket :=
    { depth := od + 1, items := old.items.filter (fun kv => !(hash kv.1).testBit od) }
  let b1 : HBucket :=
    { depth := od + 1, items := old.items.filter (fun kv => (hash kv.1).testBit od) }
  let t1 := setBucket (setBucket t b0id b0) b1id b1
  { t1 with
    dir := t1.dir.enum.map (fun p =>
      if p.1 % 2 ^ od = hash k % 2 ^ od then
        (if p.1.testBit od then b1id else b0id)
      else p.2),
    numBuckets := t1.numBuckets + 1,
    nextBid := t1.nextBid + 2 }

/-- One iteration of `Insert`'s while-loop body: expand the directory
when the full bucket's local depth equals the global depth, then split
the bucket (`dir_[idx]` still denotes the same bucket after expansion). -/
def splitStep (t : EHT) (k : Nat) : EHT :=
  let bid := dirAt t (indexOf hash t k)
  let ld := (getBucket t bid).depth
  let t1 := if ld = t.globalDepth then expansion t else t
  redistributeBucket hash t1 bid k

/-- `Insert`'s while-loop, with fuel; `none` models non-termination
within the given fuel. -/
def insertLoop : Nat → EHT → Nat → Option EHT
  | 0, t, k =>
    if bIsFull t.bucketSize (bucketAt t (indexOf hash t k)) then none else some t
  | fuel + 1, t, k =>
    if bIsFull t.bucketSize (bucketAt t (indexOf hash t k)) then
      insertLoop fuel (splitStep hash t k) k
    else some t

/-- `ExtendibleHashTable::Insert`. -/
def ehtInsert (fuel : Nat) (t : EHT) (k v : Nat) : Option EHT :=
  let i := indexOf hash t k
  if (bFind (bucketAt t i) k).isSome then
    some (setBucket t (dirAt t i) (bInsert t.bucketSize (bucketAt t i) k v))
  else
    match insertLoop hash fuel t k with
    | none => none
    | some t1 =>
      let i1 := indexOf hash t1 k
      some (setBucket t1 (dirAt t1 i1) (bInsert t1.bucketSize (bucketAt t1 i1) k v))

/-- A hash-table operation: an insert (with the fuel granted to its
splitting loop) or a remove. -/
inductive EOp where
  | ins (k v fuel : Nat)
  | del (k : Nat)
  deriving Repr, DecidableEq

def ehtStep (t : EHT) : EOp → Option EHT
  | .ins k v fuel => ehtInsert hash fuel t k v
  | .del k => some (ehtRemove hash t k).2

def ehtRunFrom (t : EHT) : List EOp → Option EHT
  | [] => some t
  | op :: ops =>
    match ehtStep hash t op with
    | none => none
    | some t1 => ehtRunFrom t1 ops

/-- Run a sequence of operations from the freshly constructed table. -/
def ehtRun (bucketSize : Nat) (ops : List EOp) : Option EHT :=
  ehtRunFrom hash (ehtInit bucketSize) ops

end EHTOps

/-- The table reached from the fresh table of bucket size 1 by inserting
key 0 under the constant-zero hash: one bucket holding `(0, 5)`. -/
def ehtCollisionState : EHT :=
  { globalDepth := 0, bucketSize := 1, numBuckets := 1,
    dir := [0], buckets := [(0, { depth := 0, items := [(0, 5)] })], nextBid := 1 }

/-! ## B+ tree, from src/storage/index/b_plus_tree.cpp and
src/storage/page/b_plus_tree_internal_page.cpp

Keys and leaf values are naturals (the comparator is the order on `Nat`);
page ids are naturals, with `Option Nat` standing for a `page_id_t` that
may be `INVALID_PAGE_ID`.  A node is a leaf or an internal page; an
internal page's entry list mirrors `array_` (entry 0's key is the unused
slot-0 key).  Latches and pin counts are dropped: the claims concern
single-threaded executions, where they do not affect the logical state.

Routines of the absent source files `b_plus_tree_leaf_page.cpp`,
`b_plus_tree_page.cpp` and `header_page.cpp` (the leaf page's
`Insert`/`Remove`/`Split`/`LowerBound`, `GetMinSize`, and the header
record operations) are modelled from the spec where they appear, as
noted at each definition. -/
inductive BNode where
  | leaf (parent : Option Nat) (maxSize : Nat) (next : Option Nat) (kvs : List (Nat × Nat))
  | internal (parent : Option Nat) (maxSize : Nat) (ents : List (Nat × Nat))
  deriving Repr, DecidableEq

def BNode.parentOf : BNode → Option Nat
  | .leaf p _ _ _ => p
  | .internal p _ _ => p

def BNode.sizeOf : BNode → Nat
  | .leaf _ _ _ kvs => kvs.length
  | .internal _ _ ents => ents.length

def BNode.withParent : BNode → Option Nat → BNode
  | .leaf _ m n kvs, p => .leaf p m n kvs
  | .internal _ m ents, p => .internal p m ents

/-- Modelled from the spec: `GetMinSize` for leaves (the base-page source
file is absent) — "Leaf min_size = ceil((max_size - 1)/2)", which is
`max_size / 2` rounded down. -/
def leafMinSize (m : Nat) : Nat := m / 2

/-- Modelled from the spec: `GetMinSize` for internal pages — "internal
min_size = ceil(max_size/2)". -/
def internalMinSize (m : Nat) : Nat := (m + 1) / 2

def BNode.minSizeOf : BNode → Nat
  | .leaf _ m _ _ => leafMinSize m
  | .internal _ m _ => internalMinSize m

/-- Tree state: the in-memory root page id, the page store (the pages of
this index resident through the buffer pool; `none` = a fetch of this id
fails), the allocation counter of the disk manager, the header page's
record for this index (`headerRec = some r` means the header page maps
the index name to root id `r`), and the transaction's deferred-deletion
set. -/
structure BTS where
  root : Option Nat
  store : Nat → Option BNode
  nextPid : Nat
  headerRec : Option (Option Nat)
  deleted : List Nat
  leafMax : Nat
  internalMax : Nat

def upd (st : Nat → Option BNode) (p : Nat) (n : BNode) : Nat → Option BNode :=
  fun q => if q = p then some n else st q

/-- Fresh tree (page id 0 is the header page, so tree pages start at 1). -/
def btsInit (lmax imax : Nat) : BTS :=
  { root := none, store := fun _ => none, nextPid := 1, headerRec := none,
    deleted := [], leafMax := lmax, internalMax := imax }

/-- `UpdateRootPageId`: `InsertRecord` adds the record only when the index
has none yet, `UpdateRecord` overwrites an existing record.  Modelled from
the spec ("a reserved page at id 0 holds a mapping from named indices to
their current root page id"); the header-page source file is absent. -/
def updateRootPageId (t : BTS) (insertRecord : Bool) : BTS :=
  if insertRecord then
    match t.headerRec with
    | none => { t with headerRec := some t.root }
    | some r => { t with headerRec := some r }
  else
    match t.headerRec with
    | none => t
    | some _ => { t with headerRec := some t.root }

/-! ### Leaf page operations (source file absent; modelled from the spec) -/

/-- Sorted insertion position of a key (first pair with key not below
`k`); also the leaf `LowerBound`. -/
def leafLB (kvs : List (Nat × Nat)) (k : Nat) : Nat :=
  kvs.findIdx (fun kv => decide (k ≤ kv.1))

def leafIns (k v : Nat) : List (Nat × Nat) → List (Nat × Nat)
  | [] => [(k, v)]
  | kv :: rest => if k < kv.1 then (k, v) :: kv :: rest else kv :: leafIns k v rest

/-- Modelled from the spec: `BPlusTreeLeafPage::Insert` — "Insert sorted;
if duplicate key, return false". -/
def leafInsert (kvs : List (Nat × Nat)) (k v : Nat) : Bool × List (Nat × Nat) :=
  if kvs.any (fun kv => kv.1 = k) then (false, kvs)
  else (true, leafIns k v kvs)

/-- Modelled from the spec: `BPlusTreeLeafPage::Remove` — remove the
key's pair when present, report whether it was found. -/
def leafRemove (kvs : List (Nat × Nat)) (k : Nat) : Bool × List (Nat × Nat) :=
  if kvs.any (fun kv => kv.1 = k) then (true, kvs.eraseP (fun kv => kv.1 = k))
  else (false, kvs)

/-! ### Internal page operations, from b_plus_tree_internal_page.cpp -/

def keyAt (ents : List (Nat × Nat)) (i : Nat) : Nat := (ents.getD i (0, 0)).1

def valueAt (ents : List (Nat × Nat)) (i : Nat) : Nat := (ents.getD i (0, 0)).2

/-- The `LowerBound` binary-search loop (`left = 1`, `right = size`;
narrow to the first index whose key is not below `k`). -/
def lbLoop (k : Nat) (ents : List (Nat × Nat)) (left right : Nat) : Nat :=
  if h : left < right then
    let mid := (left + right) / 2
    if k ≤ keyAt ents mid then lbLoop k ents left mid
    else lbLoop k ents (mid + 1) right
  else left
termination_by right - left
decreasing_by
  · omega
  · omega

/-- `BPlusTreeInternalPage::LowerBound`. -/
def internalLB (ents : List (Nat × Nat)) (k : Nat) : Nat :=
  lbLoop k ents 1 ents.length

/-- `BPlusTreeInternalPage::Insert`: place the new pair at its lower
bound (the source writes it at `size` and swaps it down), refusing a
duplicate key. -/
def internalInsert (ents : List (Nat × Nat)) (k v : Nat) : Bool × List (Nat × Nat) :=
  let idx := internalLB ents k
  if idx < ents.length ∧ keyAt ents idx = k then (false, ents)
  else (true, ents.insertIdx idx (k, v))

/-- `BPlusTreeInternalPage::Split(new_page, key, value)`: virtually
insert the new pair into the `max_size` stored entries, keep the first
`GetMinSize()` in place, and hand the rest to the new page.  Returns
(left entries, right entries). -/
def internalSplit (ents : List (Nat × Nat)) (k v : Nat) (imax : Nat) :
    List (Nat × Nat) × List (Nat × Nat) :=
  let vec := ents.take imax
  let idx := lbLoop k vec 1 vec.length
  let vec1 := vec.insertIdx idx (k, v)
  let x := internalMinSize imax
  (vec1.take x, vec1.drop x)

/-! ### Search descent, from `GetLeafPage`'s loop -/

/-- The child-selection loop: `cur = value[size-1]`, then the first index
`i >= 1` with `key[i] > k` selects `value[i-1]`. -/
def childGo (k c : Nat) : List (Nat × Nat) → Nat
  | [] => c
  | e :: rest => if k < e.1 then c else childGo k e.2 rest

def childOf (k : Nat) : List (Nat × Nat) → Nat
  | [] => 0
  | e :: rest => childGo k e.2 rest

/-- Descend from a page id to the leaf for key `k`; `none` models a fetch
of `INVALID_PAGE_ID` or of a page that is not resident, or exhausted
fuel (the source loop has no bound; any fuel above the tree height gives
the loop's result). -/
def descend (store : Nat → Option BNode) (k : Nat) : Nat → Option Nat → Option Nat
  | _, none => none
  | 0, some _ => none
  | fuel + 1, some p =>
    match store p with
    | none => none
    | some (.leaf _ _ _ _) => some p
    | some (.internal _ _ ents) => descend store k fuel (some (childOf k ents))

/-! ### Public tree operations -/

/-- `BPlusTree::GetValue`: descend to the leaf and scan it for the key,
collecting every match. -/
def getValue (t : BTS) (k : Nat) : Option (Bool × List Nat) :=
  match descend t.store k t.nextPid t.root with
  | none => none
  | some p =>
    match t.store p with
    | some (.leaf _ _ _ kvs) =>
      some (kvs.any (fun kv => kv.1 = k), (kvs.filter (fun kv => kv.1 = k)).map Prod.snd)
    | _ => none

/-- `GetLeafPage`'s empty-tree INSERT branch: allocate the root leaf,
record the root id in the header (`UpdateRootPageId(1)`), and initialize
the page. -/
def newLeafRoot (t : BTS) : BTS :=
  let pid := t.nextPid
  let t1 : BTS := { t with root := some pid, nextPid := pid + 1,
                           store := upd t.store pid (.leaf none t.leafMax none []) }
  updateRootPageId t1 true

/-- `UpdateChildNode(node, ...)` over the given entries: fetch each child
and set its parent page id. -/
def updateChildren (t : BTS) (npid : Nat) : List (Nat × Nat) → Option BTS
  | [] => some t
  | e :: rest =>
    match t.store e.2 with
    | none => none
    | some n =>
      updateChildren { t with store := upd t.store e.2 (n.withParent (some npid)) } npid rest

/-- `BPlusTree::InsertInParent(left, right, key0)`: climb the parent
chain, inserting the separator, splitting full parents, or making a new
root. -/
def insertInParent (t : BTS) (lpid rpid : Nat) (key0 : Nat) : Nat → Option BTS
  | 0 => none
  | fuel + 1 =>
    match t.store lpid with
    | none => none
    | some lnode =>
      match lnode.parentOf with
      | none =>
        -- left node is the root: new root {left, key0, right}, persist the
        -- root id, re-parent both children
        let npid := t.nextPid
        let t1 : BTS := { t with
          root := some npid, nextPid := npid + 1,
          store := upd t.store npid (.internal none t.internalMax [(0, lpid), (key0, rpid)]) }
        let t2 := updateRootPageId t1 false
        match t2.store lpid, t2.store rpid with
        | some ln, some rn =>
          some { t2 with
            store := upd (upd t2.store lpid (ln.withParent (some npid))) rpid
              (rn.withParent (some npid)) }
        | _, _ => none
      | some ppid =>
        match t.store ppid with
        | some (.internal gpar imax ents) =>
          if ents.length < imax then
            some { t with
              store := upd t.store ppid
                (.internal gpar imax (internalInsert ents key0 rpid).2) }
          else
            let rppid := t.nextPid
            let sp := internalSplit ents key0 rpid imax
            let t1 : BTS := { t with
              nextPid := rppid + 1,
              store := upd (upd t.store ppid (.internal gpar imax sp.1))
                rppid (.internal gpar imax sp.2) }
            match updateChildren t1 rppid sp.2 with
            | none => none
            | some t2 => insertInParent t2 ppid rppid (keyAt sp.2 0) fuel
        | _ => none

/-- The tree produced by `InsertInParent`'s root-split branch (left node is
the root): the new root `{left, key0, right}` at the next page id, the header
update, and the two re-parented children. -/
def splitRoot (t : BTS) (lpid rpid key0 : Nat) (ln rn : BNode) : BTS :=
  let npid := t.nextPid
  let t1 : BTS := { t with
    root := some npid, nextPid := npid + 1,
    store := upd t.store npid (.internal none t.internalMax [(0, lpid), (key0, rpid)]) }
  let t2 := updateRootPageId t1 false
  { t2 with
    store := upd (upd t2.store lpid (ln.withParent (some npid))) rpid
      (rn.withParent (some npid)) }

/-- `BPlusTree::Insert`: descend (creating the root leaf when the tree is
empty), insert into the leaf, split it at `max_size`. -/
def insertT (t : BTS) (k v : Nat) : Option (Bool × BTS) :=
  let t0 := if t.root = none then newLeafRoot t else t
  match descend t0.store k t0.nextPid t0.root with
  | none => none
  | some lp =>
    match t0.store lp with
    | some (.leaf par lmax nxt kvs) =>
      match leafInsert kvs k v with
      | (false, _) => some (false, t0)
      | (true, kvs1) =>
        if kvs1.length < t0.leafMax then
          some (true, { t0 with store := upd t0.store lp (.leaf par lmax nxt kvs1) })
        else
          -- leaf split: the left keeps GetMinSize() pairs (modelled from
          -- the spec, the leaf source file being absent), the fresh right
          -- sibling takes the rest and the old next pointer
          let rpid := t0.nextPid
          let keep := leafMinSize lmax
          let lkvs := kvs1.take keep
          let rkvs := kvs1.drop keep
          let t1 : BTS := { t0 with
            nextPid := rpid + 1,
            store := upd (upd t0.store lp (.leaf par lmax (some rpid) lkvs))
              rpid (.leaf par lmax nxt rkvs) }
          match insertInParent t1 lp rpid (keyAt rkvs 0) t1.nextPid with
          | none => none
          | some t2 => some (true, t2)
    | _ => none

/-- `BPlusTree::TryBorrow(page, sibling, parent, is_left)`. -/
def tryBorrow (t : BTS) (pid : Nat) (sib : Option Nat) (ppid : Nat) (isLeft : Bool) :
    Option (Bool × BTS) :=
  match sib with
  | none => some (false, t)
  | some spid =>
    match t.store pid, t.store spid, t.store ppid with
    | some node, some snode, some (.internal gp pimax pents) =>
      if snode.sizeOf ≤ snode.minSizeOf then some (false, t)
      else
        match pents.findIdx? (fun e => e.2 = pid) with
        | none => none
        | some i =>
          let pua := if isLeft then i else i + 1
          match node, snode with
          | .leaf par lmax nxt kvs, .leaf spar slmax snxt skvs =>
            let bAt := if isLeft then skvs.length - 1 else 0
            let bkv := skvs.getD bAt (0, 0)
            let kvs1 := (leafInsert kvs bkv.1 bkv.2).2
            let skvs1 := (leafRemove skvs bkv.1).2
            let updateKey := if isLeft then keyAt kvs1 0 else keyAt skvs1 0
            let pents1 := pents.set pua (updateKey, valueAt pents pua)
            some (true, { t with
              store := upd (upd (upd t.store pid (.leaf par lmax nxt kvs1))
                spid (.leaf spar slmax snxt skvs1)) ppid (.internal gp pimax pents1) })
          | .internal par imax ents, .internal spar simax sents =>
            let bAt := if isLeft then sents.length - 1 else 1
            let updateKey := keyAt sents bAt
            if isLeft then
              -- ShiftRight, key[1] := parent separator, value[0] := the
              -- sibling's last child, shrink the sibling, re-parent the
              -- pulled-in child (UpdateChildNode(node, 0, 1))
              let e0 := ents.headD (0, 0)
              let ents1 := (e0.1, valueAt sents (sents.length - 1)) ::
                (keyAt pents pua, e0.2) :: ents.drop 1
              let sents1 := sents.take (sents.length - 1)
              let pents1 := pents.set pua (updateKey, valueAt pents pua)
              let t1 : BTS := { t with
                store := upd (upd (upd t.store pid (.internal par imax ents1))
                  spid (.internal spar simax sents1)) ppid (.internal gp pimax pents1) }
              match updateChildren t1 pid (ents1.take 1) with
              | none => none
              | some t2 => some (true, t2)
            else
              -- append (parent separator, sibling's value[0]), shift the
              -- sibling left, re-parent the appended child
              let ents1 := ents ++ [(keyAt pents pua, valueAt sents 0)]
              let sents1 := sents.drop 1
              let pents1 := pents.set pua (updateKey, valueAt pents pua)
              let t1 : BTS := { t with
                store := upd (upd (upd t.store pid (.internal par imax ents1))
                  spid (.internal spar simax sents1)) ppid (.internal gp pimax pents1) }
              match updateChildren t1 pid (ents1.drop (ents1.length - 1)) with
              | none => none
              | some t2 => some (true, t2)
          | _, _ => none
    | _, _, _ => none

/-- `BPlusTree::Merge(left, right, parent)`: fold the right node into the
left (for internal nodes prefixed by the parent separator paired with the
right's `value[0]`, re-parenting the moved children), fix the leaf chain,
and shift the parent left over the removed separator. -/
def mergeNodes (t : BTS) (lpid rpid ppid : Nat) : Option BTS :=
  match t.store lpid, t.store rpid, t.store ppid with
  | some (.leaf lpar llm _ lkvs), some (.leaf _ _ rnxt rkvs), some (.internal gp pimax pents) =>
    match pents.findIdx? (fun e => e.2 = lpid) with
    | none => none
    | some posL =>
      let lkvs1 := rkvs.foldl (fun acc kv => (leafInsert acc kv.1 kv.2).2) lkvs
      let pents1 := pents.eraseIdx (posL + 1)
      some { t with
        store := upd (upd t.store lpid (.leaf lpar llm rnxt lkvs1)) ppid
          (.internal gp pimax pents1) }
  | some (.internal lpar lim lents), some (.internal _ _ rents), some (.internal gp pimax pents) =>
    match pents.findIdx? (fun e => e.2 = lpid) with
    | none => none
    | some posL =>
      let lents1 := lents ++ [(keyAt pents (posL + 1), valueAt rents 0)]
      let lents2 := (rents.drop 1).foldl (fun acc e => (internalInsert acc e.1 e.2).2) lents1
      let t1 : BTS := { t with store := upd t.store lpid (.internal lpar lim lents2) }
      match updateChildren t1 lpid (lents2.drop lents.length) with
      | none => none
      | some t2 =>
        let pents1 := pents.eraseIdx (posL + 1)
        some { t2 with store := upd t2.store ppid (.internal gp pimax pents1) }
  | _, _, _ => none

/-- `BPlusTree::HandleUnderFlow`: root collapse, else borrow from a
sibling, else merge (preferring the left sibling) and recurse into the
parent when it underflows. -/
def handleUnderFlow (t : BTS) (pid : Nat) : Nat → Option BTS
  | 0 => none
  | fuel + 1 =>
    match t.store pid with
    | none => none
    | some node =>
      match node.parentOf with
      | none =>
        match node with
        | .leaf _ _ _ _ => some t
        | .internal _ _ ents =>
          if 1 < ents.length then some t
          else
            let newRoot := valueAt ents 0
            let t1 : BTS := { t with deleted := t.deleted ++ [pid], root := some newRoot }
            match t1.store newRoot with
            | none => none
            | some rn =>
              some (updateRootPageId
                { t1 with store := upd t1.store newRoot (rn.withParent none) } false)
      | some ppid =>
        match t.store ppid with
        | some (.internal _ pimax pents) =>
          match pents.findIdx? (fun e => e.2 = pid) with
          | none => none
          | some idx =>
            let lsib := if idx ≠ 0 then some (valueAt pents (idx - 1)) else none
            let rsib := if idx ≠ pents.length - 1 then some (valueAt pents (idx + 1)) else none
            if lsib = none ∧ rsib = none then none
            else
              match tryBorrow t pid lsib ppid true with
              | none => none
              | some (true, t1) => some t1
              | some (false, _) =>
                match tryBorrow t pid rsib ppid false with
                | none => none
                | some (true, t1) => some t1
                | some (false, _) =>
                  let lr : Nat × Nat :=
                    match lsib with
                    | some l => (l, pid)
                    | none => (pid, rsib.getD 0)
                  match mergeNodes t lr.1 lr.2 ppid with
                  | none => none
                  | some t1 =>
                    let t2 : BTS := { t1 with deleted := t1.deleted ++ [lr.2] }
                    match t2.store ppid with
                    | some (.internal _ _ pents2) =>
                      if pents2.length < internalMinSize pimax then
                        handleUnderFlow t2 ppid fuel
                      else some t2
                    | _ => none
        | _ => none

/-- Apply the transaction's deferred page deletions
(`buffer_pool_manager_->DeletePage` over the deleted-page set). -/
def purgeDeleted (t : BTS) : BTS :=
  { t with store := fun q => if q ∈ t.deleted then none else t.store q, deleted := [] }

/-- `BPlusTree::Remove`. -/
def removeT (t : BTS) (k : Nat) : Option BTS :=
  match descend t.store k t.nextPid t.root with
  | none => none
  | some lp =>
    match t.store lp with
    | some (.leaf par lmax nxt kvs) =>
      match leafRemove kvs k with
      | (false, _) => some t
      | (true, kvs1) =>
        let t1 : BTS := { t with store := upd t.store lp (.leaf par lmax nxt kvs1) }
        if par = none then
          -- a root leaf: an emptied root invalidates the in-memory root id
          -- (the header page is not updated here)
          if kvs1.length = 0 then some { t1 with root := none } else some t1
        else if leafMinSize lmax ≤ kvs1.length then some t1
        else
          match handleUnderFlow t1 lp t1.nextPid with
          | none => none
          | some t2 => some (purgeDeleted t2)
    | _ => none

/-- `BPlusTree::Begin(key)`: descend to the leaf, take the key's lower
bound in it, and return the end iterator unless that position holds the
key itself.  The iterator is (page id, position, pair); `some none` is
`End()`. -/
def beginKey (t : BTS) (k : Nat) : Option (Option (Nat × Nat × (Nat × Nat))) :=
  match descend t.store k t.nextPid t.root with
  | none => none
  | some lp =>
    match t.store lp with
    | some (.leaf _ _ _ kvs) =>
      let pos := leafLB kvs k
      if pos = kvs.length then some none
      else if keyAt kvs pos ≠ k then some none
      else some (some (lp, pos, kvs.getD pos (0, 0)))
    | _ => none

/-- `BPlusTree::Begin()`'s descent: always take `ValueAt(0)`. -/
def leftmostDescend (store : Nat → Option BNode) : Nat → Option Nat → Option Nat
  | _, none => none
  | 0, some _ => none
  | fuel + 1, some p =>
    match store p with
    | none => none
    | some (.leaf _ _ _ _) => some p
    | some (.internal _ _ ents) => leftmostDescend store fuel (some (valueAt ents 0))

/-- Follow `next_page_id` from a leaf, concatenating the pairs of each
leaf visited (the iterator's `operator++` walk). -/
def chainWalk (store : Nat → Option BNode) : Nat → Option Nat → Option (List (Nat × Nat))
  | _, none => some []
  | 0, some _ => none
  | fuel + 1, some p =>
    match store p with
    | some (.leaf _ _ nxt kvs) => (chainWalk store fuel nxt).map (fun l => kvs ++ l)
    | _ => none

/-- All pairs of the subtree at `p`, in tree order. -/
def inorderKVs (store : Nat → Option BNode) : Nat → Nat → Option (List (Nat × Nat))
  | 0, _ => none
  | fuel + 1, p =>
    match store p with
    | none => none
    | some (.leaf _ _ _ kvs) => some kvs
    | some (.internal _ _ ents) =>
      ents.foldl (fun acc e => acc.bind (fun l => (inorderKVs store fuel e.2).map (fun l2 => l ++ l2)))
        (some [])

/-- All page ids of the subtree at `p`. -/
def subtreePids (store : Nat → Option BNode) : Nat → Nat → Option (List Nat)
  | 0, _ => none
  | fuel + 1, p =>
    match store p with
    | none => none
    | some (.leaf _ _ _ _) => some [p]
    | some (.internal _ _ ents) =>
      (ents.foldl (fun acc e => acc.bind (fun l => (subtreePids store fuel e.2).map (fun l2 => l ++ l2)))
        (some [])).map (fun l => p :: l)

/-- A tree operation. -/
inductive TOp where
  | ins (k v : Nat)
  | del (k : Nat)
  deriving Repr, DecidableEq

/-- Run one operation, recording an insert's boolean result. -/
def applyOp (t : BTS) : TOp → Option (BTS × Bool)
  | .ins k v => (insertT t k v).map (fun r => (r.2, r.1))
  | .del k => (removeT t k).map (fun t1 => (t1, true))

def execFrom (t : BTS) : List TOp → Option (BTS × List Bool)
  | [] => some (t, [])
  | op :: ops =>
    match applyOp t op with
    | none => none
    | some (t1, b) => (execFrom t1 ops).map (fun r => (r.1, b :: r.2))

/-- Run a sequence of operations from the empty tree with leaf and
internal fanouts `lmax`, `imax`. -/
def exec (lmax imax : Nat) (ops : List TOp) : Option (BTS × List Bool) :=
  execFrom (btsInit lmax imax) ops

/-- The abstract key-value map of a sequence of operations, with each
insert's expected boolean result. -/
def absStep (m : Nat → Option Nat) : TOp → (Nat → Option Nat) × Bool
  | .ins k v =>
    match m k with
    | some _ => (m, false)
    | none => (fun q => if q = k then some v else m q, true)
  | .del k => (fun q => if q = k then none else m q, true)

def absRun (m : Nat → Option Nat) : List TOp → (Nat → Option Nat) × List Bool
  | [] => (m, [])
  | op :: ops =>
    let r := absStep m op
    let r2 := absRun r.1 ops
    (r2.1, r.2 :: r2.2)

/-- A pool of two frames with both pages (ids 0 and 1) pinned: the state
reached by two `NewPage` calls on a fresh two-frame pool. -/
def c4PoolState : BPM :=
  { poolSize := 2,
    pages := [{ pageId := some 0, pinCount := 1, isDirty := false, data := 0 },
              { pageId := some 1, pinCount := 1, isDirty := false, data := 0 }],
    pageTable := [(0, 0), (1, 1)],
    replacer := { k := 2, replacerSize := 2, currSize := 2,
                  entries := [(0, { hintCount := 1, isEvictable := false }),
                              (1, { hintCount := 1, isEvictable := false })],
                  inf := [1, 0], kth := [] },
    freeList := [], nextPageId := 2, disk := [] }

/-- A one-leaf tree holding keys 1 and 3 (root page 1). -/
def c7Tree : BTS :=
  { root := some 1,
    store := fun p => if p = 1 then some (.leaf none 4 none [(1, 10), (3, 30)]) else none,
    nextPid := 2, headerRec := some (some 1), deleted := [], leafMax := 4, internalMax := 4 }

/-! ### B+ tree structural invariant

`ST s lmax imax h p par lo hi kvs leaves pids nxt` says the page store
`s` holds a well-formed B+ subtree of height `h` rooted at page `p`:
its root node's parent field is `par`; every key lies in the half-open
window given by `lo` (inclusive, `none` = no bound) and `hi`
(exclusive); `kvs` are the subtree's pairs in tree order; `leaves` its
leaf pages left to right, chained by `next_page_id` ending in `nxt`;
`pids` its pages in `subtreePids` order.  Lower (`min_size`) bounds
apply to children, never to the subtree's own root, matching the
claim's root exemption. -/

def loOk (lo : Option Nat) (k : Nat) : Prop :=
  match lo with
  | none => True
  | some a => a ≤ k

def hiOk (hi : Option Nat) (k : Nat) : Prop :=
  match hi with
  | none => True
  | some b => k < b

def InB (lo hi : Option Nat) (kvs : List (Nat × Nat)) : Prop :=
  ∀ x ∈ kvs, loOk lo x.1 ∧ hiOk hi x.1

/-- The upper bound used for the next separator: the following entry's
key if one exists, else the node's own upper bound. -/
def sepHi (hi : Option Nat) (rest : List (Nat × Nat)) : Option Nat :=
  match rest with
  | [] => hi
  | e :: _ => some e.1

/-- The page the last leaf of a child subtree links to: the first leaf
of the following sibling segment, or the node's own successor. -/
def segNxt (nxt : Option Nat) (rls : List Nat) : Option Nat :=
  match rls with
  | [] => nxt
  | l :: _ => some l

/-- A child-subtree predicate: page, parent, bounds, pairs, leaves,
pages, successor leaf. -/
def ChildP : Type :=
  Nat → Option Nat → Option Nat → Option Nat → List (Nat × Nat) → List Nat → List Nat →
    Option Nat → Prop

/-- A run of sibling children below internal page `ppid`, described by
the entry list: each entry's child satisfies `child` with the window
threaded through the separators, pairs/leaves/pages concatenate, and
each child's leaf chain continues into the next sibling. -/
def SegP (child : ChildP) (ppid : Nat) :
    List (Nat × Nat) → Option Nat → Option Nat → List (Nat × Nat) → List Nat → List Nat →
    Option Nat → Prop
  | [], _, _, kvs, leaves, pids, _ => kvs = [] ∧ leaves = [] ∧ pids = []
  | e :: rest, lo, hi, kvs, leaves, pids, nxt =>
    ∃ ckvs cls cps rkvs rls rps,
      kvs = ckvs ++ rkvs ∧ leaves = cls ++ rls ∧ pids = cps ++ rps ∧
      child e.2 (some ppid) lo (sepHi hi rest) ckvs cls cps (segNxt nxt rls) ∧
      SegP child ppid rest (sepHi lo rest) hi rkvs rls rps nxt

/-- `min_size ≤ size` at page `p` (`GetMinSize() <= GetSize()`). -/
def minOk (s : Nat → Option BNode) (p : Nat) : Prop :=
  match s p with
  | none => False
  | some n => n.minSizeOf ≤ n.sizeOf

def ST (s : Nat → Option BNode) (lmax imax : Nat) :
    Nat → Nat → Option Nat → Option Nat → Option Nat → List (Nat × Nat) → List Nat →
    List Nat → Option Nat → Prop
  | 0, p, par, lo, hi, kvs, leaves, pids, nxt =>
    s p = some (.leaf par lmax nxt kvs) ∧ leaves = [p] ∧ pids = [p] ∧
    kvs.length < lmax ∧ List.Pairwise (fun a b : Nat × Nat => a.1 < b.1) kvs ∧ InB lo hi kvs
  | h + 1, p, par, lo, hi, kvs, leaves, pids, nxt =>
    ∃ ents cps,
      s p = some (.internal par imax ents) ∧ ents.length ≤ imax ∧ ents ≠ [] ∧
      pids = p :: cps ∧
      SegP (fun c cpar clo chi ckvs cls cpids cnx =>
          ST s lmax imax h c cpar clo chi ckvs cls cpids cnx ∧ minOk s c)
        p ents lo hi kvs leaves cps nxt

/-- The child predicate used by `ST` at internal nodes. -/
def STC (s : Nat → Option BNode) (lmax imax h : Nat) : ChildP :=
  fun c cpar clo chi ckvs cls cpids cnx =>
    ST s lmax imax h c cpar clo chi ckvs cls cpids cnx ∧ minOk s c

/-- The root page holds a leaf, or an internal node with at least two
children (`HandleUnderFlow` collapses an internal root of size 1). -/
def RootOk (s : Nat → Option BNode) (r : Nat) : Prop :=
  match s r with
  | some (.internal _ _ ents) => 2 ≤ ents.length
  | some (.leaf _ _ _ _) => True
  | none => False

/-- The whole-state invariant between operations (for the nondegenerate
fanouts: a leaf holds at least one pair, an internal node at least two
entries at the root). -/
def TreeInv (t : BTS) : Prop :=
  2 ≤ t.leafMax ∧ 2 ≤ t.internalMax ∧ t.deleted = [] ∧
  match t.root with
  | none => True
  | some r => ∃ h kvs leaves pids,
      ST t.store t.leafMax t.internalMax h r none none none kvs leaves pids none ∧
      RootOk t.store r ∧ pids.Nodup ∧ (∀ q ∈ pids, q < t.nextPid) ∧ 0 < t.nextPid

/-- The extendible hash directory invariant (C6), together with the
auxiliary facts its preservation needs: the directory length is
`2 ^ global_depth`; every referenced bucket has `local_depth ≤
global_depth`; two slots share a bucket exactly when they agree modulo
`2 ^ local_depth` (the bucket's distinguishing prefix); every stored
pair hashes to its bucket's prefix; and every referenced bucket id is
below the allocation counter. -/
structure EInv (hash : Nat → Nat) (t : EHT) : Prop where
  dirLen : t.dir.length = 2 ^ t.globalDepth
  ldLe : ∀ i, i < t.dir.length → (bucketAt t i).depth ≤ t.globalDepth
  sameClass : ∀ i j, i < t.dir.length → j < t.dir.length →
    dirAt t i = dirAt t j → i % 2 ^ (bucketAt t i).depth = j % 2 ^ (bucketAt t i).depth
  cover : ∀ i j, i < t.dir.length → j < t.dir.length →
    i % 2 ^ (bucketAt t i).depth = j % 2 ^ (bucketAt t i).depth → dirAt t i = dirAt t j
  placed : ∀ i, i < t.dir.length → ∀ kv ∈ (bucketAt t i).items,
    hash kv.1 % 2 ^ (bucketAt t i).depth = i % 2 ^ (bucketAt t i).depth
  fresh : ∀ i, i < t.dir.length → dirAt t i < t.nextBid

/-- `size ≤ max_size` at page `p`. -/
def maxOk (s : Nat → Option BNode) (p : Nat) : Prop :=
  match s p with
  | none => False
  | some n => n.sizeOf ≤ (match n with | .leaf _ m _ _ => m | .internal _ m _ => m)

/-- One ancestor on the path from the root to a distinguished subtree:
the internal page `ppid` (parent field `ppar`, window `plo`/`phi`) whose
entry list is `pre ++ (ek, hole) :: post`. -/
structure Frame where
  ppid : Nat
  ppar : Option Nat
  plo : Option Nat
  phi : Option Nat
  pre : List (Nat × Nat)
  ek : Nat
  post : List (Nat × Nat)

/-- The distinguished child's window, induced by its neighbors. -/
def holeLo (f : Frame) : Option Nat := if f.pre.isEmpty then f.plo else some f.ek

def holeHi (f : Frame) : Option Nat := sepHi f.phi f.post

/-- `CtxOK C hh hp hpar hlo hhi fl hnxt preK postK ctxP`: the page store
holds, around a hole of height `hh` at page `hp`, a tower of ancestor
frames `C` (innermost first) reaching the root: the hole's parent field,
window and successor leaf are as given, `fl` is the first leaf of the
hole's subtree (the page the preceding chain links to), `preK`/`postK`
collect the pairs strictly left/right of the hole in the whole tree, and
`ctxP` every context page.  Plugging any subtree of height `hh` with
matching boundary data into the hole yields a tree at the root. -/
def CtxOK (s : Nat → Option BNode) (lmax imax : Nat) (root : Nat) :
    List Frame → Nat → Nat → Option Nat → Option Nat → Option Nat → Nat → Option Nat →
    List (Nat × Nat) → List (Nat × Nat) → List Nat → Prop
  | [], _, hp, hpar, hlo, hhi, _, hnxt, preK, postK, ctxP =>
    hp = root ∧ hpar = none ∧ hlo = none ∧ hhi = none ∧ hnxt = none ∧
    preK = [] ∧ postK = [] ∧ ctxP = []
  | f :: C, hh, hp, hpar, hlo, hhi, fl, hnxt, preK, postK, ctxP =>
    ∃ (k1 k2 : List (Nat × Nat)) (s1 s2 p1 p2 : List Nat) (pnxt : Option Nat)
      (preK2 postK2 : List (Nat × Nat)) (ctxP2 : List Nat),
      s f.ppid = some (.internal f.ppar imax (f.pre ++ (f.ek, hp) :: f.post)) ∧
      (f.pre ++ (f.ek, hp) :: f.post).length ≤ imax ∧
      (C = [] → 2 ≤ (f.pre ++ (f.ek, hp) :: f.post).length) ∧
      (C ≠ [] → internalMinSize imax ≤ (f.pre ++ (f.ek, hp) :: f.post).length) ∧
      hpar = some f.ppid ∧
      hlo = holeLo f ∧
      hhi = holeHi f ∧
      hnxt = segNxt pnxt s2 ∧
      SegP (STC s lmax imax hh) f.ppid f.pre f.plo (some f.ek) k1 s1 p1 (some fl) ∧
      SegP (STC s lmax imax hh) f.ppid f.post (sepHi (some f.ek) f.post) f.phi k2 s2 p2 pnxt ∧
      CtxOK s lmax imax root C (hh + 1) f.ppid f.ppar f.plo f.phi (s1.headD fl) pnxt
        preK2 postK2 ctxP2 ∧
      preK = preK2 ++ k1 ∧
      postK = k2 ++ postK2 ∧
      ctxP = f.ppid :: (p1 ++ p2 ++ ctxP2)

/-! ## Theorems -/

/-- C5, counterexample: in the spec's end-to-end replacer scenario the
three evictions do NOT return 3, 2, 1 with a final size of 0 (the second
eviction returns frame 1, not 2, and the size ends at 3). -/
theorem c5_evict_order_counterexample :
    lrukScenarioResult ≠ some ([3, 2, 1], 0) := by decide

/-- C5, amended: in the scenario (k = 2, frames 1,2,3, accesses
1,2,3,1,2,3,1,2, all evictable) the three successive evictions return
frame 3, then frame 1, then frame 2, and `Size()` afterwards is 3 (the
`old` list is kept in most-recent-access order and `curr_size_` also
counts the first access of each frame, so the three `SetEvictable`
calls leave it at 6). -/
theorem c5_evict_order :
    lrukScenarioResult = some ([3, 1, 2], 3) := by decide

/-- C3: with a pool of one frame, allocate a page, write 42 into its
buffer, unpin it clean, and call `NewPage` again.  The victim is clean,
so the frame is never reset: the returned page (id 1) exposes the 42
written into the evicted page's buffer, even though the old page-table
mapping was removed.  This contradicts the constraint that the frame's
buffer is zeroed before reuse. -/
theorem c3_clean_victim_not_reset :
    ((newPage (bpmInit 1 2)).bind (fun r =>
        (unpinPage (clientWrite r.2 0 42) 0 false).bind (fun u =>
          (newPage u.2).map (fun n =>
            (n.1, (getFrame n.2 0).data, (getFrame n.2 0).pageId, alFind n.2.pageTable 0))))) =
      some (some 1, 42, some 1, none) := by decide

/-! Lemmas about the replacer's entry map, for C4. -/

theorem find?_map_update (es : List (Nat × LEntry)) (f : Nat) (e : LEntry)
    (h : (es.find? (fun p => p.1 = f)).isSome) :
    ((es.map (fun p => if p.1 = f then (f, e) else p)).find? (fun p => p.1 = f)) = some (f, e) := by
  induction es with
  | nil => simp at h
  | cons a t ih =>
    by_cases ha : a.1 = f
    · simp [List.find?, ha]
    · simp only [List.map, List.find?, if_neg ha]
      rw [show (decide (a.1 = f)) = false by simp [ha]]
      simp only [List.find?, show (decide (a.1 = f)) = false by simp [ha]] at h
      exact ih h

theorem find?_append_new (es : List (Nat × LEntry)) (f : Nat) (e : LEntry)
    (h : es.find? (fun p => p.1 = f) = none) :
    ((es ++ [(f, e)]).find? (fun p => p.1 = f)) = some (f, e) := by
  induction es with
  | nil => simp [List.find?]
  | cons a t ih =>
    have ha : ¬ (a.1 = f) := by
      intro hx
      have := List.find?_eq_none.mp h a (by simp)
      simp [hx] at this
    simp only [List.cons_append, List.find?, show (decide (a.1 = f)) = false by simp [ha]]
    exact ih (by
      simp only [List.find?, show (decide (a.1 = f)) = false by simp [ha]] at h
      exact h)

theorem lookupEntry_setEntry (es : List (Nat × LEntry)) (f : Nat) (e : LEntry) :
    lookupEntry (setEntry es f e) f = some e := by
  unfold setEntry
  split
  · next h => simp [lookupEntry, find?_map_update es f e h]
  · next h =>
    have hn : es.find? (fun p => p.1 = f) = none := by
      cases hx : es.find? (fun p => p.1 = f) with
      | none => rfl
      | some a => rw [hx] at h; simp at h
    simp [lookupEntry, find?_append_new es f e hn]

theorem frameEvictable_false (s : LRUK)
    (h : ∀ e ∈ s.entries, e.2.isEvictable = false) (f : Nat) :
    frameEvictable s f = false := by
  unfold frameEvictable getEntry lookupEntry
  cases hf : s.entries.find? (fun p => p.1 = f) with
  | none => simp [LEntry.default]
  | some a =>
    have := List.mem_of_find?_eq_some hf
    simp [h a this]

theorem evict_none (s : LRUK) (h : ∀ e ∈ s.entries, e.2.isEvictable = false) :
    evict s = none := by
  unfold evict
  rw [List.find?_eq_none.mpr (fun x _ => by simp [frameEvictable_false s h x]),
      List.find?_eq_none.mpr (fun x _ => by simp [frameEvictable_false s h x])]

theorem recordAccess_isSome (s : LRUK) (f : Nat) (h : f ≤ s.replacerSize) :
    (recordAccess s f).isSome := by
  unfold recordAccess
  rw [if_neg (by omega)]
  dsimp only
  split_ifs <;> simp

theorem recordAccess_replacerSize (s : LRUK) (f : Nat) (r : LRUK)
    (h : recordAccess s f = some r) : r.replacerSize = s.replacerSize := by
  unfold recordAccess at h
  split at h
  · exact absurd h (by simp)
  · dsimp only at h
    split_ifs at h <;> (simp only [Option.some.injEq] at h; rw [← h])

theorem setEvictable_isSome (s : LRUK) (f : Nat) (b : Bool) (h : f ≤ s.replacerSize) :
    (setEvictable s f b).isSome := by
  unfold setEvictable
  rw [if_neg (by omega)]
  cases hl : lookupEntry s.entries f with
  | none => simp
  | some e =>
    dsimp only
    split_ifs <;> simp

theorem evict_replacerSize (s : LRUK) (f : Nat) (r : LRUK) (h : evict s = some (f, r)) :
    r.replacerSize = s.replacerSize := by
  unfold evict at h
  split at h
  · simp only [Option.some.injEq, Prod.mk.injEq] at h
    rw [← h.2]
  · split at h
    · simp only [Option.some.injEq, Prod.mk.injEq] at h
      rw [← h.2]
    · exact absurd h (by simp)

theorem evict_mem (s : LRUK) (f : Nat) (r : LRUK) (h : evict s = some (f, r)) :
    f ∈ s.inf ∨ f ∈ s.kth := by
  unfold evict at h
  split at h
  · next heq =>
    simp only [Option.some.injEq, Prod.mk.injEq] at h
    exact Or.inl (List.mem_reverse.mp (List.mem_of_find?_eq_some (h.1 ▸ heq)))
  · split at h
    · next heq =>
      simp only [Option.some.injEq, Prod.mk.injEq] at h
      exact Or.inr (List.mem_reverse.mp (List.mem_of_find?_eq_some (h.1 ▸ heq)))
    · exact absurd h (by simp)

theorem installFrame_isSome (s : BPM) (f pid : Nat) (h : f ≤ s.replacer.replacerSize) :
    (installFrame s f pid).isSome := by
  unfold installFrame
  dsimp only
  cases hra : recordAccess s.replacer f with
  | none =>
    have := recordAccess_isSome s.replacer f h
    rw [hra] at this
    simp at this
  | some r1 =>
    have hsz : r1.replacerSize = s.replacer.replacerSize :=
      recordAccess_replacerSize s.replacer f r1 hra
    cases hse : setEvictable r1 f false with
    | none =>
      have := setEvictable_isSome r1 f false (by omega)
      rw [hse] at this
      simp at this
    | some r2 => dsimp only; rw [hse]; simp

theorem acquireFrame_spec (s : BPM) (hfree : s.freeList = []) (g : Nat) (r : LRUK)
    (hev : evict s.replacer = some (g, r)) :
    (acquireFrame s).1 = some g ∧ (acquireFrame s).2.replacer = r := by
  unfold acquireFrame
  rw [hfree, hev]
  dsimp only
  constructor
  · split <;> rfl
  · split <;> first
    | rfl
    | (split <;> rfl)

theorem newPage_succeeds (s : BPM) (g : Nat) (s2 : BPM)
    (hacq : acquireFrame s = (some g, s2))
    (hgle : g ≤ s2.replacer.replacerSize) :
    ∃ pid2 s3, newPage s = some (some pid2, s3) := by
  obtain ⟨s3, hif⟩ := Option.isSome_iff_exists.mp
    (installFrame_isSome (setFrame { s2 with nextPageId := s2.nextPageId + 1 } g
      { getFrame s2 g with pageId := some s2.nextPageId }) g s2.nextPageId
      (by simpa [setFrame] using hgle))
  refine ⟨s2.nextPageId, s3, ?_⟩
  unfold newPage
  rw [hacq]
  exact (by rw [hif] :
    (match installFrame (setFrame { s2 with nextPageId := s2.nextPageId + 1 } g
        { getFrame s2 g with pageId := some s2.nextPageId }) g s2.nextPageId with
      | none => none
      | some s3 => some (some s2.nextPageId, s3)) = some (some s2.nextPageId, s3))

/-- C4: in a pool whose free list is empty, with every frame pinned and
no frame evictable in the replacer, `NewPage` returns the null result
with the state unchanged and `Fetch` of any non-resident page id does
the same; and after one successful `Unpin` dropping a resident page's
pin count from 1 to 0, the next `NewPage` succeeds.  The last part
assumes the coherence facts a reachable pool provides: the unpinned
frame is tracked by the replacer (it has an entry and sits on one of the
two lists) and every listed frame id is within the replacer's bound. -/
theorem c4_pool_exhausted (s : BPM)
    (hfree : s.freeList = [])
    (hpin : ∀ p ∈ s.pages, 0 < p.pinCount)
    (hnoev : ∀ e ∈ s.replacer.entries, e.2.isEvictable = false) :
    newPage s = some (none, s) ∧
    (∀ pid, alFind s.pageTable pid = none → fetchPage s pid = some (none, s)) ∧
    (∀ pid f dirty, alFind s.pageTable pid = some f →
      (getFrame s f).pinCount = 1 →
      (f ∈ s.replacer.inf ∨ f ∈ s.replacer.kth) →
      (lookupEntry s.replacer.entries f).isSome →
      (∀ g, g ∈ s.replacer.inf ∨ g ∈ s.replacer.kth → g ≤ s.replacer.replacerSize) →
      ∃ s1, unpinPage s pid dirty = some (true, s1) ∧
        ∃ pid2 s2, newPage s1 = some (some pid2, s2)) := by
  refine ⟨?_, ?_, ?_⟩
  · simp [newPage, acquireFrame, hfree, evict_none s.replacer hnoev]
  · intro pid h
    simp [fetchPage, h, acquireFrame, hfree, evict_none s.replacer hnoev]
  · intro pid f dirty hfind hpc hmem hlook hbound
    obtain ⟨e, he⟩ := Option.isSome_iff_exists.mp hlook
    have hef : e.isEvictable = false := by
      unfold lookupEntry at he
      cases hx : s.replacer.entries.find? (fun p => p.1 = f) with
      | none => rw [hx] at he; exact absurd he (by simp)
      | some a =>
        rw [hx] at he
        have ha : a ∈ s.replacer.entries := List.mem_of_find?_eq_some hx
        have h2 : a.2 = e := by simpa using he
        rw [← h2]
        exact hnoev a ha
    have hfle : f ≤ s.replacer.replacerSize := hbound f hmem
    -- the unpin succeeds and marks the frame evictable
    have hsev : setEvictable s.replacer f true = some { s.replacer with
        entries := setEntry s.replacer.entries f { e with isEvictable := true },
        currSize := s.replacer.currSize + 1 } := by
      unfold setEvictable
      rw [if_neg (by omega)]
      rw [he]
      dsimp only
      rw [if_neg (by simp [hef])]
      rfl
    have hunpin : unpinPage s pid dirty = some (true,
        { setFrame s f { getFrame s f with pinCount := 0, isDirty := (getFrame s f).isDirty || dirty } with
          replacer := { s.replacer with
            entries := setEntry s.replacer.entries f { e with isEvictable := true },
            currSize := s.replacer.currSize + 1 } }) := by
      unfold unpinPage
      rw [hfind]
      dsimp only
      rw [if_pos (by omega)]
      rw [hpc]
      rw [if_pos (show (1 : Nat) - 1 = 0 from rfl)]
      dsimp only [setFrame]
      rw [hsev]
    refine ⟨_, hunpin, ?_⟩
    -- the next NewPage finds an evictable frame
    set s1 : BPM := { setFrame s f { getFrame s f with pinCount := 0, isDirty := (getFrame s f).isDirty || dirty } with
          replacer := { s.replacer with
            entries := setEntry s.replacer.entries f { e with isEvictable := true },
            currSize := s.replacer.currSize + 1 } } with hs1
    have hfe : frameEvictable s1.replacer f = true := by
      unfold frameEvictable getEntry
      rw [show s1.replacer.entries = setEntry s.replacer.entries f { e with isEvictable := true } from rfl]
      rw [lookupEntry_setEntry]
      rfl
    have hevs : ∃ g r, evict s1.replacer = some (g, r) := by
      unfold evict
      rcases hmem with hin | hin
      · cases hfd : s1.replacer.inf.reverse.find? (fun g => frameEvictable s1.replacer g) with
        | none =>
          exact absurd (List.find?_eq_none.mp hfd f
            (by rw [List.mem_reverse]; exact hin)) (by simp [hfe])
        | some g => exact ⟨g, _, rfl⟩
      · cases hfd : s1.replacer.inf.reverse.find? (fun g => frameEvictable s1.replacer g) with
        | none =>
          cases hfd2 : s1.replacer.kth.reverse.find? (fun g => frameEvictable s1.replacer g) with
          | none =>
            exact absurd (List.find?_eq_none.mp hfd2 f
              (by rw [List.mem_reverse]; exact hin)) (by simp [hfe])
          | some g => exact ⟨g, _, rfl⟩
        | some g => exact ⟨g, _, rfl⟩
    obtain ⟨g, r, hev⟩ := hevs
    have hg : g ∈ s.replacer.inf ∨ g ∈ s.replacer.kth := by
      have := evict_mem s1.replacer g r hev
      exact this
    have hgle : g ≤ s.replacer.replacerSize := hbound g hg
    -- run the acquisition and installation
    have hfree1 : s1.freeList = [] := hfree
    obtain ⟨hacq1, hacq2⟩ := acquireFrame_spec s1 hfree1 g r hev
    have hrsz : r.replacerSize = s.replacer.replacerSize := by
      have := evict_replacerSize s1.replacer g r hev
      exact this
    rcases hacq : acquireFrame s1 with ⟨o, s2⟩
    rw [hacq] at hacq1 hacq2
    simp only at hacq1 hacq2
    subst hacq1
    exact newPage_succeeds s1 g s2 hacq (by rw [hacq2, hrsz]; exact hgle)

/-- Witness for C4: the hypotheses hold at the concrete two-frame pool
reached by two `NewPage` calls, where `NewPage` then fails and, after
unpinning page 1, succeeds. -/
theorem c4_pool_exhausted_witness :
    (newPage (bpmInit 2 2)).bind (fun r => (newPage r.2).map Prod.snd) = some c4PoolState ∧
    newPage c4PoolState = some (none, c4PoolState) ∧
    (∃ s1, unpinPage c4PoolState 1 false = some (true, s1) ∧
      ∃ pid2 s2, newPage s1 = some (some pid2, s2)) :=
  ⟨by decide,
   (c4_pool_exhausted c4PoolState (by decide) (by decide) (by decide)).1,
   (c4_pool_exhausted c4PoolState (by decide) (by decide) (by decide)).2.2
     1 1 false (by decide) (by decide) (by decide) (by decide)
     (by
       intro g hg
       rcases hg with h | h
       · have h2 : g = 1 ∨ g = 0 := by simpa [c4PoolState] using h
         rcases h2 with rfl | rfl <;> decide
       · simp [c4PoolState] at h)⟩

/-! Association-list update lemmas shared by the hash-table proofs. -/

theorem find?_map_upd {b : Type} (es : List (Nat × b)) (f : Nat) (e : b)
    (h : (es.find? (fun p => p.1 = f)).isSome) :
    ((es.map (fun p => if p.1 = f then (f, e) else p)).find? (fun p => p.1 = f)) = some (f, e) := by
  induction es with
  | nil => simp at h
  | cons a t ih =>
    by_cases ha : a.1 = f
    · simp [List.find?, ha]
    · simp only [List.map, List.find?, if_neg ha]
      rw [show (decide (a.1 = f)) = false by simp [ha]]
      simp only [List.find?, show (decide (a.1 = f)) = false by simp [ha]] at h
      exact ih h

theorem find?_map_upd_ne {b : Type} (es : List (Nat × b)) (f : Nat) (e : b) (g : Nat)
    (hg : ¬ g = f) :
    ((es.map (fun p => if p.1 = f then (f, e) else p)).find? (fun p => p.1 = g)) =
      es.find? (fun p => p.1 = g) := by
  induction es with
  | nil => rfl
  | cons a t ih =>
    by_cases ha : a.1 = f
    · simp only [List.map, if_pos ha, List.find?]
      rw [show (decide ((f, e).1 = g)) = false from by
        simp only [decide_eq_false_iff_not]
        exact fun h => hg h.symm]
      rw [show (decide (a.1 = g)) = false from by
        simp only [decide_eq_false_iff_not, ha]
        exact fun h => hg h.symm]
      exact ih
    · simp only [List.map, if_neg ha, List.find?]
      cases hag : decide (a.1 = g) with
      | true => rfl
      | false => exact ih

theorem find?_app_new {b : Type} (es : List (Nat × b)) (f : Nat) (e : b)
    (h : es.find? (fun p => p.1 = f) = none) :
    ((es ++ [(f, e)]).find? (fun p => p.1 = f)) = some (f, e) := by
  induction es with
  | nil => simp [List.find?]
  | cons a t ih =>
    have ha : ¬ (a.1 = f) := by
      intro hx
      have := List.find?_eq_none.mp h a (by simp)
      simp [hx] at this
    simp only [List.cons_append, List.find?, show (decide (a.1 = f)) = false by simp [ha]]
    exact ih (by
      simp only [List.find?, show (decide (a.1 = f)) = false by simp [ha]] at h
      exact h)

theorem find?_app_ne {b : Type} (es : List (Nat × b)) (f : Nat) (e : b) (g : Nat)
    (hg : ¬ g = f) :
    ((es ++ [(f, e)]).find? (fun p => p.1 = g)) = es.find? (fun p => p.1 = g) := by
  induction es with
  | nil =>
    simp only [List.nil_append, List.find?]
    rw [show (decide ((f, e).1 = g)) = false from by
      simp only [decide_eq_false_iff_not]
      exact fun h => hg h.symm]
  | cons a t ih =>
    simp only [List.cons_append, List.find?]
    cases hag : decide (a.1 = g) with
    | true => rfl
    | false => exact ih

/-! Bucket-store lemmas. -/

theorem getBucket_setBucket_self (t : EHT) (bid : Nat) (b : HBucket) :
    getBucket (setBucket t bid b) bid = b := by
  unfold getBucket setBucket
  split
  · next h => simp [find?_map_upd t.buckets bid b h]
  · next h =>
    have hn : t.buckets.find? (fun p => p.1 = bid) = none := by
      cases hx : t.buckets.find? (fun p => p.1 = bid) with
      | none => rfl
      | some a => rw [hx] at h; simp at h
    simp [find?_app_new t.buckets bid b hn]

theorem getBucket_setBucket_ne (t : EHT) (bid : Nat) (b : HBucket) (g : Nat) (hg : ¬ g = bid) :
    getBucket (setBucket t bid b) g = getBucket t g := by
  unfold getBucket setBucket
  split
  · simp [find?_map_upd_ne t.buckets bid b g hg]
  · simp [find?_app_ne t.buckets bid b g hg]

theorem setBucket_dir (t : EHT) (bid : Nat) (b : HBucket) : (setBucket t bid b).dir = t.dir := by
  unfold setBucket
  split <;> rfl

theorem setBucket_globalDepth (t : EHT) (bid : Nat) (b : HBucket) :
    (setBucket t bid b).globalDepth = t.globalDepth := by
  unfold setBucket
  split <;> rfl

theorem setBucket_bucketSize (t : EHT) (bid : Nat) (b : HBucket) :
    (setBucket t bid b).bucketSize = t.bucketSize := by
  unfold setBucket
  split <;> rfl

theorem setBucket_nextBid (t : EHT) (bid : Nat) (b : HBucket) :
    (setBucket t bid b).nextBid = t.nextBid := by
  unfold setBucket
  split <;> rfl

theorem bucketAt_setBucket (t : EHT) (bid : Nat) (b : HBucket) (i : Nat) :
    bucketAt (setBucket t bid b) i = if dirAt t i = bid then b else bucketAt t i := by
  unfold bucketAt
  rw [show dirAt (setBucket t bid b) i = dirAt t i by unfold dirAt; rw [setBucket_dir]]
  by_cases h : dirAt t i = bid
  · rw [if_pos h, h, getBucket_setBucket_self]
  · rw [if_neg h, getBucket_setBucket_ne t bid b _ h]

/-! Arithmetic helpers on bits and residues. -/

theorem mod_pow_succ_of_testBit_false (n d : Nat) (h : n.testBit d = false) :
    n % 2 ^ (d + 1) = n % 2 ^ d := by
  rw [Nat.mod_pow_succ]
  rw [Nat.testBit_to_div_mod] at h
  have h2 : n / 2 ^ d % 2 = 0 := by
    have := Nat.mod_lt (n / 2 ^ d) (show 0 < 2 by omega)
    simp only [decide_eq_false_iff_not] at h
    omega
  rw [h2]
  omega

theorem mod_pow_succ_of_testBit_true (n d : Nat) (h : n.testBit d = true) :
    n % 2 ^ (d + 1) = n % 2 ^ d + 2 ^ d := by
  rw [Nat.mod_pow_succ]
  rw [Nat.testBit_to_div_mod] at h
  simp only [decide_eq_true_eq] at h
  rw [h]
  omega

theorem mod_pow_succ_eq (a c d : Nat) (hmod : a % 2 ^ d = c % 2 ^ d)
    (hbit : a.testBit d = c.testBit d) : a % 2 ^ (d + 1) = c % 2 ^ (d + 1) := by
  cases hb : a.testBit d with
  | false =>
    rw [mod_pow_succ_of_testBit_false a d hb, mod_pow_succ_of_testBit_false c d (hbit ▸ hb)]
    exact hmod
  | true =>
    rw [mod_pow_succ_of_testBit_true a d hb, mod_pow_succ_of_testBit_true c d (hbit ▸ hb)]
    omega

theorem mod_pow_succ_eq_inv (a c d : Nat) (h : a % 2 ^ (d + 1) = c % 2 ^ (d + 1)) :
    a % 2 ^ d = c % 2 ^ d ∧ a.testBit d = c.testBit d := by
  have ha : a % 2 ^ (d + 1) = a % 2 ^ d + 2 ^ d * (a / 2 ^ d % 2) := Nat.mod_pow_succ
  have hc : c % 2 ^ (d + 1) = c % 2 ^ d + 2 ^ d * (c / 2 ^ d % 2) := Nat.mod_pow_succ
  have ha2 : a % 2 ^ d < 2 ^ d := Nat.mod_lt _ (Nat.pos_pow_of_pos d (by omega))
  have hc2 : c % 2 ^ d < 2 ^ d := Nat.mod_lt _ (Nat.pos_pow_of_pos d (by omega))
  have hma : a / 2 ^ d % 2 < 2 := Nat.mod_lt _ (by omega)
  have hmc : c / 2 ^ d % 2 < 2 := Nat.mod_lt _ (by omega)
  have hb1 : a / 2 ^ d % 2 = 0 ∨ a / 2 ^ d % 2 = 1 := by omega
  have hb2 : c / 2 ^ d % 2 = 0 ∨ c / 2 ^ d % 2 = 1 := by omega
  constructor
  · rcases hb1 with h1 | h1 <;> rcases hb2 with h2 | h2 <;>
      (rw [h1] at ha; rw [h2] at hc; omega)
  · rcases hb1 with h1 | h1 <;> rcases hb2 with h2 | h2 <;>
      rw [Nat.testBit_to_div_mod, Nat.testBit_to_div_mod, h1, h2] <;>
      first
      | rfl
      | (exfalso; rw [h1] at ha; rw [h2] at hc; omega)

theorem mod_mod_pow (n d g : Nat) (h : d ≤ g) : n % 2 ^ g % 2 ^ d = n % 2 ^ d :=
  Nat.mod_mod_of_dvd n (pow_dvd_pow 2 h)

theorem testBit_of_mod_two_pow (n d g : Nat) (h : d < g) :
    (n % 2 ^ g).testBit d = n.testBit d := by
  rw [Nat.testBit_mod_two_pow]
  simp [h]

/-! Structural lemmas about `expansion` and `redistributeBucket`. -/

theorem enum_map_getD {α β : Type} (l : List α) (f : Nat × α → β) (i : Nat) (d : β)
    (dflt : α) (h : i < l.length) :
    (l.enum.map f).getD i d = f (i, l.getD i dflt) := by
  simp [List.getD, List.getElem?_map, List.getElem?_enum, List.getElem?_eq_getElem h]

theorem dirAt_expansion (t : EHT) (i : Nat) :
    dirAt (expansion t) i = if i < t.dir.length then dirAt t i else dirAt t (i - t.dir.length) := by
  unfold expansion dirAt
  dsimp only
  by_cases h : i < t.dir.length
  · rw [if_pos h, List.getD_append _ _ _ _ h]
  · rw [if_neg h]
    rw [List.getD_append_right _ _ _ _ (by omega)]

theorem bucketAt_expansion (t : EHT) (i : Nat) :
    bucketAt (expansion t) i =
      if i < t.dir.length then bucketAt t i else bucketAt t (i - t.dir.length) := by
  unfold bucketAt
  rw [dirAt_expansion]
  split <;> rfl

theorem redistribute_globalDepth (hash : Nat → Nat) (t : EHT) (bid k : Nat) :
    (redistributeBucket hash t bid k).globalDepth = t.globalDepth := by
  unfold redistributeBucket
  dsimp only
  rw [setBucket_globalDepth, setBucket_globalDepth]

theorem redistribute_bucketSize (hash : Nat → Nat) (t : EHT) (bid k : Nat) :
    (redistributeBucket hash t bid k).bucketSize = t.bucketSize := by
  unfold redistributeBucket
  dsimp only
  rw [setBucket_bucketSize, setBucket_bucketSize]

theorem redistribute_nextBid (hash : Nat → Nat) (t : EHT) (bid k : Nat) :
    (redistributeBucket hash t bid k).nextBid = t.nextBid + 2 := by
  unfold redistributeBucket
  dsimp only
  rw [setBucket_nextBid, setBucket_nextBid]

theorem redistribute_dirLen (hash : Nat → Nat) (t : EHT) (bid k : Nat) :
    (redistributeBucket hash t bid k).dir.length = t.dir.length := by
  unfold redistributeBucket
  dsimp only
  rw [List.length_map, List.enum_length, setBucket_dir, setBucket_dir]

theorem dirAt_redistribute (hash : Nat → Nat) (t : EHT) (bid k i : Nat) (hi : i < t.dir.length) :
    dirAt (redistributeBucket hash t bid k) i =
      if i % 2 ^ (getBucket t bid).depth = hash k % 2 ^ (getBucket t bid).depth then
        (if i.testBit (getBucket t bid).depth then t.nextBid + 1 else t.nextBid)
      else dirAt t i := by
  unfold redistributeBucket
  dsimp only
  unfold dirAt
  dsimp only
  rw [setBucket_dir, setBucket_dir]
  rw [enum_map_getD t.dir _ i 0 0 hi]

theorem getBucket_redistribute (hash : Nat → Nat) (t : EHT) (bid k g : Nat) :
    getBucket (redistributeBucket hash t bid k) g =
      if g = t.nextBid + 1 then
        { depth := (getBucket t bid).depth + 1,
          items := (getBucket t bid).items.filter
            (fun kv => (hash kv.1).testBit (getBucket t bid).depth) }
      else if g = t.nextBid then
        { depth := (getBucket t bid).depth + 1,
          items := (getBucket t bid).items.filter
            (fun kv => !(hash kv.1).testBit (getBucket t bid).depth) }
      else getBucket t g := by
  have hb : getBucket (redistributeBucket hash t bid k) g =
      getBucket (setBucket (setBucket t t.nextBid
        { depth := (getBucket t bid).depth + 1,
          items := (getBucket t bid).items.filter
            (fun kv => !(hash kv.1).testBit (getBucket t bid).depth) })
        (t.nextBid + 1)
        { depth := (getBucket t bid).depth + 1,
          items := (getBucket t bid).items.filter
            (fun kv => (hash kv.1).testBit (getBucket t bid).depth) }) g := rfl
  rw [hb]
  by_cases h1 : g = t.nextBid + 1
  · rw [if_pos h1, h1, getBucket_setBucket_self]
  · rw [if_neg h1, getBucket_setBucket_ne _ _ _ _ h1]
    by_cases h0 : g = t.nextBid
    · rw [if_pos h0, h0, getBucket_setBucket_self]
    · rw [if_neg h0, getBucket_setBucket_ne _ _ _ _ h0]

/-! Preservation of the directory invariant. -/

theorem einv_init (hash : Nat → Nat) (bsz : Nat) : EInv hash (ehtInit bsz) := by
  refine ⟨rfl, ?_, ?_, ?_, ?_, ?_⟩
  · intro i hi
    have h0 : i = 0 := by simp [ehtInit] at hi; omega
    subst h0
    exact Nat.le_refl 0
  · intro i j hi hj h
    have h0 : i = 0 := by simp [ehtInit] at hi; omega
    have h1 : j = 0 := by simp [ehtInit] at hj; omega
    subst h0; subst h1; rfl
  · intro i j hi hj h
    have h0 : i = 0 := by simp [ehtInit] at hi; omega
    have h1 : j = 0 := by simp [ehtInit] at hj; omega
    subst h0; subst h1; rfl
  · intro i hi kv hkv
    have h0 : i = 0 := by simp [ehtInit] at hi; omega
    subst h0
    simp [ehtInit, bucketAt, dirAt, getBucket] at hkv
  · intro i hi
    have h0 : i = 0 := by simp [ehtInit] at hi; omega
    subst h0
    simp [ehtInit, bucketAt, dirAt, getBucket]

theorem indexOf_lt (hash : Nat → Nat) (t : EHT) (k : Nat) (hinv : EInv hash t) :
    indexOf hash t k < t.dir.length := by
  rw [hinv.dirLen]
  exact Nat.mod_lt _ (Nat.pos_pow_of_pos _ (by omega))

theorem class_iff (hash : Nat → Nat) (t : EHT) (k : Nat) (hinv : EInv hash t)
    (i : Nat) (hi : i < t.dir.length) :
    (dirAt t i = dirAt t (indexOf hash t k) ↔
      i % 2 ^ (bucketAt t (indexOf hash t k)).depth =
        hash k % 2 ^ (bucketAt t (indexOf hash t k)).depth) := by
  have hidx := indexOf_lt hash t k hinv
  have hmod : indexOf hash t k % 2 ^ (bucketAt t (indexOf hash t k)).depth =
      hash k % 2 ^ (bucketAt t (indexOf hash t k)).depth := by
    unfold indexOf
    exact mod_mod_pow _ _ _ (hinv.ldLe _ hidx)
  constructor
  · intro h
    have hb : bucketAt t i = bucketAt t (indexOf hash t k) := by
      unfold bucketAt
      rw [h]
    have := hinv.sameClass i (indexOf hash t k) hi hidx h
    rw [hb] at this
    rw [this, hmod]
  · intro h
    exact (hinv.cover (indexOf hash t k) i hidx hi (by rw [hmod, h])).symm

theorem einv_setBucket (hash : Nat → Nat) (t : EHT) (i0 : Nat) (b : HBucket)
    (hinv : EInv hash t) (hi0 : i0 < t.dir.length)
    (hd : b.depth = (bucketAt t i0).depth)
    (hpl : ∀ kv ∈ b.items, hash kv.1 % 2 ^ b.depth = i0 % 2 ^ b.depth) :
    EInv hash (setBucket t (dirAt t i0) b) := by
  have hdir : (setBucket t (dirAt t i0) b).dir = t.dir := setBucket_dir _ _ _
  have hgd : (setBucket t (dirAt t i0) b).globalDepth = t.globalDepth := setBucket_globalDepth _ _ _
  have hda : ∀ j, dirAt (setBucket t (dirAt t i0) b) j = dirAt t j := by
    intro j
    unfold dirAt
    rw [setBucket_dir]
  have hba : ∀ j, bucketAt (setBucket t (dirAt t i0) b) j =
      if dirAt t j = dirAt t i0 then b else bucketAt t j := fun j => bucketAt_setBucket t _ b j
  have hdepth : ∀ j, j < t.dir.length →
      (bucketAt (setBucket t (dirAt t i0) b) j).depth = (bucketAt t j).depth := by
    intro j hj
    rw [hba j]
    by_cases h : dirAt t j = dirAt t i0
    · rw [if_pos h, hd]
      unfold bucketAt
      rw [h]
    · rw [if_neg h]
  refine ⟨?_, ?_, ?_, ?_, ?_, ?_⟩
  · rw [hdir, hgd]
    exact hinv.dirLen
  · intro i hi
    rw [hdir] at hi
    rw [hgd, hdepth i hi]
    exact hinv.ldLe i hi
  · intro i j hi hj h
    rw [hdir] at hi hj
    rw [hda, hda] at h
    rw [hdepth i hi]
    exact hinv.sameClass i j hi hj h
  · intro i j hi hj h
    rw [hdir] at hi hj
    rw [hda, hda]
    rw [hdepth i hi] at h
    exact hinv.cover i j hi hj h
  · intro i hi kv hkv
    rw [hdir] at hi
    rw [hdepth i hi]
    rw [hba i] at hkv
    by_cases h : dirAt t i = dirAt t i0
    · rw [if_pos h] at hkv
      have hbi : bucketAt t i = bucketAt t i0 := by
        unfold bucketAt
        rw [h]
      have h1 := hpl kv hkv
      rw [hd] at h1
      have h2 := hinv.sameClass i i0 hi hi0 h
      rw [hbi]
      rw [hbi] at h2
      rw [h1, h2]
    · rw [if_neg h] at hkv
      exact hinv.placed i hi kv hkv
  · intro i hi
    rw [hdir] at hi
    rw [hda]
    rw [show (setBucket t (dirAt t i0) b).nextBid = t.nextBid from setBucket_nextBid _ _ _]
    exact hinv.fresh i hi

theorem einv_expansion (hash : Nat → Nat) (t : EHT) (hinv : EInv hash t) :
    EInv hash (expansion t) := by
  have hlen : (expansion t).dir.length = 2 * t.dir.length := by
    unfold expansion
    simp
    omega
  have hgd : (expansion t).globalDepth = t.globalDepth + 1 := rfl
  have hred : ∀ i, i < (expansion t).dir.length →
      dirAt (expansion t) i = dirAt t (if i < t.dir.length then i else i - t.dir.length) ∧
      (if i < t.dir.length then i else i - t.dir.length) < t.dir.length ∧
      (if i < t.dir.length then i else i - t.dir.length) % 2 ^ t.globalDepth =
        i % 2 ^ t.globalDepth := by
    intro i hi
    rw [hlen] at hi
    refine ⟨by rw [dirAt_expansion]; split <;> rfl, ?_, ?_⟩
    · split <;> omega
    · split
      · rfl
      · rw [hinv.dirLen]
        have h2 : i - 2 ^ t.globalDepth + 2 ^ t.globalDepth = i := by
          rw [hinv.dirLen] at *
          omega
        rw [hinv.dirLen] at *
        conv_rhs => rw [← h2]
        rw [Nat.add_mod_right]
  have hbase : ∀ i, i < (expansion t).dir.length →
      bucketAt (expansion t) i = bucketAt t (if i < t.dir.length then i else i - t.dir.length) := by
    intro i hi
    unfold bucketAt
    rw [(hred i hi).1]
    rfl
  have hmodeq : ∀ i, i < (expansion t).dir.length → ∀ d, d ≤ t.globalDepth →
      (if i < t.dir.length then i else i - t.dir.length) % 2 ^ d = i % 2 ^ d := by
    intro i hi d hd
    have h3 := (hred i hi).2.2
    calc (if i < t.dir.length then i else i - t.dir.length) % 2 ^ d
        = (if i < t.dir.length then i else i - t.dir.length) % 2 ^ t.globalDepth % 2 ^ d := by
          rw [mod_mod_pow _ _ _ hd]
      _ = i % 2 ^ t.globalDepth % 2 ^ d := by rw [h3]
      _ = i % 2 ^ d := by rw [mod_mod_pow _ _ _ hd]
  refine ⟨?_, ?_, ?_, ?_, ?_, ?_⟩
  · rw [hlen, hgd, hinv.dirLen]
    ring
  · intro i hi
    rw [hbase i hi, hgd]
    have := hinv.ldLe _ (hred i hi).2.1
    omega
  · intro i j hi hj h
    rw [(hred i hi).1, (hred j hj).1] at h
    rw [hbase i hi]
    have hd := hinv.ldLe _ (hred i hi).2.1
    have := hinv.sameClass _ _ (hred i hi).2.1 (hred j hj).2.1 h
    rw [hmodeq i hi _ hd, hmodeq j hj _ hd] at this
    exact this
  · intro i j hi hj h
    rw [(hred i hi).1, (hred j hj).1]
    have hd := hinv.ldLe _ (hred i hi).2.1
    apply hinv.cover _ _ (hred i hi).2.1 (hred j hj).2.1
    rw [hbase i hi] at h
    rw [hmodeq i hi _ hd, hmodeq j hj _ hd]
    exact h
  · intro i hi kv hkv
    rw [hbase i hi] at hkv ⊢
    have hd := hinv.ldLe _ (hred i hi).2.1
    have hp := hinv.placed _ (hred i hi).2.1 kv hkv
    rw [hmodeq i hi _ hd] at hp
    exact hp
  · intro i hi
    rw [(hred i hi).1]
    exact hinv.fresh _ (hred i hi).2.1

theorem einv_redistribute (hash : Nat → Nat) (t : EHT) (k : Nat) (hinv : EInv hash t)
    (hod : (bucketAt t (indexOf hash t k)).depth < t.globalDepth) :
    EInv hash (redistributeBucket hash t (dirAt t (indexOf hash t k)) k) := by
  set idx := indexOf hash t k with hidxdef
  set bid := dirAt t idx with hbiddef
  have hidx : idx < t.dir.length := indexOf_lt hash t k hinv
  set od := (bucketAt t idx).depth with hoddef
  have hodb : (getBucket t bid).depth = od := rfl
  set p := hash k % 2 ^ od with hpdef
  set t2 := redistributeBucket hash t bid k with ht2
  have hlen2 : t2.dir.length = t.dir.length := redistribute_dirLen hash t bid k
  have hgd2 : t2.globalDepth = t.globalDepth := redistribute_globalDepth hash t bid k
  have hnb2 : t2.nextBid = t.nextBid + 2 := redistribute_nextBid hash t bid k
  have hclass : ∀ i, i < t.dir.length → (dirAt t i = bid ↔ i % 2 ^ od = p) :=
    fun i hi => class_iff hash t k hinv i hi
  have hpk : idx % 2 ^ od = p := by
    rw [hidxdef, hpdef]
    unfold indexOf
    exact mod_mod_pow _ _ _ (hinv.ldLe _ hidx)
  have hda2 : ∀ i, i < t.dir.length → dirAt t2 i =
      if i % 2 ^ od = p then (if i.testBit od then t.nextBid + 1 else t.nextBid)
      else dirAt t i := by
    intro i hi
    rw [ht2, dirAt_redistribute hash t bid k i hi, hodb]
  have hb1 : getBucket t2 (t.nextBid + 1) =
      { depth := od + 1, items := (getBucket t bid).items.filter
          (fun kv => (hash kv.1).testBit od) } := by
    rw [ht2, getBucket_redistribute, hodb, if_pos rfl]
  have hb0 : getBucket t2 t.nextBid =
      { depth := od + 1, items := (getBucket t bid).items.filter
          (fun kv => !(hash kv.1).testBit od) } := by
    rw [ht2, getBucket_redistribute, hodb, if_neg (by omega), if_pos rfl]
  have hgb2 : ∀ g, ¬ g = t.nextBid + 1 → ¬ g = t.nextBid → getBucket t2 g = getBucket t g := by
    intro g h1 h0
    rw [ht2, getBucket_redistribute, if_neg h1, if_neg h0]
  -- the shape of bucketAt in the new table
  have hshape : ∀ i, i < t.dir.length →
      (i % 2 ^ od = p →
        bucketAt t2 i = { depth := od + 1, items := List.filter (fun kv => (hash kv.1).testBit od = i.testBit od) (getBucket t bid).items }) ∧
      (¬ i % 2 ^ od = p → bucketAt t2 i = bucketAt t i) := by
    intro i hi
    constructor
    · intro hcl
      unfold bucketAt
      rw [hda2 i hi, if_pos hcl]
      cases hbit : i.testBit od with
      | true =>
        rw [if_pos rfl, hb1]
        congr 1
        apply List.filter_congr
        intro kv _
        simp [hbit]
      | false =>
        rw [if_neg (by simp [hbit]), hb0]
        congr 1
        apply List.filter_congr
        intro kv _
        simp [hbit]
    · intro hcl
      unfold bucketAt
      rw [hda2 i hi, if_neg hcl]
      have hfr := hinv.fresh i hi
      exact hgb2 _ (by omega) (by omega)
  -- placement of the old bucket's items
  have holdpl : ∀ kv ∈ (getBucket t bid).items, hash kv.1 % 2 ^ od = p := by
    intro kv hkv
    have h1 := hinv.placed idx hidx kv hkv
    rw [hpk] at h1
    exact h1
  have hplt : p < 2 ^ od := Nat.mod_lt _ (Nat.pos_pow_of_pos _ (by omega))
  refine ⟨?_, ?_, ?_, ?_, ?_, ?_⟩
  · rw [hlen2, hgd2]
    exact hinv.dirLen
  · intro i hi
    rw [hlen2] at hi
    rw [hgd2]
    by_cases hcl : i % 2 ^ od = p
    · rw [((hshape i hi).1 hcl)]
      dsimp only
      omega
    · rw [((hshape i hi).2 hcl)]
      exact hinv.ldLe i hi
  · -- sameClass
    intro i j hi hj h
    rw [hlen2] at hi hj
    rw [hda2 i hi, hda2 j hj] at h
    by_cases hci : i % 2 ^ od = p
    · rw [((hshape i hi).1 hci)]
      by_cases hcj : j % 2 ^ od = p
      · rw [if_pos hci, if_pos hcj] at h
        have hfri := hinv.fresh i hi
        cases hbi : i.testBit od with
        | true =>
          cases hbj : j.testBit od with
          | true =>
            exact mod_pow_succ_eq i j od (by omega) (by simp [hbi, hbj])
          | false => rw [hbi, hbj] at h; simp at h
        | false =>
          cases hbj : j.testBit od with
          | true => rw [hbi, hbj] at h; simp at h
          | false =>
            exact mod_pow_succ_eq i j od (by omega) (by simp [hbi, hbj])
      · rw [if_pos hci, if_neg hcj] at h
        have hfrj := hinv.fresh j hj
        split at h <;> omega
    · rw [((hshape i hi).2 hci)]
      by_cases hcj : j % 2 ^ od = p
      · rw [if_neg hci, if_pos hcj] at h
        have hfri := hinv.fresh i hi
        split at h <;> omega
      · rw [if_neg hci, if_neg hcj] at h
        exact hinv.sameClass i j hi hj h
  · -- cover
    intro i j hi hj h
    rw [hlen2] at hi hj
    rw [hda2 i hi, hda2 j hj]
    by_cases hci : i % 2 ^ od = p
    · rw [((hshape i hi).1 hci)] at h
      dsimp only at h
      obtain ⟨hmodj, hbitj⟩ := mod_pow_succ_eq_inv i j od h
      have hcj : j % 2 ^ od = p := by rw [← hmodj, hci]
      rw [if_pos hci, if_pos hcj, ← hbitj]
    · rw [((hshape i hi).2 hci)] at h
      have hcj : ¬ j % 2 ^ od = p := by
        intro hcj
        have hdij : dirAt t i = dirAt t j := hinv.cover i j hi hj h
        have hjb : dirAt t j = bid := (hclass j hj).mpr hcj
        exact hci ((hclass i hi).mp (by rw [hdij, hjb]))
      rw [if_neg hci, if_neg hcj]
      exact hinv.cover i j hi hj h
  · -- placed
    intro i hi kv hkv
    rw [hlen2] at hi
    by_cases hcl : i % 2 ^ od = p
    · rw [((hshape i hi).1 hcl)] at hkv ⊢
      dsimp only at hkv ⊢
      have hmem := List.mem_of_mem_filter hkv
      have hbit : (hash kv.1).testBit od = i.testBit od := by
        have := List.of_mem_filter hkv
        simpa using this
      have hm := holdpl kv hmem
      exact mod_pow_succ_eq _ _ _ (by rw [hm, hcl]) hbit
    · rw [((hshape i hi).2 hcl)] at hkv ⊢
      exact hinv.placed i hi kv hkv
  · intro i hi
    rw [hlen2] at hi
    rw [hda2 i hi, hnb2]
    have := hinv.fresh i hi
    split
    · split <;> omega
    · omega

theorem getBucket_expansion (t : EHT) (g : Nat) :
    getBucket (expansion t) g = getBucket t g := rfl

theorem indexOf_expansion (hash : Nat → Nat) (t : EHT) (k : Nat) (hinv : EInv hash t) :
    dirAt (expansion t) (indexOf hash (expansion t) k) = dirAt t (indexOf hash t k) := by
  have hgd : (expansion t).globalDepth = t.globalDepth + 1 := rfl
  set g := t.globalDepth with hg
  set i1 := indexOf hash (expansion t) k with hi1
  have hi1v : i1 = hash k % 2 ^ (g + 1) := rfl
  have hlt : i1 < 2 ^ (g + 1) := by
    rw [hi1v]
    exact Nat.mod_lt _ (Nat.pos_pow_of_pos _ (by omega))
  have hmm : i1 % 2 ^ g = indexOf hash t k := by
    rw [hi1v]
    unfold indexOf
    exact mod_mod_pow _ _ _ (by omega)
  rw [dirAt_expansion]
  rw [hinv.dirLen]
  by_cases hc : i1 < 2 ^ g
  · rw [if_pos hc, ← hmm, Nat.mod_eq_of_lt hc]
  · rw [if_neg hc, ← hmm]
    congr 1
    have h2 : i1 - 2 ^ g < 2 ^ g := by
      have : (2:Nat) ^ (g + 1) = 2 ^ g + 2 ^ g := by ring
      omega
    have h3 : i1 % 2 ^ g = (i1 - 2 ^ g) % 2 ^ g := by
      conv_lhs => rw [show i1 = i1 - 2 ^ g + 2 ^ g by omega]
      rw [Nat.add_mod_right]
    rw [h3, Nat.mod_eq_of_lt h2]

theorem einv_splitStep (hash : Nat → Nat) (t : EHT) (k : Nat) (hinv : EInv hash t) :
    EInv hash (splitStep hash t k) := by
  unfold splitStep
  dsimp only
  by_cases hc : (getBucket t (dirAt t (indexOf hash t k))).depth = t.globalDepth
  · rw [if_pos hc]
    have hinv1 : EInv hash (expansion t) := einv_expansion hash t hinv
    have hfix : dirAt t (indexOf hash t k) =
        dirAt (expansion t) (indexOf hash (expansion t) k) :=
      (indexOf_expansion hash t k hinv).symm
    rw [hfix]
    apply einv_redistribute hash (expansion t) k hinv1
    rw [show bucketAt (expansion t) (indexOf hash (expansion t) k) =
        getBucket (expansion t) (dirAt (expansion t) (indexOf hash (expansion t) k)) from rfl]
    rw [← hfix, getBucket_expansion]
    rw [show getBucket t (dirAt t (indexOf hash t k)) = bucketAt t (indexOf hash t k) from rfl] at hc
    rw [show (expansion t).globalDepth = t.globalDepth + 1 from rfl]
    rw [show getBucket t (dirAt t (indexOf hash t k)) = bucketAt t (indexOf hash t k) from rfl]
    omega
  · rw [if_neg hc]
    apply einv_redistribute hash t k hinv
    have := hinv.ldLe (indexOf hash t k) (indexOf_lt hash t k hinv)
    rw [show getBucket t (dirAt t (indexOf hash t k)) = bucketAt t (indexOf hash t k) from rfl] at hc
    omega

theorem einv_insertLoop (hash : Nat → Nat) (k : Nat) :
    ∀ (fuel : Nat) (t t' : EHT), EInv hash t → insertLoop hash fuel t k = some t' →
      EInv hash t' := by
  intro fuel
  induction fuel with
  | zero =>
    intro t t' hinv h
    unfold insertLoop at h
    split at h
    · exact absurd h (by simp)
    · simp only [Option.some.injEq] at h
      rw [← h]
      exact hinv
  | succ n ih =>
    intro t t' hinv h
    unfold insertLoop at h
    split at h
    · exact ih _ _ (einv_splitStep hash t k hinv) h
    · simp only [Option.some.injEq] at h
      rw [← h]
      exact hinv

theorem bInsert_depth (cap : Nat) (b : HBucket) (k v : Nat) :
    (bInsert cap b k v).depth = b.depth := by
  unfold bInsert
  split_ifs <;> rfl

theorem bInsert_mem (cap : Nat) (b : HBucket) (k v : Nat) (kv : Nat × Nat)
    (h : kv ∈ (bInsert cap b k v).items) : kv ∈ b.items ∨ kv.1 = k := by
  unfold bInsert at h
  split_ifs at h
  · dsimp only at h
    obtain ⟨a, ha, hae⟩ := List.mem_map.mp h
    by_cases hak : a.1 = k
    · rw [if_pos hak] at hae
      right
      rw [← hae]
    · rw [if_neg hak] at hae
      left
      rw [← hae]
      exact ha
  · exact Or.inl h
  · dsimp only at h
    rcases List.mem_append.mp h with h2 | h2
    · exact Or.inl h2
    · right
      have : kv = (k, v) := by simpa using h2
      rw [this]

theorem einv_insert_target (hash : Nat → Nat) (t : EHT) (k v cap : Nat) (hinv : EInv hash t) :
    EInv hash (setBucket t (dirAt t (indexOf hash t k))
      (bInsert cap (bucketAt t (indexOf hash t k)) k v)) := by
  have hidx := indexOf_lt hash t k hinv
  apply einv_setBucket hash t (indexOf hash t k) _ hinv hidx
  · exact bInsert_depth _ _ _ _
  · intro kv hkv
    rw [bInsert_depth]
    rcases bInsert_mem _ _ _ _ kv hkv with h | h
    · exact hinv.placed _ hidx kv h
    · rw [h]
      have hd := hinv.ldLe _ hidx
      exact (mod_mod_pow (hash k) _ _ hd).symm

theorem einv_ehtInsert (hash : Nat → Nat) (fuel : Nat) (t : EHT) (k v : Nat) (t' : EHT)
    (hinv : EInv hash t) (h : ehtInsert hash fuel t k v = some t') : EInv hash t' := by
  unfold ehtInsert at h
  dsimp only at h
  split_ifs at h
  · simp only [Option.some.injEq] at h
    rw [← h]
    exact einv_insert_target hash t k v t.bucketSize hinv
  · cases hl : insertLoop hash fuel t k with
    | none => rw [hl] at h; exact absurd h (by simp)
    | some t1 =>
      rw [hl] at h
      simp only [Option.some.injEq] at h
      have hinv1 : EInv hash t1 := einv_insertLoop hash k fuel t t1 hinv hl
      rw [← h]
      have := einv_insert_target hash t1 k v t1.bucketSize hinv1
      exact this

theorem bRemove_depth (b : HBucket) (k : Nat) : ((bRemove b k).2).depth = b.depth := by
  unfold bRemove
  split_ifs <;> rfl

theorem bRemove_mem (b : HBucket) (k : Nat) (kv : Nat × Nat)
    (h : kv ∈ ((bRemove b k).2).items) : kv ∈ b.items := by
  unfold bRemove at h
  split_ifs at h
  · dsimp only at h
    exact (List.eraseP_sublist _).mem h
  · exact h

theorem einv_ehtRemove (hash : Nat → Nat) (t : EHT) (k : Nat) (hinv : EInv hash t) :
    EInv hash (ehtRemove hash t k).2 := by
  unfold ehtRemove
  dsimp only
  have hidx := indexOf_lt hash t k hinv
  apply einv_setBucket hash t (indexOf hash t k) _ hinv hidx
  · exact bRemove_depth _ _
  · intro kv hkv
    rw [bRemove_depth]
    exact hinv.placed _ hidx kv (bRemove_mem _ _ kv hkv)

theorem einv_step (hash : Nat → Nat) (t : EHT) (op : EOp) (t' : EHT)
    (hinv : EInv hash t) (h : ehtStep hash t op = some t') : EInv hash t' := by
  cases op with
  | ins k v fuel =>
    exact einv_ehtInsert hash fuel t k v t' hinv h
  | del k =>
    unfold ehtStep at h
    simp only [Option.some.injEq] at h
    rw [← h]
    exact einv_ehtRemove hash t k hinv

theorem einv_runFrom (hash : Nat → Nat) (ops : List EOp) :
    ∀ (t t' : EHT), EInv hash t → ehtRunFrom hash t ops = some t' → EInv hash t' := by
  induction ops with
  | nil =>
    intro t t' hinv h
    simp only [ehtRunFrom, Option.some.injEq] at h
    rw [← h]
    exact hinv
  | cons op ops ih =>
    intro t t' hinv h
    unfold ehtRunFrom at h
    cases hs : ehtStep hash t op with
    | none => rw [hs] at h; exact absurd h (by simp)
    | some t1 =>
      rw [hs] at h
      exact ih t1 t' (einv_step hash t op t1 hinv hs) h

theorem einv_run (hash : Nat → Nat) (bsz : Nat) (ops : List EOp) (t : EHT)
    (h : ehtRun hash bsz ops = some t) : EInv hash t :=
  einv_runFrom hash ops (ehtInit bsz) t (einv_init hash bsz) h

/-- C6: after every completed sequence of inserts and removes on the
extendible hash table, the directory length is `2 ^ global_depth`, every
referenced bucket has `local_depth ≤ global_depth`, and two directory
slots reference the same bucket exactly when their indices agree modulo
`2 ^ local_depth` — i.e. `i mod 2^local_depth` is the bucket's
distinguishing prefix. -/
theorem c6_directory_invariant (hash : Nat → Nat) (bsz : Nat) (ops : List EOp) (t : EHT)
    (h : ehtRun hash bsz ops = some t) :
    t.dir.length = 2 ^ t.globalDepth ∧
    (∀ i, i < t.dir.length → (bucketAt t i).depth ≤ t.globalDepth) ∧
    (∀ i j, i < t.dir.length → j < t.dir.length →
      (dirAt t i = dirAt t j ↔
        i % 2 ^ (bucketAt t i).depth = j % 2 ^ (bucketAt t i).depth)) := by
  have hinv := einv_run hash bsz ops t h
  exact ⟨hinv.dirLen, hinv.ldLe, fun i j hi hj =>
    ⟨hinv.sameClass i j hi hj, hinv.cover i j hi hj⟩⟩

/-- Witness for C6 at a concrete run (identity hash, bucket size 2,
five inserts driving the directory to length 8). -/
theorem c6_directory_invariant_witness :
    ∃ t, ehtRun (fun n => n) 2
        [.ins 1 10 9, .ins 2 20 9, .ins 3 30 9, .ins 5 50 9, .ins 9 90 9] = some t ∧
      (t.dir.length = 2 ^ t.globalDepth ∧
       (∀ i, i < t.dir.length → (bucketAt t i).depth ≤ t.globalDepth) ∧
       (∀ i j, i < t.dir.length → j < t.dir.length →
         (dirAt t i = dirAt t j ↔
           i % 2 ^ (bucketAt t i).depth = j % 2 ^ (bucketAt t i).depth))) := by
  cases hr : ehtRun (fun n => n) 2
      [.ins 1 10 9, .ins 2 20 9, .ins 3 30 9, .ins 5 50 9, .ins 9 90 9] with
  | none => exact absurd hr (by decide)
  | some t => exact ⟨t, rfl, c6_directory_invariant _ _ _ t hr⟩

theorem splitStep_bucketSize (hash : Nat → Nat) (t : EHT) (k : Nat) :
    (splitStep hash t k).bucketSize = t.bucketSize := by
  unfold splitStep
  dsimp only
  rw [redistribute_bucketSize]
  split <;> rfl

theorem splitStep_dirLen_pos (hash : Nat → Nat) (t : EHT) (k : Nat) (h : 0 < t.dir.length) :
    0 < (splitStep hash t k).dir.length := by
  unfold splitStep
  dsimp only
  rw [redistribute_dirLen]
  split
  · show 0 < (expansion t).dir.length
    unfold expansion
    dsimp only
    rw [List.length_append]
    omega
  · exact h

theorem redistribute_collision (t1 : EHT) (bid : Nat)
    (hd1 : 0 < t1.dir.length)
    (hgb : (getBucket t1 bid).items = [(0, 5)]) :
    (bucketAt (redistributeBucket (fun _ => 0) t1 bid 1) 0).items = [(0, 5)] := by
  have hda : dirAt (redistributeBucket (fun _ => 0) t1 bid 1) 0 = t1.nextBid := by
    rw [dirAt_redistribute _ _ _ _ _ hd1, if_pos rfl]
    simp [Nat.zero_testBit]
  show (getBucket (redistributeBucket (fun _ => 0) t1 bid 1)
      (dirAt (redistributeBucket (fun _ => 0) t1 bid 1) 0)).items = [(0, 5)]
  rw [hda, getBucket_redistribute, if_neg (by omega), if_pos rfl]
  dsimp only
  rw [hgb]
  simp [Nat.zero_testBit]

theorem splitStep_collision (t : EHT) (hdl : 0 < t.dir.length)
    (hit : (bucketAt t (indexOf (fun _ => 0) t 1)).items = [(0, 5)]) :
    (bucketAt (splitStep (fun _ => 0) t 1)
      (indexOf (fun _ => 0) (splitStep (fun _ => 0) t 1) 1)).items = [(0, 5)] := by
  have hz : ∀ s : EHT, indexOf (fun _ => 0) s 1 = 0 := fun s => Nat.zero_mod _
  rw [hz] at hit
  rw [hz]
  unfold splitStep
  dsimp only
  rw [hz]
  by_cases hc : (getBucket t (dirAt t 0)).depth = t.globalDepth
  · rw [if_pos hc]
    apply redistribute_collision
    · show 0 < (expansion t).dir.length
      unfold expansion
      dsimp only
      rw [List.length_append]
      omega
    · rw [getBucket_expansion]
      exact hit
  · rw [if_neg hc]
    exact redistribute_collision t (dirAt t 0) hdl hit

theorem insertLoop_collision_none : ∀ (fuel : Nat) (t : EHT),
    t.bucketSize = 1 → 0 < t.dir.length →
    (bucketAt t (indexOf (fun _ => 0) t 1)).items = [(0, 5)] →
    insertLoop (fun _ => 0) fuel t 1 = none := by
  intro fuel
  induction fuel with
  | zero =>
    intro t hbs hdl hit
    unfold insertLoop
    rw [if_pos (by simp [bIsFull, hbs, hit])]
  | succ n ih =>
    intro t hbs hdl hit
    unfold insertLoop
    rw [if_pos (by simp [bIsFull, hbs, hit])]
    exact ih (splitStep (fun _ => 0) t 1)
      (by rw [splitStep_bucketSize, hbs])
      (splitStep_dirLen_pos _ t 1 hdl)
      (splitStep_collision t hdl hit)

/-- C10: `Insert` does NOT terminate for every state and key: starting
from the table of bucket size 1 holding key 0 under a constant hash
(reachable by one insert), inserting the distinct key 1 — whose hash
collides with the stored key's — makes the bucket-splitting while-loop
split forever, so the modelled loop fails for EVERY fuel bound. -/
theorem c10_insert_diverges :
    ehtRun (fun _ => 0) 1 [.ins 0 5 1] = some ehtCollisionState ∧
    ∀ fuel, ehtInsert (fun _ => 0) fuel ehtCollisionState 1 9 = none := by
  refine ⟨by decide, ?_⟩
  intro fuel
  unfold ehtInsert
  dsimp only
  rw [if_neg (by decide)]
  rw [insertLoop_collision_none fuel ehtCollisionState rfl (by decide) rfl]

theorem le_foldr_max (l : List Nat) (b : Nat) :
    b ≤ l.foldr max b ∧ ∀ x ∈ l, x ≤ l.foldr max b := by
  induction l with
  | nil =>
    refine ⟨Nat.le_refl b, ?_⟩
    intro x hx
    cases hx
  | cons a tl ih =>
    refine ⟨le_trans ih.1 (le_max_right a _), ?_⟩
    intro x hx
    rcases List.mem_cons.mp hx with h | h
    · rw [h]
      exact le_max_left _ _
    · exact le_trans (ih.2 x h) (le_max_right _ _)

theorem sep_bound (hash : Nat → Nat) (l : List (Nat × Nat)) (hk d : Nat) :
    ∀ kv ∈ l, hash kv.1 % 2 ^ (d + ((l.map (fun p => hash p.1)).foldr max hk + 1))
        = hk % 2 ^ (d + ((l.map (fun p => hash p.1)).foldr max hk + 1)) →
      hash kv.1 = hk := by
  intro kv hkv hmod
  set M := (l.map (fun p => hash p.1)).foldr max hk with hM
  have h1 : hash kv.1 ≤ M := (le_foldr_max _ _).2 _ (List.mem_map.mpr ⟨kv, hkv, rfl⟩)
  have h2 : hk ≤ M := (le_foldr_max _ _).1
  have h4 : M < 2 ^ (d + (M + 1)) :=
    lt_of_lt_of_le (Nat.lt_two_pow M) (Nat.pow_le_pow_right (by omega) (by omega))
  rw [Nat.mod_eq_of_lt (by omega), Nat.mod_eq_of_lt (by omega)] at hmod
  exact hmod

theorem redistribute_target (hash : Nat → Nat) (t1 : EHT) (k : Nat)
    (hlen : t1.dir.length = 2 ^ t1.globalDepth)
    (hd : (bucketAt t1 (indexOf hash t1 k)).depth < t1.globalDepth) :
    bucketAt (redistributeBucket hash t1 (dirAt t1 (indexOf hash t1 k)) k)
        (indexOf hash (redistributeBucket hash t1 (dirAt t1 (indexOf hash t1 k)) k) k) =
      { depth := (bucketAt t1 (indexOf hash t1 k)).depth + 1,
        items := (bucketAt t1 (indexOf hash t1 k)).items.filter
          (fun kv => ((hash kv.1).testBit (bucketAt t1 (indexOf hash t1 k)).depth)
            = ((hash k).testBit (bucketAt t1 (indexOf hash t1 k)).depth)) } := by
  set idx := indexOf hash t1 k with hidxdef
  set bid := dirAt t1 idx with hbiddef
  set od := (bucketAt t1 idx).depth with hoddef
  have hgb : getBucket t1 bid = bucketAt t1 idx := rfl
  have hidx : idx < t1.dir.length := by
    rw [hlen, hidxdef]
    exact Nat.mod_lt _ (Nat.pos_pow_of_pos _ (by omega))
  have hieq : indexOf hash (redistributeBucket hash t1 bid k) k = idx := by
    show hash k % 2 ^ (redistributeBucket hash t1 bid k).globalDepth = idx
    rw [redistribute_globalDepth, hidxdef]
    rfl
  have hmm2 : idx % 2 ^ od = hash k % 2 ^ od := by
    rw [hidxdef]
    exact mod_mod_pow (hash k) od t1.globalDepth (by omega)
  have hbit : idx.testBit od = (hash k).testBit od := by
    rw [hidxdef]
    exact testBit_of_mod_two_pow (hash k) od t1.globalDepth hd
  have hda2 : dirAt (redistributeBucket hash t1 bid k) idx =
      if (hash k).testBit od then t1.nextBid + 1 else t1.nextBid := by
    rw [dirAt_redistribute hash t1 bid k idx hidx, hgb, ← hoddef]
    rw [if_pos hmm2, hbit]
  rw [hieq]
  show getBucket (redistributeBucket hash t1 bid k) (dirAt (redistributeBucket hash t1 bid k) idx) = _
  rw [hda2]
  cases hb : (hash k).testBit od with
  | true =>
    rw [if_pos rfl, getBucket_redistribute, if_pos rfl, hgb, ← hoddef]
    congr 1
    apply List.filter_congr
    intro kv hkv
    cases (hash kv.1).testBit od <;> simp
  | false =>
    rw [if_neg (by simp), getBucket_redistribute, if_neg (by omega), if_pos rfl, hgb, ← hoddef]
    congr 1
    apply List.filter_congr
    intro kv hkv
    cases (hash kv.1).testBit od <;> simp

theorem splitStep_target (hash : Nat → Nat) (t : EHT) (k : Nat) (hinv : EInv hash t) :
    bucketAt (splitStep hash t k) (indexOf hash (splitStep hash t k) k) =
      { depth := (bucketAt t (indexOf hash t k)).depth + 1,
        items := (bucketAt t (indexOf hash t k)).items.filter
          (fun kv => ((hash kv.1).testBit (bucketAt t (indexOf hash t k)).depth)
            = ((hash k).testBit (bucketAt t (indexOf hash t k)).depth)) } := by
  unfold splitStep
  dsimp only
  by_cases hc : (getBucket t (dirAt t (indexOf hash t k))).depth = t.globalDepth
  · rw [if_pos hc]
    have hfix : dirAt t (indexOf hash t k) =
        dirAt (expansion t) (indexOf hash (expansion t) k) :=
      (indexOf_expansion hash t k hinv).symm
    have hbeq : bucketAt (expansion t) (indexOf hash (expansion t) k) =
        bucketAt t (indexOf hash t k) := by
      show getBucket (expansion t) (dirAt (expansion t) (indexOf hash (expansion t) k)) = _
      rw [← hfix]
      rfl
    have hlen1 : (expansion t).dir.length = 2 ^ (expansion t).globalDepth := by
      show (t.dir ++ t.dir).length = 2 ^ (t.globalDepth + 1)
      rw [List.length_append, hinv.dirLen]
      ring
    have hd1 : (bucketAt (expansion t) (indexOf hash (expansion t) k)).depth
        < (expansion t).globalDepth := by
      rw [hbeq]
      show (bucketAt t (indexOf hash t k)).depth < t.globalDepth + 1
      have h2 : bucketAt t (indexOf hash t k) = getBucket t (dirAt t (indexOf hash t k)) := rfl
      rw [h2]
      omega
    rw [hfix, redistribute_target hash (expansion t) k hlen1 hd1, hbeq]
  · rw [if_neg hc]
    have h2 := hinv.ldLe (indexOf hash t k) (indexOf_lt hash t k hinv)
    have hc2 : (bucketAt t (indexOf hash t k)).depth ≠ t.globalDepth := hc
    exact redistribute_target hash t k hinv.dirLen (by omega)

theorem insertLoop_sep (hash : Nat → Nat) (k : Nat) :
    ∀ (m : Nat) (t : EHT), EInv hash t →
      ((bucketAt t (indexOf hash t k)).items.filter
          (fun kv => hash kv.1 = hash k)).length < t.bucketSize →
      (∀ kv ∈ (bucketAt t (indexOf hash t k)).items,
        hash kv.1 % 2 ^ ((bucketAt t (indexOf hash t k)).depth + m)
            = hash k % 2 ^ ((bucketAt t (indexOf hash t k)).depth + m) →
        hash kv.1 = hash k) →
      ∃ t', insertLoop hash (m + 1) t k = some t' := by
  intro m
  induction m with
  | zero =>
    intro t hinv hcnt hsep
    have hall : ∀ kv ∈ (bucketAt t (indexOf hash t k)).items, hash kv.1 = hash k := by
      intro kv hkv
      apply hsep kv hkv
      rw [Nat.add_zero]
      have hp := hinv.placed (indexOf hash t k) (indexOf_lt hash t k hinv) kv hkv
      rw [hp]
      exact mod_mod_pow (hash k) _ _ (hinv.ldLe _ (indexOf_lt hash t k hinv))
    have hfilt : ((bucketAt t (indexOf hash t k)).items.filter
        (fun kv => hash kv.1 = hash k)) = (bucketAt t (indexOf hash t k)).items := by
      apply List.filter_eq_self.mpr
      intro kv hkv
      simp [hall kv hkv]
    rw [hfilt] at hcnt
    refine ⟨t, ?_⟩
    unfold insertLoop
    rw [if_neg (by simp [bIsFull]; omega)]
  | succ n ih =>
    intro t hinv hcnt hsep
    by_cases hfull : bIsFull t.bucketSize (bucketAt t (indexOf hash t k)) = true
    · have hinv2 : EInv hash (splitStep hash t k) := einv_splitStep hash t k hinv
      have htg := splitStep_target hash t k hinv
      have hcnt2 : ((bucketAt (splitStep hash t k) (indexOf hash (splitStep hash t k) k)).items.filter
          (fun kv => hash kv.1 = hash k)).length < (splitStep hash t k).bucketSize := by
        rw [htg, splitStep_bucketSize]
        dsimp only
        exact lt_of_le_of_lt
          (List.Sublist.length_le (List.Sublist.filter _ (List.filter_sublist _))) hcnt
      have hsep2 : ∀ kv ∈ (bucketAt (splitStep hash t k) (indexOf hash (splitStep hash t k) k)).items,
          hash kv.1 % 2 ^ ((bucketAt (splitStep hash t k) (indexOf hash (splitStep hash t k) k)).depth + n)
              = hash k % 2 ^ ((bucketAt (splitStep hash t k) (indexOf hash (splitStep hash t k) k)).depth + n) →
          hash kv.1 = hash k := by
        rw [htg]
        dsimp only
        intro kv hkv hmod
        apply hsep kv (List.mem_of_mem_filter hkv)
        rw [show (bucketAt t (indexOf hash t k)).depth + (n + 1)
            = (bucketAt t (indexOf hash t k)).depth + 1 + n from by omega]
        exact hmod
      obtain ⟨t', ht'⟩ := ih (splitStep hash t k) hinv2 hcnt2 hsep2
      refine ⟨t', ?_⟩
      show insertLoop hash (n + 1 + 1) t k = some t'
      unfold insertLoop
      rw [if_pos hfull]
      exact ht'
    · refine ⟨t, ?_⟩
      show insertLoop hash (n + 1 + 1) t k = some t
      unfold insertLoop
      rw [if_neg hfull]

/-- In contrast to `c10_insert_diverges`: whenever fewer than
`bucket_size` of the target bucket's current items have a full hash
equal to the new key's hash, the splitting loop does terminate — some
fuel makes the modelled `Insert` return. -/
theorem c10_insert_terminates (hash : Nat → Nat) (bsz : Nat) (ops : List EOp) (t : EHT)
    (k v : Nat) (hrun : ehtRun hash bsz ops = some t)
    (hcoll : ((bucketAt t (indexOf hash t k)).items.filter
        (fun kv => hash kv.1 = hash k)).length < t.bucketSize) :
    ∃ fuel t', ehtInsert hash fuel t k v = some t' := by
  have hinv := einv_run hash bsz ops t hrun
  by_cases hfind : (bFind (bucketAt t (indexOf hash t k)) k).isSome = true
  · refine ⟨0, setBucket t (dirAt t (indexOf hash t k))
      (bInsert t.bucketSize (bucketAt t (indexOf hash t k)) k v), ?_⟩
    unfold ehtInsert
    dsimp only
    rw [if_pos hfind]
  · have hsep := sep_bound hash (bucketAt t (indexOf hash t k)).items (hash k)
      (bucketAt t (indexOf hash t k)).depth
    obtain ⟨t1, ht1⟩ := insertLoop_sep hash k
      (((bucketAt t (indexOf hash t k)).items.map (fun p => hash p.1)).foldr max (hash k) + 1)
      t hinv hcoll hsep
    refine ⟨(((bucketAt t (indexOf hash t k)).items.map (fun p => hash p.1)).foldr max (hash k) + 1) + 1,
      setBucket t1 (dirAt t1 (indexOf hash t1 k))
        (bInsert t1.bucketSize (bucketAt t1 (indexOf hash t1 k)) k v), ?_⟩
    unfold ehtInsert
    dsimp only
    rw [if_neg hfind, ht1]

theorem c10_insert_terminates_witness :
    ehtRun (fun n => n) 1 [.ins 0 5 2] = some ehtCollisionState ∧
    ∃ fuel t', ehtInsert (fun n => n) fuel ehtCollisionState 1 9 = some t' := by
  have hr : ehtRun (fun n => n) 1 [.ins 0 5 2] = some ehtCollisionState := by decide
  exact ⟨hr, c10_insert_terminates (fun n => n) 1 [.ins 0 5 2] ehtCollisionState 1 9 hr (by decide)⟩

/-- C9: on the empty tree (`root_page_id_ = INVALID_PAGE_ID`),
`GetValue` and `Remove` do not return normally: `GetLeafPage` starts its
loop with `cur_page_id = INVALID_PAGE_ID` and calls
`FetchPage(INVALID_PAGE_ID)` (the model's descent from `none`), so both
operations are modelled as `none` instead of "return false" / "no-op". -/
theorem c9_empty_tree_fetches_invalid :
    (∀ k, getValue (btsInit 4 4) k = none) ∧
    (∀ k, removeT (btsInit 4 4) k = none) ∧
    descend (btsInit 4 4).store 0 (btsInit 4 4).nextPid (btsInit 4 4).root = none :=
  ⟨fun _ => rfl, fun _ => rfl, rfl⟩

/-- C8: insert one key into the empty tree and remove it again.  The
removal empties the root leaf and sets the in-memory root page id to
invalid, but the branch performs no `UpdateRootPageId` call, so the
header page still records the old root page id 1. -/
theorem c8_header_not_updated_on_empty :
    (exec 4 4 [.ins 1 1, .del 1]).map (fun r => (r.1.root, r.1.headerRec)) =
      some (none, some (some 1)) := by decide

/-- C7, counterexample: in the tree holding keys 1 and 3, `Begin(2)`
returns `End()` even though the stored key 3 is at least 2 (and is found
by `GetValue`); the claim says `Begin(2)` positions at key 3. -/
theorem c7_begin_absent_key_counterexample :
    (exec 4 4 [.ins 1 10, .ins 3 30]).map
        (fun r => (beginKey r.1 2, beginKey r.1 3, getValue r.1 3)) =
      some (some none, some (some (1, 1, 3, 30)), some (true, [30])) := by rfl

theorem leafLB_present (k : Nat) : ∀ (kvs : List (Nat × Nat)),
    List.Pairwise (fun a b : Nat × Nat => a.1 < b.1) kvs →
    kvs.any (fun kv => kv.1 = k) = true →
    leafLB kvs k < kvs.length ∧ (kvs.getD (leafLB kvs k) (0, 0)).1 = k := by
  intro kvs
  induction kvs with
  | nil =>
    intro _ h
    simp at h
  | cons kv rest ih =>
    intro hp hany
    unfold leafLB
    rw [List.findIdx_cons]
    cases hd : decide (k ≤ kv.1) with
    | true =>
      have hle : k ≤ kv.1 := of_decide_eq_true hd
      have hk : kv.1 = k := by
        rcases List.any_eq_true.mp hany with ⟨x, hx, hxk⟩
        have hxk2 : x.1 = k := of_decide_eq_true hxk
        rcases List.mem_cons.mp hx with h | h
        · rw [h] at hxk2
          exact hxk2
        · have hlt := (List.pairwise_cons.mp hp).1 x h
          omega
      simp only [cond_true]
      refine ⟨by simp, ?_⟩
      rw [List.getD_cons_zero]
      exact hk
    | false =>
      have hnle : ¬ k ≤ kv.1 := of_decide_eq_false hd
      have hanyr : rest.any (fun kv => kv.1 = k) = true := by
        rw [List.any_cons] at hany
        have hne : decide (kv.1 = k) = false := by
          simp only [decide_eq_false_iff_not]
          omega
        rw [hne] at hany
        simpa using hany
      obtain ⟨hlt, heq⟩ := ih (List.pairwise_cons.mp hp).2 hanyr
      unfold leafLB at hlt heq
      simp only [cond_false]
      refine ⟨by rw [List.length_cons]; omega, ?_⟩
      rw [List.getD_cons_succ]
      exact heq

/-- C7 (amended): `Begin(key)` has exact-match semantics.  When the leaf
the descent reaches is sorted, `Begin(key)` returns the iterator at the
key's stored pair if the leaf holds the key itself, and `End()`
otherwise — in particular it returns `End()` for an absent key even when
stored keys above the argument exist. -/
theorem c7_begin_exact_match (t : BTS) (k lp : Nat) (par : Option Nat) (m : Nat)
    (nxt : Option Nat) (kvs : List (Nat × Nat))
    (hd : descend t.store k t.nextPid t.root = some lp)
    (hs : t.store lp = some (.leaf par m nxt kvs))
    (hsort : List.Pairwise (fun a b : Nat × Nat => a.1 < b.1) kvs) :
    beginKey t k =
      some (if kvs.any (fun kv => kv.1 = k) then
          some (lp, leafLB kvs k, kvs.getD (leafLB kvs k) (0, 0))
        else none) ∧
    (kvs.any (fun kv => kv.1 = k) = true → (kvs.getD (leafLB kvs k) (0, 0)).1 = k) := by
  unfold beginKey
  rw [hd]
  dsimp only
  rw [hs]
  dsimp only
  by_cases hany : (kvs.any (fun kv => kv.1 = k)) = true
  · obtain ⟨hlt, heq⟩ := leafLB_present k kvs hsort hany
    have heq2 : keyAt kvs (leafLB kvs k) = k := heq
    rw [hany, if_neg (by omega), if_neg (not_not_intro heq2)]
    exact ⟨by simp, fun _ => heq⟩
  · have hf : kvs.any (fun kv => kv.1 = k) = false := by
      revert hany
      cases kvs.any (fun kv => kv.1 = k) <;> simp
    have hnone : ∀ x ∈ kvs, ¬ (x.1 = k) := by
      intro x hx
      have := List.any_eq_false.mp hf x hx
      simpa using this
    rw [hf]
    refine ⟨?_, by intro h; cases h⟩
    by_cases hplen : leafLB kvs k = kvs.length
    · rw [if_pos hplen]
      simp
    · have hle : leafLB kvs k ≤ kvs.length := List.findIdx_le_length _
      have hlt : leafLB kvs k < kvs.length := by omega
      have hmem : kvs.getD (leafLB kvs k) (0, 0) ∈ kvs := by
        rw [List.getD_eq_getElem _ _ hlt]
        exact List.getElem_mem hlt
      have hne : keyAt kvs (leafLB kvs k) ≠ k := hnone _ hmem
      rw [if_neg hplen, if_pos hne]
      simp

/-- Witness for the amended C7 at the concrete one-leaf tree holding
keys 1 and 3: `Begin(3)` is the iterator at the stored pair `(3, 30)`. -/
theorem c7_begin_exact_match_witness :
    beginKey c7Tree 3 =
      some (if ([(1, 10), (3, 30)] : List (Nat × Nat)).any (fun kv => kv.1 = 3) then
          some (1, leafLB [(1, 10), (3, 30)] 3,
            ([(1, 10), (3, 30)] : List (Nat × Nat)).getD (leafLB [(1, 10), (3, 30)] 3) (0, 0))
        else none) :=
  (c7_begin_exact_match c7Tree 3 1 none 4 none [(1, 10), (3, 30)] rfl rfl (by decide)).1

/-- C1, counterexample: after inserting key 5 and removing it (a
completed sequence with each key inserted at most once), the tree is
empty and `GetValue(7)` for the never-inserted key 7 does not return
false — it fetches the invalid page id (modelled `none`). -/
theorem c1_getvalue_never_inserted_fails :
    (exec 4 4 [.ins 5 50, .del 5]).map (fun r => getValue r.1 7) = some none := by decide

/-! ### B+ tree invariant: structural lemmas -/

theorem ST_mem_pid (s : Nat → Option BNode) (lmax imax h p : Nat) (par lo hi : Option Nat)
    (kvs : List (Nat × Nat)) (leaves pids : List Nat) (nxt : Option Nat)
    (hst : ST s lmax imax h p par lo hi kvs leaves pids nxt) : p ∈ pids := by
  cases h with
  | zero =>
    rw [hst.2.2.1]
    simp
  | succ n =>
    obtain ⟨ents, cps, h1, h2, h3, h4, hseg⟩ := hst
    rw [h4]
    simp

theorem SegP_mono_mem (child child2 : ChildP) (ppid : Nat) :
    ∀ (ents : List (Nat × Nat)) (lo hi : Option Nat) (kvs : List (Nat × Nat))
      (leaves pids : List Nat) (nxt : Option Nat),
      SegP child ppid ents lo hi kvs leaves pids nxt →
      (∀ c cpar clo chi ckvs cls cpids cnx, child c cpar clo chi ckvs cls cpids cnx →
        (∀ q ∈ cpids, q ∈ pids) → child2 c cpar clo chi ckvs cls cpids cnx) →
      SegP child2 ppid ents lo hi kvs leaves pids nxt := by
  intro ents
  induction ents with
  | nil =>
    intro lo hi kvs leaves pids nxt h _
    exact h
  | cons e rest ih =>
    intro lo hi kvs leaves pids nxt h hcc
    obtain ⟨ckvs, cls, cps, rkvs, rls, rps, h1, h2, h3, hc, hs⟩ := h
    refine ⟨ckvs, cls, cps, rkvs, rls, rps, h1, h2, h3, ?_, ?_⟩
    · refine hcc _ _ _ _ _ _ _ _ hc ?_
      intro q hq
      rw [h3]
      exact List.mem_append.mpr (Or.inl hq)
    · refine ih _ _ _ _ _ _ hs ?_
      intro c cpar clo chi ckvs2 cls2 cpids2 cnx hch hmem
      refine hcc _ _ _ _ _ _ _ _ hch ?_
      intro q hq
      rw [h3]
      exact List.mem_append.mpr (Or.inr (hmem q hq))

theorem ST_frame (lmax imax : Nat) (s s2 : Nat → Option BNode) :
    ∀ (h p : Nat) (par lo hi : Option Nat) (kvs : List (Nat × Nat)) (leaves pids : List Nat)
      (nxt : Option Nat),
      ST s lmax imax h p par lo hi kvs leaves pids nxt →
      (∀ q ∈ pids, s2 q = s q) →
      ST s2 lmax imax h p par lo hi kvs leaves pids nxt := by
  intro h
  induction h with
  | zero =>
    intro p par lo hi kvs leaves pids nxt hst hag
    obtain ⟨h1, h2, h3, h4, h5, h6⟩ := hst
    have hp : p ∈ pids := by rw [h3]; simp
    exact ⟨by rw [hag p hp]; exact h1, h2, h3, h4, h5, h6⟩
  | succ n ih =>
    intro p par lo hi kvs leaves pids nxt hst hag
    obtain ⟨ents, cps, h1, h2, h3, h4, hseg⟩ := hst
    have hp : p ∈ pids := by rw [h4]; simp
    refine ⟨ents, cps, by rw [hag p hp]; exact h1, h2, h3, h4, ?_⟩
    have hag2 : ∀ q ∈ cps, s2 q = s q := by
      intro q hq
      exact hag q (by rw [h4]; simp [hq])
    refine SegP_mono_mem _ _ p ents lo hi kvs leaves cps nxt hseg ?_
    intro c cpar clo chi ckvs cls cpids cnx hch hmem
    refine ⟨ih c cpar clo chi ckvs cls cpids cnx hch.1 ?_, ?_⟩
    · intro q hq
      exact hag2 q (hmem q hq)
    · show minOk s2 c
      have hcm : c ∈ cpids := ST_mem_pid s lmax imax n c cpar clo chi ckvs cls cpids cnx hch.1
      unfold minOk
      rw [hag2 c (hmem c hcm)]
      exact hch.2

theorem STC_kvs_ne (s : Nat → Option BNode) (lmax imax : Nat) (hl : 2 ≤ lmax) :
    ∀ (h c : Nat) (cpar clo chi : Option Nat) (ckvs : List (Nat × Nat)) (cls cpids : List Nat)
      (cnx : Option Nat),
      ST s lmax imax h c cpar clo chi ckvs cls cpids cnx → minOk s c → ckvs ≠ [] := by
  intro h
  induction h with
  | zero =>
    intro c cpar clo chi ckvs cls cpids cnx hst hm
    unfold minOk at hm
    rw [hst.1] at hm
    show ckvs ≠ []
    have hlen : leafMinSize lmax ≤ ckvs.length := hm
    unfold leafMinSize at hlen
    intro hc0
    rw [hc0] at hlen
    simp at hlen
    omega
  | succ n ih =>
    intro c cpar clo chi ckvs cls cpids cnx hst _
    obtain ⟨ents, cps, h1, h2, h3, h4, hseg⟩ := hst
    cases ents with
    | nil => exact absurd rfl h3
    | cons e rest =>
      obtain ⟨ckvs2, cls2, cps2, rkvs, rls, rps, g1, g2, g3, hc, hs⟩ := hseg
      rw [g1]
      have := ih _ _ _ _ _ _ _ _ hc.1 hc.2
      intro hc0
      rcases List.append_eq_nil.mp hc0 with ⟨ha, _⟩
      exact this ha

theorem SegP_bound (child : ChildP) (ppid : Nat)
    (hb : ∀ c cpar clo chi ckvs cls cpids cnx,
      child c cpar clo chi ckvs cls cpids cnx → InB clo chi ckvs)
    (hne : ∀ c cpar clo chi ckvs cls cpids cnx,
      child c cpar clo chi ckvs cls cpids cnx → ckvs ≠ []) :
    ∀ (ents : List (Nat × Nat)) (lo hi : Option Nat) (kvs : List (Nat × Nat))
      (leaves pids : List Nat) (nxt : Option Nat),
      SegP child ppid ents lo hi kvs leaves pids nxt →
      InB lo hi kvs := by
  intro ents
  induction ents with
  | nil =>
    intro lo hi kvs leaves pids nxt hseg
    rw [hseg.1]
    intro x hx
    cases hx
  | cons e rest ih =>
    intro lo hi kvs leaves pids nxt hseg
    obtain ⟨ckvs, cls, cps, rkvs, rls, rps, h1, h2, h3, hc, hs⟩ := hseg
    have hcb : InB lo (sepHi hi rest) ckvs := hb _ _ _ _ _ _ _ _ hc
    have hrb : InB (sepHi lo rest) hi rkvs := ih _ _ _ _ _ _ hs
    rw [h1]
    cases rest with
    | nil =>
      obtain ⟨k1, _, _⟩ := hs
      rw [k1, List.append_nil]
      exact hcb
    | cons e2 rest2 =>
      -- both sides of the split are nonempty, pinning the separator inside
      -- the window
      have hcne : ckvs ≠ [] := hne _ _ _ _ _ _ _ _ hc
      have hrne : rkvs ≠ [] := by
        obtain ⟨ckvs3, cls3, cps3, rkvs3, rls3, rps3, k1, k2, k3, kc, ks⟩ := hs
        rw [k1]
        intro hc0
        rcases List.append_eq_nil.mp hc0 with ⟨ha, _⟩
        exact hne _ _ _ _ _ _ _ _ kc ha
      obtain ⟨x0, hx0⟩ := List.exists_mem_of_ne_nil ckvs hcne
      obtain ⟨y0, hy0⟩ := List.exists_mem_of_ne_nil rkvs hrne
      intro x hx
      rcases List.mem_append.mp hx with hx | hx
      · refine ⟨(hcb x hx).1, ?_⟩
        have h4 : x.1 < e2.1 := (hcb x hx).2
        have h5 : e2.1 ≤ y0.1 := (hrb y0 hy0).1
        have h6 := (hrb y0 hy0).2
        cases hi with
        | none => trivial
        | some b =>
          show x.1 < b
          have : y0.1 < b := h6
          omega
      · refine ⟨?_, (hrb x hx).2⟩
        have h4 : e2.1 ≤ x.1 := (hrb x hx).1
        have h5 : x0.1 < e2.1 := (hcb x0 hx0).2
        have h6 := (hcb x0 hx0).1
        cases lo with
        | none => trivial
        | some a =>
          show a ≤ x.1
          have : a ≤ x0.1 := h6
          omega

theorem ST_bound (s : Nat → Option BNode) (lmax imax : Nat) (hl : 2 ≤ lmax) :
    ∀ (h c : Nat) (cpar clo chi : Option Nat) (ckvs : List (Nat × Nat)) (cls cpids : List Nat)
      (cnx : Option Nat),
      ST s lmax imax h c cpar clo chi ckvs cls cpids cnx → InB clo chi ckvs := by
  intro h
  induction h with
  | zero =>
    intro c cpar clo chi ckvs cls cpids cnx hst
    exact hst.2.2.2.2.2
  | succ n ih =>
    intro c cpar clo chi ckvs cls cpids cnx hst
    obtain ⟨ents, cps, h1, h2, h3, h4, hseg⟩ := hst
    exact SegP_bound _ c (fun c2 a2 b2 c3 d2 e2 f2 g2 hch => ih _ _ _ _ _ _ _ _ hch.1)
      (fun c2 a2 b2 c3 d2 e2 f2 g2 hch => STC_kvs_ne s lmax imax hl n _ _ _ _ _ _ _ _ hch.1 hch.2)
      ents clo chi ckvs cls cps cnx hseg

theorem SegP_sorted (s : Nat → Option BNode) (lmax imax h : Nat) (ppid : Nat) (hl : 2 ≤ lmax)
    (hsort : ∀ c cpar clo chi ckvs cls cpids cnx,
      ST s lmax imax h c cpar clo chi ckvs cls cpids cnx →
      List.Pairwise (fun a b : Nat × Nat => a.1 < b.1) ckvs) :
    ∀ (ents : List (Nat × Nat)) (lo hi : Option Nat) (kvs : List (Nat × Nat))
      (leaves pids : List Nat) (nxt : Option Nat),
      SegP (STC s lmax imax h) ppid ents lo hi kvs leaves pids nxt →
      List.Pairwise (fun a b : Nat × Nat => a.1 < b.1) kvs := by
  intro ents
  induction ents with
  | nil =>
    intro lo hi kvs leaves pids nxt hseg
    rw [hseg.1]
    exact List.Pairwise.nil
  | cons e rest ih =>
    intro lo hi kvs leaves pids nxt hseg
    obtain ⟨ckvs, cls, cps, rkvs, rls, rps, h1, h2, h3, hc, hs⟩ := hseg
    rw [h1, List.pairwise_append]
    refine ⟨hsort _ _ _ _ _ _ _ _ hc.1, ih _ _ _ _ _ _ hs, ?_⟩
    intro a ha b hb
    cases rest with
    | nil =>
      obtain ⟨k1, _, _⟩ := hs
      rw [k1] at hb
      cases hb
    | cons e2 rest2 =>
      have hahi : a.1 < e2.1 :=
        (ST_bound s lmax imax hl h _ _ _ _ _ _ _ _ hc.1 a ha).2
      have hblo : e2.1 ≤ b.1 :=
        (SegP_bound _ ppid (fun c2 a2 b2 c3 d2 e3 f2 g2 hch => ST_bound s lmax imax hl h _ _ _ _ _ _ _ _ hch.1)
          (fun c2 a2 b2 c3 d2 e3 f2 g2 hch => STC_kvs_ne s lmax imax hl h _ _ _ _ _ _ _ _ hch.1 hch.2)
          _ _ _ _ _ _ _ hs b hb).1
      omega

theorem ST_sorted (s : Nat → Option BNode) (lmax imax : Nat) (hl : 2 ≤ lmax) :
    ∀ (h c : Nat) (cpar clo chi : Option Nat) (ckvs : List (Nat × Nat)) (cls cpids : List Nat)
      (cnx : Option Nat),
      ST s lmax imax h c cpar clo chi ckvs cls cpids cnx →
      List.Pairwise (fun a b : Nat × Nat => a.1 < b.1) ckvs := by
  intro h
  induction h with
  | zero =>
    intro c cpar clo chi ckvs cls cpids cnx hst
    exact hst.2.2.2.2.1
  | succ n ih =>
    intro c cpar clo chi ckvs cls cpids cnx hst
    obtain ⟨ents, cps, h1, h2, h3, h4, hseg⟩ := hst
    exact SegP_sorted s lmax imax n c hl ih ents clo chi ckvs cls cps cnx hseg


theorem segNxt_append (nxt : Option Nat) (l1 l2 : List Nat) :
    segNxt nxt (l1 ++ l2) = segNxt (segNxt nxt l2) l1 := by
  cases l1 <;> rfl

theorem SegP_chain (s : Nat → Option BNode) (lmax imax h : Nat) (ppid : Nat)
    (hch : ∀ c cpar clo chi ckvs cls cpids cnx,
      ST s lmax imax h c cpar clo chi ckvs cls cpids cnx →
      ∀ fuel, chainWalk s (cls.length + fuel) (segNxt cnx cls) =
        (chainWalk s fuel cnx).map (fun l => ckvs ++ l)) :
    ∀ (ents : List (Nat × Nat)) (lo hi : Option Nat) (kvs : List (Nat × Nat))
      (leaves pids : List Nat) (nxt : Option Nat),
      SegP (STC s lmax imax h) ppid ents lo hi kvs leaves pids nxt →
      ∀ fuel, chainWalk s (leaves.length + fuel) (segNxt nxt leaves) =
        (chainWalk s fuel nxt).map (fun l => kvs ++ l) := by
  intro ents
  induction ents with
  | nil =>
    intro lo hi kvs leaves pids nxt hseg fuel
    obtain ⟨h1, h2, h3⟩ := hseg
    rw [h1, h2]
    simp [segNxt]
  | cons e rest ih =>
    intro lo hi kvs leaves pids nxt hseg fuel
    obtain ⟨ckvs, cls, cps, rkvs, rls, rps, h1, h2, h3, hc, hs⟩ := hseg
    rw [h1, h2, segNxt_append, List.length_append]
    rw [show cls.length + rls.length + fuel = cls.length + (rls.length + fuel) from by omega]
    rw [hch _ _ _ _ _ _ _ _ hc.1 (rls.length + fuel)]
    rw [ih _ _ _ _ _ _ hs fuel]
    rw [Option.map_map]
    congr 1
    funext l
    show ckvs ++ (rkvs ++ l) = (ckvs ++ rkvs) ++ l
    rw [List.append_assoc]

theorem ST_chain (s : Nat → Option BNode) (lmax imax : Nat) :
    ∀ (h p : Nat) (par lo hi : Option Nat) (kvs : List (Nat × Nat)) (leaves pids : List Nat)
      (nxt : Option Nat),
      ST s lmax imax h p par lo hi kvs leaves pids nxt →
      ∀ fuel, chainWalk s (leaves.length + fuel) (segNxt nxt leaves) =
        (chainWalk s fuel nxt).map (fun l => kvs ++ l) := by
  intro h
  induction h with
  | zero =>
    intro p par lo hi kvs leaves pids nxt hst fuel
    obtain ⟨h1, h2, h3, h4, h5, h6⟩ := hst
    rw [h2]
    show chainWalk s (1 + fuel) (some p) = _
    rw [Nat.add_comm 1 fuel]
    show (match s p with
      | some (.leaf _ _ nxt2 kvs2) => (chainWalk s fuel nxt2).map (fun l => kvs2 ++ l)
      | _ => none) = _
    rw [h1]
  | succ n ih =>
    intro p par lo hi kvs leaves pids nxt hst fuel
    obtain ⟨ents, cps, h1, h2, h3, h4, hseg⟩ := hst
    exact SegP_chain s lmax imax n p ih ents lo hi kvs leaves cps nxt hseg fuel

theorem ST_leaves_ne (s : Nat → Option BNode) (lmax imax : Nat) :
    ∀ (h p : Nat) (par lo hi : Option Nat) (kvs : List (Nat × Nat)) (leaves pids : List Nat)
      (nxt : Option Nat),
      ST s lmax imax h p par lo hi kvs leaves pids nxt → leaves ≠ [] := by
  intro h
  induction h with
  | zero =>
    intro p par lo hi kvs leaves pids nxt hst
    rw [hst.2.1]
    simp
  | succ n ih =>
    intro p par lo hi kvs leaves pids nxt hst
    obtain ⟨ents, cps, h1, h2, h3, h4, hseg⟩ := hst
    cases ents with
    | nil => exact absurd rfl h3
    | cons e rest =>
      obtain ⟨ckvs, cls, cps2, rkvs, rls, rps, g1, g2, g3, hc, hs⟩ := hseg
      rw [g2]
      have := ih _ _ _ _ _ _ _ _ hc.1
      cases cls with
      | nil => exact absurd rfl this
      | cons a b => simp

theorem headD_append_ne {l1 l2 : List Nat} (d : Nat) (h : l1 ≠ []) :
    (l1 ++ l2).headD d = l1.headD d := by
  cases l1 with
  | nil => exact absurd rfl h
  | cons a b => rfl

theorem ST_leftmost (s : Nat → Option BNode) (lmax imax : Nat) :
    ∀ (h p : Nat) (par lo hi : Option Nat) (kvs : List (Nat × Nat)) (leaves pids : List Nat)
      (nxt : Option Nat),
      ST s lmax imax h p par lo hi kvs leaves pids nxt →
      ∀ fuel, h < fuel → leftmostDescend s fuel (some p) = some (leaves.headD 0) := by
  intro h
  induction h with
  | zero =>
    intro p par lo hi kvs leaves pids nxt hst fuel hf
    obtain ⟨h1, h2, h3, h4, h5, h6⟩ := hst
    cases fuel with
    | zero => omega
    | succ f =>
      rw [h2]
      show (match s p with
        | none => none
        | some (.leaf _ _ _ _) => some p
        | some (.internal _ _ ents) => leftmostDescend s f (some (valueAt ents 0))) = some p
      rw [h1]
  | succ n ih =>
    intro p par lo hi kvs leaves pids nxt hst fuel hf
    obtain ⟨ents, cps, h1, h2, h3, h4, hseg⟩ := hst
    cases fuel with
    | zero => omega
    | succ f =>
      show (match s p with
        | none => none
        | some (.leaf _ _ _ _) => some p
        | some (.internal _ _ ents) => leftmostDescend s f (some (valueAt ents 0))) = _
      rw [h1]
      cases ents with
      | nil => exact absurd rfl h3
      | cons e rest =>
        obtain ⟨ckvs, cls, cps2, rkvs, rls, rps, g1, g2, g3, hc, hs⟩ := hseg
        have hcne := ST_leaves_ne s lmax imax n _ _ _ _ _ _ _ _ hc.1
        rw [g2, headD_append_ne 0 hcne]
        show leftmostDescend s f (some e.2) = _
        exact ih _ _ _ _ _ _ _ _ hc.1 f (by omega)

theorem foldl_bind_append (s : Nat → Option BNode) (fuel : Nat) :
    ∀ (ents : List (Nat × Nat)) (acc : List (Nat × Nat)),
      (∀ e ∈ ents, ∃ l, inorderKVs s fuel e.2 = some l) →
      ents.foldl (fun acc e => acc.bind (fun l => (inorderKVs s fuel e.2).map (fun l2 => l ++ l2)))
          (some acc) =
        (ents.foldl (fun acc e => acc.bind (fun l => (inorderKVs s fuel e.2).map (fun l2 => l ++ l2)))
          (some [])).map (fun l => acc ++ l) := by
  intro ents
  induction ents with
  | nil =>
    intro acc _
    simp
  | cons e rest ih =>
    intro acc hall
    obtain ⟨l, hl⟩ := hall e (by simp)
    simp only [List.foldl_cons]
    have g1 : ((some acc).bind fun l0 => (inorderKVs s fuel e.2).map fun l2 => l0 ++ l2)
        = some (acc ++ l) := by rw [hl]; rfl
    have g2 : ((some []).bind fun l0 => (inorderKVs s fuel e.2).map fun l2 => l0 ++ l2)
        = some l := by rw [hl]; simp
    rw [g1, g2]
    rw [ih (acc ++ l) (fun e2 he2 => hall e2 (by simp [he2]))]
    rw [ih l (fun e2 he2 => hall e2 (by simp [he2]))]
    cases hrest : List.foldl _ (some []) rest with
    | none => rfl
    | some lr =>
      show some (acc ++ l ++ lr) = some (acc ++ (l ++ lr))
      rw [List.append_assoc]

theorem SegP_all_children (child : ChildP) (ppid : Nat) :
    ∀ (ents : List (Nat × Nat)) (lo hi : Option Nat) (kvs : List (Nat × Nat))
      (leaves pids : List Nat) (nxt : Option Nat),
      SegP child ppid ents lo hi kvs leaves pids nxt →
      ∀ e ∈ ents, ∃ clo chi ckvs cls cpids cnx, child e.2 (some ppid) clo chi ckvs cls cpids cnx := by
  intro ents
  induction ents with
  | nil =>
    intro lo hi kvs leaves pids nxt _ e he
    cases he
  | cons e2 rest ih =>
    intro lo hi kvs leaves pids nxt hseg e he
    obtain ⟨ckvs, cls, cps, rkvs, rls, rps, h1, h2, h3, hc, hs⟩ := hseg
    rcases List.mem_cons.mp he with h | h
    · rw [h]
      exact ⟨_, _, _, _, _, _, hc⟩
    · exact ih _ _ _ _ _ _ hs e h

theorem SegP_inorder (s : Nat → Option BNode) (lmax imax h : Nat) (ppid : Nat) (fuel : Nat)
    (hio : ∀ c cpar clo chi ckvs cls cpids cnx,
      ST s lmax imax h c cpar clo chi ckvs cls cpids cnx →
      inorderKVs s fuel c = some ckvs) :
    ∀ (ents : List (Nat × Nat)) (lo hi : Option Nat) (kvs : List (Nat × Nat))
      (leaves pids : List Nat) (nxt : Option Nat),
      SegP (STC s lmax imax h) ppid ents lo hi kvs leaves pids nxt →
      ents.foldl (fun acc e => acc.bind (fun l => (inorderKVs s fuel e.2).map (fun l2 => l ++ l2)))
        (some []) = some kvs := by
  intro ents
  induction ents with
  | nil =>
    intro lo hi kvs leaves pids nxt hseg
    rw [hseg.1]
    rfl
  | cons e rest ih =>
    intro lo hi kvs leaves pids nxt hseg
    obtain ⟨ckvs, cls, cps, rkvs, rls, rps, h1, h2, h3, hc, hs⟩ := hseg
    simp only [List.foldl_cons]
    have g2 : ((some []).bind fun l0 => (inorderKVs s fuel e.2).map fun l2 => l0 ++ l2)
        = some ckvs := by rw [hio _ _ _ _ _ _ _ _ hc.1]; simp
    rw [g2]
    have hall : ∀ e2 ∈ rest, ∃ l, inorderKVs s fuel e2.2 = some l := by
      -- every child of the remaining segment has a computed inorder list
      intro e2 he2
      obtain ⟨clo, chi, ckvs2, cls2, cpids2, cnx2, hch⟩ :=
        SegP_all_children _ _ rest _ _ _ _ _ _ hs e2 he2
      exact ⟨ckvs2, hio _ _ _ _ _ _ _ _ hch.1⟩
    rw [foldl_bind_append s fuel rest ckvs hall]
    rw [ih _ _ _ _ _ _ hs]
    rw [h1]
    rfl

theorem ST_inorder (s : Nat → Option BNode) (lmax imax : Nat) :
    ∀ (h c : Nat) (cpar clo chi : Option Nat) (ckvs : List (Nat × Nat)) (cls cpids : List Nat)
      (cnx : Option Nat),
      ST s lmax imax h c cpar clo chi ckvs cls cpids cnx →
      ∀ fuel, h < fuel → inorderKVs s fuel c = some ckvs := by
  intro h
  induction h with
  | zero =>
    intro c cpar clo chi ckvs cls cpids cnx hst fuel hf
    cases fuel with
    | zero => omega
    | succ f =>
      show (match s c with
        | none => none
        | some (.leaf _ _ _ kvs) => some kvs
        | some (.internal _ _ ents) =>
          ents.foldl (fun acc e => acc.bind (fun l => (inorderKVs s f e.2).map (fun l2 => l ++ l2)))
            (some [])) = some ckvs
      rw [hst.1]
  | succ n ih =>
    intro c cpar clo chi ckvs cls cpids cnx hst fuel hf
    obtain ⟨ents, cps, h1, h2, h3, h4, hseg⟩ := hst
    cases fuel with
    | zero => omega
    | succ f =>
      show (match s c with
        | none => none
        | some (.leaf _ _ _ kvs) => some kvs
        | some (.internal _ _ ents) =>
          ents.foldl (fun acc e => acc.bind (fun l => (inorderKVs s f e.2).map (fun l2 => l ++ l2)))
            (some [])) = some ckvs
      rw [h1]
      exact SegP_inorder s lmax imax n c f
        (fun c2 cpar2 clo2 chi2 ckvs2 cls2 cpids2 cnx2 hst2 =>
          ih _ _ _ _ _ _ _ _ hst2 f (by omega))
        ents clo chi ckvs cls cps cnx hseg

theorem foldl_bind_append_pids (s : Nat → Option BNode) (fuel : Nat) :
    ∀ (ents : List (Nat × Nat)) (acc : List Nat),
      (∀ e ∈ ents, ∃ l, subtreePids s fuel e.2 = some l) →
      ents.foldl (fun acc e => acc.bind (fun l => (subtreePids s fuel e.2).map (fun l2 => l ++ l2)))
          (some acc) =
        (ents.foldl (fun acc e => acc.bind (fun l => (subtreePids s fuel e.2).map (fun l2 => l ++ l2)))
          (some [])).map (fun l => acc ++ l) := by
  intro ents
  induction ents with
  | nil =>
    intro acc _
    simp
  | cons e rest ih =>
    intro acc hall
    obtain ⟨l, hl⟩ := hall e (by simp)
    simp only [List.foldl_cons]
    have g1 : ((some acc).bind fun l0 => (subtreePids s fuel e.2).map fun l2 => l0 ++ l2)
        = some (acc ++ l) := by rw [hl]; rfl
    have g2 : ((some []).bind fun l0 => (subtreePids s fuel e.2).map fun l2 => l0 ++ l2)
        = some l := by rw [hl]; simp
    rw [g1, g2]
    rw [ih (acc ++ l) (fun e2 he2 => hall e2 (by simp [he2]))]
    rw [ih l (fun e2 he2 => hall e2 (by simp [he2]))]
    cases hrest : List.foldl _ (some []) rest with
    | none => rfl
    | some lr =>
      show some (acc ++ l ++ lr) = some (acc ++ (l ++ lr))
      rw [List.append_assoc]

theorem SegP_pids (s : Nat → Option BNode) (lmax imax h : Nat) (ppid : Nat) (fuel : Nat)
    (hio : ∀ c cpar clo chi ckvs cls cpids cnx,
      ST s lmax imax h c cpar clo chi ckvs cls cpids cnx →
      subtreePids s fuel c = some cpids) :
    ∀ (ents : List (Nat × Nat)) (lo hi : Option Nat) (kvs : List (Nat × Nat))
      (leaves pids : List Nat) (nxt : Option Nat),
      SegP (STC s lmax imax h) ppid ents lo hi kvs leaves pids nxt →
      ents.foldl (fun acc e => acc.bind (fun l => (subtreePids s fuel e.2).map (fun l2 => l ++ l2)))
        (some []) = some pids := by
  intro ents
  induction ents with
  | nil =>
    intro lo hi kvs leaves pids nxt hseg
    rw [hseg.2.2]
    rfl
  | cons e rest ih =>
    intro lo hi kvs leaves pids nxt hseg
    obtain ⟨ckvs, cls, cps, rkvs, rls, rps, h1, h2, h3, hc, hs⟩ := hseg
    simp only [List.foldl_cons]
    have g2 : ((some []).bind fun l0 => (subtreePids s fuel e.2).map fun l2 => l0 ++ l2)
        = some cps := by rw [hio _ _ _ _ _ _ _ _ hc.1]; simp
    rw [g2]
    have hall : ∀ e2 ∈ rest, ∃ l, subtreePids s fuel e2.2 = some l := by
      intro e2 he2
      obtain ⟨clo, chi, ckvs2, cls2, cpids2, cnx2, hch⟩ :=
        SegP_all_children _ _ rest _ _ _ _ _ _ hs e2 he2
      exact ⟨cpids2, hio _ _ _ _ _ _ _ _ hch.1⟩
    rw [foldl_bind_append_pids s fuel rest cps hall]
    rw [ih _ _ _ _ _ _ hs]
    rw [h3]
    rfl

theorem ST_pids (s : Nat → Option BNode) (lmax imax : Nat) :
    ∀ (h c : Nat) (cpar clo chi : Option Nat) (ckvs : List (Nat × Nat)) (cls cpids : List Nat)
      (cnx : Option Nat),
      ST s lmax imax h c cpar clo chi ckvs cls cpids cnx →
      ∀ fuel, h < fuel → subtreePids s fuel c = some cpids := by
  intro h
  induction h with
  | zero =>
    intro c cpar clo chi ckvs cls cpids cnx hst fuel hf
    cases fuel with
    | zero => omega
    | succ f =>
      show (match s c with
        | none => none
        | some (.leaf _ _ _ _) => some [c]
        | some (.internal _ _ ents) =>
          (ents.foldl (fun acc e => acc.bind (fun l => (subtreePids s f e.2).map (fun l2 => l ++ l2)))
            (some [])).map (fun l => c :: l)) = some cpids
      rw [hst.1, hst.2.2.1]
  | succ n ih =>
    intro c cpar clo chi ckvs cls cpids cnx hst fuel hf
    obtain ⟨ents, cps, h1, h2, h3, h4, hseg⟩ := hst
    cases fuel with
    | zero => omega
    | succ f =>
      show (match s c with
        | none => none
        | some (.leaf _ _ _ _) => some [c]
        | some (.internal _ _ ents) =>
          (ents.foldl (fun acc e => acc.bind (fun l => (subtreePids s f e.2).map (fun l2 => l ++ l2)))
            (some [])).map (fun l => c :: l)) = some cpids
      rw [h1]
      dsimp only
      rw [SegP_pids s lmax imax n c f
        (fun c2 cpar2 clo2 chi2 ckvs2 cls2 cpids2 cnx2 hst2 =>
          ih _ _ _ _ _ _ _ _ hst2 f (by omega))
        ents clo chi ckvs cls cps cnx hseg]
      rw [h4]
      rfl

theorem ST_height_lt (s : Nat → Option BNode) (lmax imax : Nat) :
    ∀ (h p : Nat) (par lo hi : Option Nat) (kvs : List (Nat × Nat)) (leaves pids : List Nat)
      (nxt : Option Nat),
      ST s lmax imax h p par lo hi kvs leaves pids nxt → h < pids.length := by
  intro h
  induction h with
  | zero =>
    intro p par lo hi kvs leaves pids nxt hst
    rw [hst.2.2.1]
    simp
  | succ n ih =>
    intro p par lo hi kvs leaves pids nxt hst
    obtain ⟨ents, cps, h1, h2, h3, h4, hseg⟩ := hst
    cases ents with
    | nil => exact absurd rfl h3
    | cons e rest =>
      obtain ⟨ckvs, cls, cps2, rkvs, rls, rps, g1, g2, g3, hc, hs⟩ := hseg
      have hlt := ih _ _ _ _ _ _ _ _ hc.1
      rw [h4, g3]
      rw [List.length_cons, List.length_append]
      omega

theorem nodup_bound_length (l : List Nat) (N : Nat) (hn : l.Nodup) (hb : ∀ q ∈ l, q < N) :
    l.length ≤ N := by
  have h1 : l.toFinset ⊆ Finset.range N := by
    intro q hq
    rw [Finset.mem_range]
    exact hb q (List.mem_toFinset.mp hq)
  calc l.length = l.toFinset.card := (List.toFinset_card_of_nodup hn).symm
    _ ≤ (Finset.range N).card := Finset.card_le_card h1
    _ = N := Finset.card_range N

theorem SegP_pid_mem (child : ChildP) (ppid : Nat) :
    ∀ (ents : List (Nat × Nat)) (lo hi : Option Nat) (kvs : List (Nat × Nat))
      (leaves pids : List Nat) (nxt : Option Nat),
      SegP child ppid ents lo hi kvs leaves pids nxt →
      ∀ q ∈ pids, ∃ e ∈ ents, ∃ clo chi ckvs cls cpids cnx,
        child e.2 (some ppid) clo chi ckvs cls cpids cnx ∧ q ∈ cpids := by
  intro ents
  induction ents with
  | nil =>
    intro lo hi kvs leaves pids nxt hseg q hq
    rw [hseg.2.2] at hq
    cases hq
  | cons e rest ih =>
    intro lo hi kvs leaves pids nxt hseg q hq
    obtain ⟨ckvs, cls, cps, rkvs, rls, rps, h1, h2, h3, hc, hs⟩ := hseg
    rw [h3] at hq
    rcases List.mem_append.mp hq with h | h
    · exact ⟨e, by simp, _, _, _, _, _, _, hc, h⟩
    · obtain ⟨e2, he2, clo, chi, ckvs2, cls2, cpids2, cnx2, hch, hq2⟩ := ih _ _ _ _ _ _ hs q h
      exact ⟨e2, by simp [he2], clo, chi, ckvs2, cls2, cpids2, cnx2, hch, hq2⟩

theorem SegP_leaves_sublist (child : ChildP) (ppid : Nat)
    (hsub : ∀ c cpar clo chi ckvs cls cpids cnx,
      child c cpar clo chi ckvs cls cpids cnx → cls.Sublist cpids) :
    ∀ (ents : List (Nat × Nat)) (lo hi : Option Nat) (kvs : List (Nat × Nat))
      (leaves pids : List Nat) (nxt : Option Nat),
      SegP child ppid ents lo hi kvs leaves pids nxt → leaves.Sublist pids := by
  intro ents
  induction ents with
  | nil =>
    intro lo hi kvs leaves pids nxt hseg
    rw [hseg.2.1, hseg.2.2]
  | cons e rest ih =>
    intro lo hi kvs leaves pids nxt hseg
    obtain ⟨ckvs, cls, cps, rkvs, rls, rps, h1, h2, h3, hc, hs⟩ := hseg
    rw [h2, h3]
    exact List.Sublist.append (hsub _ _ _ _ _ _ _ _ hc) (ih _ _ _ _ _ _ hs)

theorem ST_max_all (s : Nat → Option BNode) (lmax imax : Nat) :
    ∀ (h p : Nat) (par lo hi : Option Nat) (kvs : List (Nat × Nat)) (leaves pids : List Nat)
      (nxt : Option Nat),
      ST s lmax imax h p par lo hi kvs leaves pids nxt → ∀ q ∈ pids, maxOk s q := by
  intro h
  induction h with
  | zero =>
    intro p par lo hi kvs leaves pids nxt hst q hq
    rw [hst.2.2.1] at hq
    rcases List.mem_singleton.mp hq with h
    rw [h]
    unfold maxOk
    rw [hst.1]
    show kvs.length ≤ lmax
    have := hst.2.2.2.1
    omega
  | succ n ih =>
    intro p par lo hi kvs leaves pids nxt hst q hq
    obtain ⟨ents, cps, h1, h2, h3, h4, hseg⟩ := hst
    rw [h4] at hq
    rcases List.mem_cons.mp hq with h | h
    · rw [h]
      unfold maxOk
      rw [h1]
      exact h2
    · obtain ⟨e, he, clo, chi, ckvs2, cls2, cpids2, cnx2, hch, hq2⟩ :=
        SegP_pid_mem _ _ ents lo hi kvs leaves cps nxt hseg q h
      exact ih _ _ _ _ _ _ _ _ hch.1 q hq2

theorem ST_min_all (s : Nat → Option BNode) (lmax imax : Nat) :
    ∀ (h p : Nat) (par lo hi : Option Nat) (kvs : List (Nat × Nat)) (leaves pids : List Nat)
      (nxt : Option Nat),
      ST s lmax imax h p par lo hi kvs leaves pids nxt → ∀ q ∈ pids, q ≠ p → minOk s q := by
  intro h
  induction h with
  | zero =>
    intro p par lo hi kvs leaves pids nxt hst q hq hqp
    rw [hst.2.2.1] at hq
    exact absurd (List.mem_singleton.mp hq) hqp
  | succ n ih =>
    intro p par lo hi kvs leaves pids nxt hst q hq hqp
    obtain ⟨ents, cps, h1, h2, h3, h4, hseg⟩ := hst
    rw [h4] at hq
    rcases List.mem_cons.mp hq with h | h
    · exact absurd h hqp
    · obtain ⟨e, he, clo, chi, ckvs2, cls2, cpids2, cnx2, hch, hq2⟩ :=
        SegP_pid_mem _ _ ents lo hi kvs leaves cps nxt hseg q h
      by_cases hqc : q = e.2
      · rw [hqc]
        exact hch.2
      · exact ih _ _ _ _ _ _ _ _ hch.1 q hq2 hqc

theorem ST_leaves_sublist (s : Nat → Option BNode) (lmax imax : Nat) :
    ∀ (h p : Nat) (par lo hi : Option Nat) (kvs : List (Nat × Nat)) (leaves pids : List Nat)
      (nxt : Option Nat),
      ST s lmax imax h p par lo hi kvs leaves pids nxt → leaves.Sublist pids := by
  intro h
  induction h with
  | zero =>
    intro p par lo hi kvs leaves pids nxt hst
    rw [hst.2.1, hst.2.2.1]
  | succ n ih =>
    intro p par lo hi kvs leaves pids nxt hst
    obtain ⟨ents, cps, h1, h2, h3, h4, hseg⟩ := hst
    rw [h4]
    have hsub : leaves.Sublist cps :=
      SegP_leaves_sublist _ p
        (fun c cpar clo chi ckvs cls cpids cnx hch => ih _ _ _ _ _ _ _ _ hch.1)
        ents lo hi kvs leaves cps nxt hseg
    exact hsub.trans (List.sublist_cons_self p cps)

theorem segNxt_of_ne (nxt : Option Nat) (leaves : List Nat) (h : leaves ≠ []) :
    segNxt nxt leaves = some (leaves.headD 0) := by
  cases leaves with
  | nil => exact absurd rfl h
  | cons a b => rfl

theorem chainWalk_none (s : Nat → Option BNode) (fuel : Nat) :
    chainWalk s fuel none = some [] := by
  cases fuel <;> rfl

/-- The C2 conclusions, extracted from the invariant. -/
theorem treeInv_c2 (t : BTS) (hinv : TreeInv t) (r : Nat) (hr : t.root = some r) :
    ∃ pids kvs,
      subtreePids t.store t.nextPid r = some pids ∧
      (∀ p ∈ pids, ∀ n, t.store p = some n →
        (p ≠ r → n.minSizeOf ≤ n.sizeOf) ∧
        n.sizeOf ≤ (match n with | .leaf _ m _ _ => m | .internal _ m _ => m)) ∧
      ∃ lp, leftmostDescend t.store t.nextPid (some r) = some lp ∧
        chainWalk t.store t.nextPid (some lp) = some kvs ∧
        List.Pairwise (fun a b : Nat × Nat => a.1 < b.1) kvs ∧
        inorderKVs t.store t.nextPid r = some kvs := by
  obtain ⟨hlm, him, hdel, hroot⟩ := hinv
  rw [hr] at hroot
  obtain ⟨h, kvs, leaves, pids, hst, hrok, hnd, hbnd, hpos⟩ := hroot
  have hhl : h < pids.length :=
    ST_height_lt t.store t.leafMax t.internalMax h r none none none kvs leaves pids none hst
  have hpl : pids.length ≤ t.nextPid := nodup_bound_length pids t.nextPid hnd hbnd
  have hhf : h < t.nextPid := by omega
  have hlsub :=
    ST_leaves_sublist t.store t.leafMax t.internalMax h r none none none kvs leaves pids none hst
  have hlne :=
    ST_leaves_ne t.store t.leafMax t.internalMax h r none none none kvs leaves pids none hst
  have hll : leaves.length ≤ t.nextPid := le_trans hlsub.length_le hpl
  refine ⟨pids, kvs,
    ST_pids t.store t.leafMax t.internalMax h r none none none kvs leaves pids none hst
      t.nextPid hhf, ?_, ?_⟩
  · intro p hp n hn
    constructor
    · intro hpr
      have hm := ST_min_all t.store t.leafMax t.internalMax h r none none none kvs leaves pids
        none hst p hp hpr
      unfold minOk at hm
      rw [hn] at hm
      exact hm
    · have hm := ST_max_all t.store t.leafMax t.internalMax h r none none none kvs leaves pids
        none hst p hp
      unfold maxOk at hm
      rw [hn] at hm
      exact hm
  · refine ⟨leaves.headD 0,
      ST_leftmost t.store t.leafMax t.internalMax h r none none none kvs leaves pids none hst
        t.nextPid hhf, ?_,
      ST_sorted t.store t.leafMax t.internalMax hlm h r none none none kvs leaves pids none hst,
      ST_inorder t.store t.leafMax t.internalMax h r none none none kvs leaves pids none hst
        t.nextPid hhf⟩
    have hchain := ST_chain t.store t.leafMax t.internalMax h r none none none kvs leaves pids
      none hst (t.nextPid - leaves.length)
    rw [segNxt_of_ne none leaves hlne] at hchain
    rw [show leaves.length + (t.nextPid - leaves.length) = t.nextPid from by omega] at hchain
    rw [hchain, chainWalk_none]
    simp

theorem sepHi_junction (hi : Option Nat) (e2 : Nat × Nat) (l1 l2 : List (Nat × Nat)) :
    sepHi hi (l1 ++ e2 :: l2) = sepHi (some e2.1) l1 := by
  cases l1 <;> rfl

theorem SegP_nil_lo (child : ChildP) (ppid : Nat) (lo lo2 hi : Option Nat)
    (kvs : List (Nat × Nat)) (ls ps : List Nat) (nxt : Option Nat)
    (h : SegP child ppid [] lo hi kvs ls ps nxt) :
    SegP child ppid [] lo2 hi kvs ls ps nxt := h

theorem SegP_append2 (child : ChildP) (ppid : Nat) :
    ∀ (l1 : List (Nat × Nat)) (e2 : Nat × Nat) (l2 : List (Nat × Nat)) (lo hi : Option Nat)
      (k1 k2 : List (Nat × Nat)) (s1 s2 p1 p2 : List Nat) (nxt : Option Nat),
      SegP child ppid l1 lo (some e2.1) k1 s1 p1 (segNxt nxt s2) →
      SegP child ppid (e2 :: l2) (if l1.isEmpty then lo else some e2.1) hi k2 s2 p2 nxt →
      SegP child ppid (l1 ++ e2 :: l2) lo hi (k1 ++ k2) (s1 ++ s2) (p1 ++ p2) nxt := by
  intro l1
  induction l1 with
  | nil =>
    intro e2 l2 lo hi k1 k2 s1 s2 p1 p2 nxt h1 h2
    obtain ⟨e1, e3, e4⟩ := h1
    rw [e1, e3, e4]
    simp only [List.nil_append]
    exact h2
  | cons e rest1 ih =>
    intro e2 l2 lo hi k1 k2 s1 s2 p1 p2 nxt h1 h2
    obtain ⟨ckvs, cls, cps, rkvs, rls, rps, g1, g2, g3, hc, hs⟩ := h1
    rw [g1, g2, g3]
    refine ⟨ckvs, cls, cps, rkvs ++ k2, rls ++ s2, rps ++ p2,
      by rw [List.append_assoc], by rw [List.append_assoc], by rw [List.append_assoc], ?_, ?_⟩
    · rw [List.append_eq, sepHi_junction hi e2 rest1 l2, segNxt_append nxt rls s2]
      exact hc
    · show SegP child ppid (rest1 ++ e2 :: l2) (sepHi lo (rest1 ++ e2 :: l2)) hi _ _ _ nxt
      cases rest1 with
      | nil =>
        obtain ⟨e1, e3, e4⟩ := hs
        rw [e1, e3, e4]
        simp only [List.nil_append]
        show SegP child ppid (e2 :: l2) (some e2.1) hi k2 s2 p2 nxt
        simpa using h2
      | cons e5 rest5 =>
        refine ih e2 l2 (some e5.1) hi rkvs k2 rls s2 rps p2 nxt hs ?_
        simpa using h2

theorem SegP_split2 (child : ChildP) (ppid : Nat) :
    ∀ (l1 : List (Nat × Nat)) (e2 : Nat × Nat) (l2 : List (Nat × Nat)) (lo hi : Option Nat)
      (kvs : List (Nat × Nat)) (ls ps : List Nat) (nxt : Option Nat),
      SegP child ppid (l1 ++ e2 :: l2) lo hi kvs ls ps nxt →
      ∃ k1 k2 s1 s2 p1 p2, kvs = k1 ++ k2 ∧ ls = s1 ++ s2 ∧ ps = p1 ++ p2 ∧
        SegP child ppid l1 lo (some e2.1) k1 s1 p1 (segNxt nxt s2) ∧
        SegP child ppid (e2 :: l2) (if l1.isEmpty then lo else some e2.1) hi k2 s2 p2 nxt := by
  intro l1
  induction l1 with
  | nil =>
    intro e2 l2 lo hi kvs ls ps nxt h
    refine ⟨[], kvs, [], ls, [], ps, rfl, rfl, rfl, ⟨rfl, rfl, rfl⟩, ?_⟩
    simpa using h
  | cons e rest1 ih =>
    intro e2 l2 lo hi kvs ls ps nxt h
    obtain ⟨ckvs, cls, cps, rkvs, rls, rps, g1, g2, g3, hc, hs⟩ := h
    obtain ⟨k1, k2, s1, s2, p1, p2, e1, e3, e4, hp1, hp2⟩ :=
      ih e2 l2 (sepHi lo (rest1 ++ e2 :: l2)) hi rkvs rls rps nxt hs
    refine ⟨ckvs ++ k1, k2, cls ++ s1, s2, cps ++ p1, p2,
      by rw [g1, e1, List.append_assoc], by rw [g2, e3, List.append_assoc],
      by rw [g3, e4, List.append_assoc], ?_, ?_⟩
    · refine ⟨ckvs, cls, cps, k1, s1, p1, rfl, rfl, rfl, ?_, ?_⟩
      · rw [List.append_eq, sepHi_junction hi e2 rest1 l2] at hc
        rw [e3, segNxt_append nxt s1 s2] at hc
        exact hc
      · cases rest1 with
        | nil =>
          obtain ⟨f1, f3, f4⟩ := hp1
          rw [f1, f3, f4]
          exact ⟨rfl, rfl, rfl⟩
        | cons e5 rest5 =>
          exact hp1
    · cases rest1 with
      | nil =>
        simpa using hp2
      | cons e5 rest5 =>
        simpa using hp2

theorem perm_count (l1 l2 : List Nat) (h : ∀ x, l1.count x = l2.count x) : l1.Perm l2 :=
  List.perm_iff_count.mpr h

theorem headD_cascade (s1 ls s2 : List Nat) (d : Nat) (hls : ls ≠ []) :
    (s1 ++ (ls ++ s2)).headD d = s1.headD (ls.headD d) := by
  cases s1 with
  | nil =>
    simp only [List.nil_append]
    exact headD_append_ne d hls
  | cons a b => rfl

theorem STC_frame (lmax imax h : Nat) (s s2 : Nat → Option BNode) (c : Nat)
    (cpar clo chi : Option Nat) (ckvs : List (Nat × Nat)) (cls cpids : List Nat)
    (cnx : Option Nat) (hch : STC s lmax imax h c cpar clo chi ckvs cls cpids cnx)
    (hag : ∀ q ∈ cpids, s2 q = s q) :
    STC s2 lmax imax h c cpar clo chi ckvs cls cpids cnx := by
  refine ⟨ST_frame lmax imax s s2 h c cpar clo chi ckvs cls cpids cnx hch.1 hag, ?_⟩
  show minOk s2 c
  unfold minOk
  rw [hag c (ST_mem_pid s lmax imax h c cpar clo chi ckvs cls cpids cnx hch.1)]
  exact hch.2

theorem SegP_STC_frame (lmax imax h : Nat) (s s2 : Nat → Option BNode) (ppid : Nat)
    (ents : List (Nat × Nat)) (lo hi : Option Nat) (kvs : List (Nat × Nat))
    (leaves pids : List Nat) (nxt : Option Nat)
    (hseg : SegP (STC s lmax imax h) ppid ents lo hi kvs leaves pids nxt)
    (hag : ∀ q ∈ pids, s2 q = s q) :
    SegP (STC s2 lmax imax h) ppid ents lo hi kvs leaves pids nxt := by
  refine SegP_mono_mem _ _ ppid ents lo hi kvs leaves pids nxt hseg ?_
  intro c cpar clo chi ckvs cls cpids cnx hch hmem
  exact STC_frame lmax imax h s s2 c cpar clo chi ckvs cls cpids cnx hch
    (fun q hq => hag q (hmem q hq))

theorem CtxOK_frame (lmax imax root : Nat) (s s2 : Nat → Option BNode) :
    ∀ (C : List Frame) (hh hp : Nat) (hpar hlo hhi : Option Nat) (fl : Nat) (hnxt : Option Nat)
      (preK postK : List (Nat × Nat)) (ctxP : List Nat),
      CtxOK s lmax imax root C hh hp hpar hlo hhi fl hnxt preK postK ctxP →
      (∀ q ∈ ctxP, s2 q = s q) →
      CtxOK s2 lmax imax root C hh hp hpar hlo hhi fl hnxt preK postK ctxP := by
  intro C
  induction C with
  | nil =>
    intro hh hp hpar hlo hhi fl hnxt preK postK ctxP hctx _
    exact hctx
  | cons f C ih =>
    intro hh hp hpar hlo hhi fl hnxt preK postK ctxP hctx hag
    obtain ⟨k1, k2, s1, sl2, p1, p2, pnxt, preK2, postK2, ctxP2,
      hst0, hlen, hsza, hszb, hpe, hloe, hhie, hnxe, hpreseg, hpostseg, hctx2, hpk, hok, hcp⟩ :=
      hctx
    have hagp : s2 f.ppid = s f.ppid := hag f.ppid (by rw [hcp]; simp)
    refine ⟨k1, k2, s1, sl2, p1, p2, pnxt, preK2, postK2, ctxP2,
      by rw [hagp]; exact hst0, hlen, hsza, hszb, hpe, hloe, hhie, hnxe, ?_, ?_, ?_, hpk,
      hok, hcp⟩
    · exact SegP_STC_frame lmax imax hh s s2 f.ppid f.pre f.plo (some f.ek) k1 s1 p1 (some fl)
        hpreseg (fun q hq => hag q (by rw [hcp]; simp [hq]))
    · exact SegP_STC_frame lmax imax hh s s2 f.ppid f.post (sepHi (some f.ek) f.post) f.phi
        k2 sl2 p2 pnxt hpostseg (fun q hq => hag q (by rw [hcp]; simp [hq]))
    · exact ih (hh + 1) f.ppid f.ppar f.plo f.phi (s1.headD fl) pnxt preK2 postK2 ctxP2 hctx2
        (fun q hq => hag q (by rw [hcp]; simp [hq]))

theorem CtxOK_plug (s : Nat → Option BNode) (lmax imax root : Nat) :
    ∀ (C : List Frame) (hh hp : Nat) (hpar hlo hhi : Option Nat) (fl : Nat) (hnxt : Option Nat)
      (preK postK : List (Nat × Nat)) (ctxP : List Nat) (kvs : List (Nat × Nat)) (ls ps : List Nat),
      CtxOK s lmax imax root C hh hp hpar hlo hhi fl hnxt preK postK ctxP →
      ST s lmax imax hh hp hpar hlo hhi kvs ls ps hnxt →
      (C ≠ [] → minOk s hp) →
      ls.headD 0 = fl →
      ∃ H lvs pids,
        ST s lmax imax H root none none none (preK ++ (kvs ++ postK)) lvs pids none ∧
        pids.Perm (ps ++ ctxP) ∧
        (C = [] ∨ RootOk s root) := by
  intro C
  induction C with
  | nil =>
    intro hh hp hpar hlo hhi fl hnxt preK postK ctxP kvs ls ps hctx hst _ _
    obtain ⟨e1, e2, e3, e4, e5, e6, e7, e8⟩ := hctx
    rw [e1, e2, e3, e4, e5] at hst
    refine ⟨hh, ls, ps, ?_, ?_, Or.inl rfl⟩
    · rw [e6, e7]
      simpa using hst
    · rw [e8, List.append_nil]
  | cons f C ih =>
    intro hh hp hpar hlo hhi fl hnxt preK postK ctxP kvs ls ps hctx hst hmin hhead
    obtain ⟨k1, k2, s1, sl2, p1, p2, pnxt, preK2, postK2, ctxP2,
      hst0, hlen, hsza, hszb, hpe, hloe, hhie, hnxe, hpreseg, hpostseg, hctx2, hpk, hok, hcp⟩ :=
      hctx
    have hlsne : ls ≠ [] := ST_leaves_ne s lmax imax hh hp hpar hlo hhi kvs ls ps hnxt hst
    have hstp : ST s lmax imax (hh + 1) f.ppid f.ppar f.plo f.phi (k1 ++ (kvs ++ k2))
        (s1 ++ (ls ++ sl2)) (f.ppid :: (p1 ++ (ps ++ p2))) pnxt := by
      refine ⟨f.pre ++ (f.ek, hp) :: f.post, p1 ++ (ps ++ p2), hst0, hlen, by simp, rfl, ?_⟩
      refine SegP_append2 (STC s lmax imax hh) f.ppid f.pre (f.ek, hp) f.post f.plo f.phi
        k1 (kvs ++ k2) s1 (ls ++ sl2) p1 (ps ++ p2) pnxt ?_ ?_
      · rw [segNxt_append pnxt ls sl2, segNxt_of_ne _ ls hlsne, hhead]
        exact hpreseg
      · refine ⟨kvs, ls, ps, k2, sl2, p2, rfl, rfl, rfl, ?_, ?_⟩
        · refine ⟨?_, hmin (by simp)⟩
          rw [hpe, hloe, hhie, hnxe] at hst
          show ST s lmax imax hh hp (some f.ppid) _ _ kvs ls ps (segNxt pnxt sl2)
          cases hemp : f.pre.isEmpty with
          | true =>
            have : holeLo f = f.plo := by unfold holeLo; rw [hemp]; rfl
            rw [this] at hst
            simpa [hemp] using hst
          | false =>
            have : holeLo f = some f.ek := by unfold holeLo; rw [hemp]; rfl
            rw [this] at hst
            simpa [hemp] using hst
        · cases hpost : f.post with
          | nil =>
            rw [hpost] at hpostseg
            exact SegP_nil_lo _ _ _ _ _ _ _ _ _ hpostseg
          | cons e3 rest3 =>
            rw [hpost] at hpostseg
            exact hpostseg
    have hminp : C ≠ [] → minOk s f.ppid := by
      intro hcne
      unfold minOk
      rw [hst0]
      show internalMinSize imax ≤ (f.pre ++ (f.ek, hp) :: f.post).length
      exact hszb hcne
    have hheadp : (s1 ++ (ls ++ sl2)).headD 0 = s1.headD fl := by
      rw [headD_cascade s1 ls sl2 0 hlsne, hhead]
    obtain ⟨H, lvs, pids, hroot, hperm, hrok⟩ := ih (hh + 1) f.ppid f.ppar f.plo f.phi
      (s1.headD fl) pnxt preK2 postK2 ctxP2 (k1 ++ (kvs ++ k2)) (s1 ++ (ls ++ sl2))
      (f.ppid :: (p1 ++ (ps ++ p2))) hctx2 hstp hminp hheadp
    refine ⟨H, lvs, pids, ?_, ?_, ?_⟩
    · rw [hpk, hok]
      rw [show (preK2 ++ k1) ++ (kvs ++ (k2 ++ postK2))
          = preK2 ++ ((k1 ++ (kvs ++ k2)) ++ postK2) from by simp [List.append_assoc]]
      exact hroot
    · rw [hcp]
      refine hperm.trans (perm_count _ _ ?_)
      intro x
      simp only [List.count_append, List.count_cons]
      ring
    · right
      rcases hrok with hceq | hrok
      · -- the parent is the root
        have hpr : f.ppid = root := by
          rw [hceq] at hctx2
          exact hctx2.1
        unfold RootOk
        rw [← hpr, hst0]
        exact hsza hceq
      · exact hrok

theorem childGo_split (k : Nat) : ∀ (rest : List (Nat × Nat)) (c : Nat),
    (childGo k c rest = c ∧ (rest = [] ∨ k < (rest.headD (0, 0)).1)) ∨
    (∃ pre e post, rest = pre ++ e :: post ∧ childGo k c rest = e.2 ∧ e.1 ≤ k ∧
      (post = [] ∨ k < (post.headD (0, 0)).1)) := by
  intro rest
  induction rest with
  | nil =>
    intro c
    exact Or.inl ⟨rfl, Or.inl rfl⟩
  | cons e2 rest2 ih =>
    intro c
    by_cases hk : k < e2.1
    · left
      constructor
      · show (if k < e2.1 then c else childGo k e2.2 rest2) = c
        rw [if_pos hk]
      · exact Or.inr hk
    · have hk2 : e2.1 ≤ k := by omega
      rcases ih e2.2 with ⟨heq, hr⟩ | ⟨pre, e, post, hsp, heq, hle, hr⟩
      · right
        refine ⟨[], e2, rest2, rfl, ?_, hk2, hr⟩
        show (if k < e2.1 then c else childGo k e2.2 rest2) = e2.2
        rw [if_neg hk, heq]
      · right
        refine ⟨e2 :: pre, e, post, by rw [hsp]; rfl, ?_, hle, hr⟩
        show (if k < e2.1 then c else childGo k e2.2 rest2) = e.2
        rw [if_neg hk, heq]

theorem childOf_split (k : Nat) (e0 : Nat × Nat) (rest : List (Nat × Nat)) :
    ∃ pre e post, (e0 :: rest) = pre ++ e :: post ∧ childOf k (e0 :: rest) = e.2 ∧
      (pre.isEmpty = true ∨ e.1 ≤ k) ∧ (post = [] ∨ k < (post.headD (0, 0)).1) := by
  rcases childGo_split k rest e0.2 with ⟨heq, hr⟩ | ⟨pre, e, post, hsp, heq, hle, hr⟩
  · exact ⟨[], e0, rest, rfl, heq, Or.inl rfl, hr⟩
  · exact ⟨e0 :: pre, e, post, by rw [hsp]; rfl, heq, Or.inr hle, hr⟩

theorem dig_aux (s : Nat → Option BNode) (lmax imax root k : Nat) :
    ∀ (hh : Nat) (C : List Frame) (hp : Nat) (hpar hlo hhi : Option Nat) (fl : Nat)
      (hnxt : Option Nat) (preK postK : List (Nat × Nat)) (ctxP : List Nat)
      (kvs : List (Nat × Nat)) (ls ps rps : List Nat),
      CtxOK s lmax imax root C hh hp hpar hlo hhi fl hnxt preK postK ctxP →
      ST s lmax imax hh hp hpar hlo hhi kvs ls ps hnxt →
      ls.headD 0 = fl →
      loOk hlo k → hiOk hhi k →
      (C = [] → RootOk s hp) →
      (C ≠ [] → minOk s hp) →
      rps.Perm (ps ++ ctxP) →
      ∃ (C2 : List Frame) (lp : Nat) (lpar llo lhi : Option Nat) (lkvs : List (Nat × Nat))
        (lnxt : Option Nat) (preK2 postK2 : List (Nat × Nat)) (ctxP2 : List Nat),
        CtxOK s lmax imax root C2 0 lp lpar llo lhi lp lnxt preK2 postK2 ctxP2 ∧
        ST s lmax imax 0 lp lpar llo lhi lkvs [lp] [lp] lnxt ∧
        preK ++ (kvs ++ postK) = preK2 ++ (lkvs ++ postK2) ∧
        loOk llo k ∧ hiOk lhi k ∧
        (∀ fuel, hh < fuel → descend s k fuel (some hp) = some lp) ∧
        rps.Perm ([lp] ++ ctxP2) ∧
        (C2 = [] → C = []) ∧
        (C2 ≠ [] → minOk s lp) := by
  intro hh
  induction hh with
  | zero =>
    intro C hp hpar hlo hhi fl hnxt preK postK ctxP kvs ls ps rps hctx hst hhead hlok hhik
      hrt hmin hperm
    have hls : ls = [hp] := hst.2.1
    have hps : ps = [hp] := hst.2.2.1
    have hfl : fl = hp := by rw [← hhead, hls]; rfl
    refine ⟨C, hp, hpar, hlo, hhi, kvs, hnxt, preK, postK, ctxP, ?_, ?_, rfl, hlok, hhik,
      ?_, ?_, fun h => h, hmin⟩
    · rw [hfl] at hctx
      exact hctx
    · exact ⟨hst.1, rfl, rfl, hst.2.2.2.1, hst.2.2.2.2.1, hst.2.2.2.2.2⟩
    · intro fuel hf
      cases fuel with
      | zero => omega
      | succ f =>
        show (match s hp with
          | none => none
          | some (.leaf _ _ _ _) => some hp
          | some (.internal _ _ ents) => descend s k f (some (childOf k ents))) = some hp
        rw [hst.1]
    · rw [hps] at hperm
      exact hperm
  | succ n ih =>
    intro C hp hpar hlo hhi fl hnxt preK postK ctxP kvs ls ps rps hctx hst hhead hlok hhik
      hrt hmin hperm
    obtain ⟨ents, cps, h1, h2, h3, h4, hseg⟩ := hst
    cases hents : ents with
    | nil => exact absurd hents h3
    | cons e0 rest0 =>
      obtain ⟨pre, e, post, hsplit, hchild, hpreb, hpostb⟩ := childOf_split k e0 rest0
      obtain ⟨ek0, ec0⟩ := e
      rw [hents, hsplit] at hseg
      obtain ⟨k1, k2t, s1, s2t, p1, p2t, ek1, ek2, ek3, hpart1, hpart2⟩ :=
        SegP_split2 (STC s lmax imax n) hp pre (ek0, ec0) post hlo hhi kvs ls cps hnxt hseg
      obtain ⟨ckvs, cls, cpsC, rk2, rs2, rp2, fk1, fk2, fk3, hc, hs2⟩ := hpart2
      have hclsne : cls ≠ [] :=
        ST_leaves_ne s lmax imax n ec0 (some hp) _ _ ckvs cls cpsC _ hc.1
      have hlen2 : (pre ++ (ek0, ec0) :: post).length ≤ imax := by
        rw [← hsplit, ← hents]
        exact h2
      have hsz1 : C = [] → 2 ≤ (pre ++ (ek0, ec0) :: post).length := by
        intro hcc
        have hro := hrt hcc
        unfold RootOk at hro
        rw [h1] at hro
        rw [← hsplit, ← hents]
        exact hro
      have hsz2 : C ≠ [] → internalMinSize imax ≤ (pre ++ (ek0, ec0) :: post).length := by
        intro hcne
        have hmo := hmin hcne
        unfold minOk at hmo
        rw [h1] at hmo
        have h5 : internalMinSize imax ≤ ents.length := hmo
        rw [hents, hsplit] at h5
        exact h5
      have hctx2 : CtxOK s lmax imax root (⟨hp, hpar, hlo, hhi, pre, ek0, post⟩ :: C) n ec0
          (some hp) (if pre.isEmpty then hlo else some ek0) (sepHi hhi post) (cls.headD 0)
          (segNxt hnxt rs2) (preK ++ k1) (rk2 ++ postK) (hp :: (p1 ++ rp2 ++ ctxP)) := by
        refine ⟨k1, rk2, s1, rs2, p1, rp2, hnxt, preK, postK, ctxP, ?_, ?_, hsz1, hsz2, rfl,
          rfl, rfl, rfl, ?_, ?_, ?_, rfl, rfl, rfl⟩
        · show s hp = some (.internal hpar imax (pre ++ (ek0, ec0) :: post))
          rw [h1, hents, hsplit]
        · exact hlen2
        · show SegP (STC s lmax imax n) hp pre hlo (some ek0) k1 s1 p1 (some (cls.headD 0))
          rw [fk2, segNxt_append hnxt cls rs2, segNxt_of_ne _ cls hclsne] at hpart1
          exact hpart1
        · show SegP (STC s lmax imax n) hp post (sepHi (some ek0) post) hhi rk2 rs2 rp2 hnxt
          cases hpost : post with
          | nil =>
            rw [hpost] at hs2
            exact SegP_nil_lo _ _ _ _ _ _ _ _ _ hs2
          | cons e3 rest3 =>
            rw [hpost] at hs2
            exact hs2
        · show CtxOK s lmax imax root C (n + 1) hp hpar hlo hhi (s1.headD (cls.headD 0))
            hnxt preK postK ctxP
          have hfl2 : fl = s1.headD (cls.headD 0) := by
            rw [← hhead, ek2, fk2]
            exact headD_cascade s1 cls rs2 0 hclsne
          rw [← hfl2]
          exact hctx
      have hlok2 : loOk (if pre.isEmpty then hlo else some ek0) k := by
        cases hemp : pre.isEmpty with
        | true =>
          rw [if_pos rfl]
          exact hlok
        | false =>
          rw [if_neg (by simp)]
          rcases hpreb with h | h
          · rw [hemp] at h
            cases h
          · exact h
      have hhik2 : hiOk (sepHi hhi post) k := by
        cases hpost : post with
        | nil => exact hhik
        | cons e3 rest3 =>
          rcases hpostb with h | h
          · rw [hpost] at h
            cases h
          · rw [hpost] at h
            exact h
      have hperm2 : rps.Perm (cpsC ++ (hp :: (p1 ++ rp2 ++ ctxP))) := by
        refine hperm.trans (perm_count _ _ ?_)
        intro x
        rw [h4, ek3, fk3]
        simp only [List.count_append, List.count_cons]
        ring
      obtain ⟨C2, lp, lpar, llo, lhi, lkvs, lnxt, preK2, postK2, ctxP2, rctx, rst, rkeq,
        rlok, rhik, rdesc, rperm, rnil, rmin⟩ := ih (⟨hp, hpar, hlo, hhi, pre, ek0, post⟩ :: C)
        ec0 (some hp) (if pre.isEmpty then hlo else some ek0) (sepHi hhi post) (cls.headD 0)
        (segNxt hnxt rs2) (preK ++ k1) (rk2 ++ postK) (hp :: (p1 ++ rp2 ++ ctxP))
        ckvs cls cpsC rps hctx2 hc.1 rfl hlok2 hhik2 (fun h => by cases h)
        (fun _ => hc.2) hperm2
      refine ⟨C2, lp, lpar, llo, lhi, lkvs, lnxt, preK2, postK2, ctxP2, rctx, rst, ?_,
        rlok, rhik, ?_, rperm, ?_, rmin⟩
      · rw [← rkeq, ek1, fk1]
        simp [List.append_assoc]
      · intro fuel hf
        cases fuel with
        | zero => omega
        | succ f =>
          show (match s hp with
            | none => none
            | some (.leaf _ _ _ _) => some hp
            | some (.internal _ _ ents) => descend s k f (some (childOf k ents))) = some lp
          rw [h1]
          show descend s k f (some (childOf k ents)) = some lp
          rw [hents, hchild]
          exact rdesc f (by omega)
      · intro h
        have := rnil h
        cases this

theorem upd_same (st : Nat → Option BNode) (p : Nat) (n : BNode) : upd st p n p = some n := by
  unfold upd
  rw [if_pos rfl]

theorem upd_ne (st : Nat → Option BNode) (p : Nat) (n : BNode) (q : Nat) (h : ¬ q = p) :
    upd st p n q = st q := by
  unfold upd
  rw [if_neg h]

theorem ST_reparent (s : Nat → Option BNode) (lmax imax : Nat) (h p : Nat)
    (par par2 lo hi : Option Nat) (kvs : List (Nat × Nat)) (ls ps : List Nat) (nxt : Option Nat)
    (nd : BNode)
    (hst : ST s lmax imax h p par lo hi kvs ls ps nxt) (hnd : ps.Nodup) (hsp : s p = some nd) :
    ST (upd s p (nd.withParent par2)) lmax imax h p par2 lo hi kvs ls ps nxt := by
  cases h with
  | zero =>
    obtain ⟨h1, h2, h3, h4, h5, h6⟩ := hst
    rw [hsp] at h1
    have hnd2 : nd = .leaf par lmax nxt kvs := Option.some.inj h1
    refine ⟨?_, h2, h3, h4, h5, h6⟩
    rw [upd_same, hnd2]
    rfl
  | succ n =>
    obtain ⟨ents, cps, h1, h2, h3, h4, hseg⟩ := hst
    rw [hsp] at h1
    have hnd2 : nd = .internal par imax ents := Option.some.inj h1
    have hpn : p ∉ cps := by
      rw [h4] at hnd
      exact (List.nodup_cons.mp hnd).1
    refine ⟨ents, cps, ?_, h2, h3, h4, ?_⟩
    · rw [upd_same, hnd2]
      rfl
    · refine SegP_mono_mem _ _ p ents lo hi kvs ls cps nxt hseg ?_
      intro c cpar clo chi ckvs cls cpids cnx hch hmem
      refine STC_frame lmax imax n s _ c cpar clo chi ckvs cls cpids cnx hch ?_
      intro q hq
      exact upd_ne s p _ q (fun hqp => hpn (by rw [← hqp]; exact hmem q hq))

theorem insertIdx_append_cons (x : Nat × Nat) :
    ∀ (l1 : List (Nat × Nat)) (e : Nat × Nat) (l2 : List (Nat × Nat)),
      (l1 ++ e :: l2).insertIdx (l1.length + 1) x = l1 ++ e :: x :: l2 := by
  intro l1
  induction l1 with
  | nil =>
    intro e l2
    rfl
  | cons a rest ih =>
    intro e l2
    show ((a :: rest) ++ e :: l2).insertIdx (rest.length + 1 + 1) x = _
    rw [List.cons_append, List.insertIdx_succ_cons, ih]
    rfl

theorem SegP_strict_lb (s : Nat → Option BNode) (lmax imax h : Nat) (ppid : Nat)
    (hl : 2 ≤ lmax) :
    ∀ (ents : List (Nat × Nat)) (a : Nat) (hi : Option Nat) (kvs : List (Nat × Nat))
      (ls ps : List Nat) (nxt : Option Nat),
      SegP (STC s lmax imax h) ppid ents (some a) hi kvs ls ps nxt →
      ents ≠ [] → ∃ y ∈ kvs, a ≤ y.1 := by
  intro ents
  cases ents with
  | nil =>
    intro a hi kvs ls ps nxt _ hne
    exact absurd rfl hne
  | cons e rest =>
    intro a hi kvs ls ps nxt hseg _
    obtain ⟨ckvs, cls, cps, rkvs, rls, rps, h1, h2, h3, hc, hs⟩ := hseg
    have hcne : ckvs ≠ [] := STC_kvs_ne s lmax imax hl h _ _ _ _ _ _ _ _ hc.1 hc.2
    obtain ⟨y, hy⟩ := List.exists_mem_of_ne_nil ckvs hcne
    refine ⟨y, by rw [h1]; exact List.mem_append.mpr (Or.inl hy), ?_⟩
    exact (ST_bound s lmax imax hl h _ _ _ _ _ _ _ _ hc.1 y hy).1

theorem SegP_seps (s : Nat → Option BNode) (lmax imax h : Nat) (ppid : Nat) (hl : 2 ≤ lmax) :
    ∀ (ents : List (Nat × Nat)) (lo hi : Option Nat) (kvs : List (Nat × Nat))
      (ls ps : List Nat) (nxt : Option Nat),
      SegP (STC s lmax imax h) ppid ents lo hi kvs ls ps nxt →
      List.Pairwise (fun a b : Nat × Nat => a.1 < b.1) (ents.drop 1) ∧
      (∀ e ∈ ents.drop 1, (match lo with | none => True | some a => a < e.1) ∧
        (match hi with | none => True | some b => e.1 < b)) := by
  intro ents
  induction ents with
  | nil =>
    intro lo hi kvs ls ps nxt _
    exact ⟨List.Pairwise.nil, fun e he => absurd he (by simp)⟩
  | cons e1 rest ih =>
    intro lo hi kvs ls ps nxt hseg
    obtain ⟨ckvs, cls, cps, rkvs, rls, rps, h1, h2, h3, hc, hs⟩ := hseg
    show List.Pairwise _ rest ∧ ∀ e ∈ rest, _
    cases rest with
    | nil => exact ⟨List.Pairwise.nil, fun e he => absurd he (by simp)⟩
    | cons e2 rest2 =>
      obtain ⟨ihp, ihb⟩ := ih (some e2.1) hi rkvs rls rps nxt hs
      have hcne : ckvs ≠ [] := STC_kvs_ne s lmax imax hl h _ _ _ _ _ _ _ _ hc.1 hc.2
      obtain ⟨x, hx⟩ := List.exists_mem_of_ne_nil ckvs hcne
      have hxw := ST_bound s lmax imax hl h _ _ _ _ _ _ _ _ hc.1 x hx
      have hxe2 : x.1 < e2.1 := hxw.2
      -- e2 itself is below hi: through its own child
      obtain ⟨ckvs2, cls2, cps2, rkvs2, rls2, rps2, g1, g2, g3, gc, gs⟩ := hs
      have hcne2 : ckvs2 ≠ [] := STC_kvs_ne s lmax imax hl h _ _ _ _ _ _ _ _ gc.1 gc.2
      obtain ⟨x2, hx2⟩ := List.exists_mem_of_ne_nil ckvs2 hcne2
      have hxw2 := ST_bound s lmax imax hl h _ _ _ _ _ _ _ _ gc.1 x2 hx2
      have he2hi : ∀ b, hi = some b → e2.1 < b := by
        intro b hb
        subst hb
        cases rest2 with
        | nil =>
          have hlt : x2.1 < b := hxw2.2
          have hle : e2.1 ≤ x2.1 := hxw2.1
          omega
        | cons e3 rest3 =>
          have hlt : x2.1 < e3.1 := hxw2.2
          have hle : e2.1 ≤ x2.1 := hxw2.1
          have h3hi : e3.1 < b := (ihb e3 (by simp)).2
          omega
      constructor
      · rw [List.pairwise_cons]
        refine ⟨?_, ihp⟩
        intro e3 he3
        exact (ihb e3 he3).1
      · intro e he
        rcases List.mem_cons.mp he with hh2 | hh2
        · constructor
          · cases lo with
            | none => trivial
            | some a =>
              have hax : a ≤ x.1 := hxw.1
              rw [hh2]
              show a < e2.1
              omega
          · rw [hh2]
            cases hi with
            | none => trivial
            | some b => exact he2hi b rfl
        · refine ⟨?_, (ihb e hh2).2⟩
          cases lo with
          | none => trivial
          | some a =>
            have hax : a ≤ x.1 := hxw.1
            have he2lt : e2.1 < e.1 := (ihb e hh2).1
            show a < e.1
            omega

theorem keyAt_append_mid (post : List (Nat × Nat)) (e : Nat × Nat) :
    ∀ pre : List (Nat × Nat), keyAt (pre ++ e :: post) pre.length = e.1 := by
  intro pre
  unfold keyAt
  induction pre with
  | nil => rfl
  | cons a t ih =>
    simp only [List.cons_append, List.length_cons, List.getD_cons_succ]
    exact ih

theorem keyAt_append_mid2 (post : List (Nat × Nat)) (e e2 : Nat × Nat) :
    ∀ pre : List (Nat × Nat), keyAt (pre ++ e :: e2 :: post) (pre.length + 1) = e2.1 := by
  intro pre
  unfold keyAt
  induction pre with
  | nil => rfl
  | cons a t ih =>
    simp only [List.cons_append, List.length_cons, List.getD_cons_succ]
    exact ih

theorem keyAt_lt_of_pairwise (ents : List (Nat × Nat))
    (hp : List.Pairwise (fun a b : Nat × Nat => a.1 < b.1) (ents.drop 1)) :
    ∀ i j, 1 ≤ i → i < j → j < ents.length → keyAt ents i < keyAt ents j := by
  intro i j hi hij hj
  cases ents with
  | nil => simp at hj
  | cons e0 rest =>
    cases i with
    | zero => omega
    | succ i1 =>
      cases j with
      | zero => omega
      | succ j1 =>
        have hp2 : List.Pairwise (fun a b : Nat × Nat => a.1 < b.1) rest := by
          simpa using hp
        have hj1 : j1 < rest.length := by
          simp only [List.length_cons] at hj
          omega
        have hi1 : i1 < rest.length := by omega
        have hg := List.pairwise_iff_getElem.mp hp2 i1 j1 hi1 hj1 (by omega)
        have e1 : keyAt (e0 :: rest) (i1 + 1) = (rest.get ⟨i1, hi1⟩).1 := by
          show (rest.getD i1 (0, 0)).1 = _
          rw [List.getD_eq_getElem _ _ hi1]
          rfl
        have e2 : keyAt (e0 :: rest) (j1 + 1) = (rest.get ⟨j1, hj1⟩).1 := by
          show (rest.getD j1 (0, 0)).1 = _
          rw [List.getD_eq_getElem _ _ hj1]
          rfl
        rw [e1, e2]
        exact hg

theorem lbLoop_spec (k : Nat) (ents : List (Nat × Nat))
    (hsort : ∀ i j, 1 ≤ i → i < j → j < ents.length → keyAt ents i < keyAt ents j) :
    ∀ (d left right : Nat), right - left ≤ d → 1 ≤ left → left ≤ right →
      right ≤ ents.length →
      (∀ j, 1 ≤ j → j < left → keyAt ents j < k) →
      (∀ j, right ≤ j → j < ents.length → k ≤ keyAt ents j) →
      left ≤ lbLoop k ents left right ∧ lbLoop k ents left right ≤ right ∧
      (∀ j, 1 ≤ j → j < lbLoop k ents left right → keyAt ents j < k) ∧
      (∀ j, lbLoop k ents left right ≤ j → j < ents.length → k ≤ keyAt ents j) := by
  intro d
  induction d with
  | zero =>
    intro left right hd h1 h2 h3 hlow hhigh
    have hlr : ¬ left < right := by omega
    unfold lbLoop
    rw [dif_neg hlr]
    exact ⟨Nat.le_refl _, by omega, hlow, fun j hj1 hj2 => hhigh j (by omega) hj2⟩
  | succ n ih =>
    intro left right hd h1 h2 h3 hlow hhigh
    by_cases hlr : left < right
    · unfold lbLoop
      rw [dif_pos hlr]
      dsimp only
      by_cases hk : k ≤ keyAt ents ((left + right) / 2)
      · rw [if_pos hk]
        have haux : ∀ j, (left + right) / 2 ≤ j → j < ents.length → k ≤ keyAt ents j := by
          intro j hj1 hj2
          rcases Nat.eq_or_lt_of_le hj1 with he | hlt
          · rw [← he]
            exact hk
          · have := hsort ((left + right) / 2) j (by omega) hlt hj2
            omega
        have hrec := ih left ((left + right) / 2) (by omega) h1 (by omega) (by omega) hlow haux
        exact ⟨hrec.1, by omega, hrec.2.2.1, hrec.2.2.2⟩
      · rw [if_neg hk]
        have hk2 : keyAt ents ((left + right) / 2) < k := by omega
        have haux : ∀ j, 1 ≤ j → j < (left + right) / 2 + 1 → keyAt ents j < k := by
          intro j hj1 hj2
          rcases Nat.lt_or_ge j ((left + right) / 2) with hlt | hge
          · have := hsort j ((left + right) / 2) hj1 hlt (by omega)
            omega
          · have hje : j = (left + right) / 2 := by omega
            rw [hje]
            exact hk2
        have hrec := ih ((left + right) / 2 + 1) right (by omega) (by omega) (by omega) h3 haux hhigh
        exact ⟨by omega, hrec.2.1, hrec.2.2.1, hrec.2.2.2⟩
    · unfold lbLoop
      rw [dif_neg hlr]
      exact ⟨Nat.le_refl _, by omega, hlow, fun j hj1 hj2 => hhigh j (by omega) hj2⟩

theorem internalLB_junction (pre post : List (Nat × Nat)) (e : Nat × Nat) (k : Nat)
    (hp : List.Pairwise (fun a b : Nat × Nat => a.1 < b.1) ((pre ++ e :: post).drop 1))
    (hek : pre ≠ [] → e.1 < k)
    (hpost : ∀ e2, post.head? = some e2 → k < e2.1) :
    internalLB (pre ++ e :: post) k = pre.length + 1 := by
  have hlen : (pre ++ e :: post).length = pre.length + post.length + 1 := by
    simp only [List.length_append, List.length_cons]
    omega
  have hsort := keyAt_lt_of_pairwise (pre ++ e :: post) hp
  have hspec := lbLoop_spec k (pre ++ e :: post) hsort (pre ++ e :: post).length 1
    (pre ++ e :: post).length (by omega) (by omega) (by omega) (Nat.le_refl _)
    (fun j hj1 hj2 => absurd (Nat.lt_of_lt_of_le hj2 hj1) (by omega))
    (fun j hj1 hj2 => absurd (Nat.lt_of_le_of_lt hj1 hj2) (by omega))
  obtain ⟨hi1, hi2, hilow, hihigh⟩ := hspec
  show lbLoop k (pre ++ e :: post) 1 (pre ++ e :: post).length = pre.length + 1
  rcases Nat.lt_or_ge (lbLoop k (pre ++ e :: post) 1 (pre ++ e :: post).length)
    (pre.length + 1) with hlt | hge
  · by_cases hpre : pre = []
    · have h0 : pre.length = 0 := by rw [hpre]; rfl
      omega
    · have hke : k ≤ keyAt (pre ++ e :: post) pre.length :=
        hihigh pre.length (by omega) (by omega)
      rw [keyAt_append_mid post e pre] at hke
      have := hek hpre
      omega
  · rcases Nat.lt_or_ge (pre.length + 1)
      (lbLoop k (pre ++ e :: post) 1 (pre ++ e :: post).length) with hlt2 | hge2
    · have hplen : post ≠ [] := by
        intro hnil
        have h0 : post.length = 0 := by rw [hnil]; rfl
        omega
      obtain ⟨p2, prest, hcpost⟩ := List.exists_cons_of_ne_nil hplen
      have hk1 := hilow (pre.length + 1) (by omega) hlt2
      have hkey : keyAt (pre ++ e :: post) (pre.length + 1) = p2.1 := by
        rw [hcpost]
        exact keyAt_append_mid2 prest e p2 pre
      have hk2 := hpost p2 (by rw [hcpost]; rfl)
      omega
    · omega

theorem internalInsert_junction (pre post : List (Nat × Nat)) (e : Nat × Nat) (k v : Nat)
    (hp : List.Pairwise (fun a b : Nat × Nat => a.1 < b.1) ((pre ++ e :: post).drop 1))
    (hek : pre ≠ [] → e.1 < k)
    (hpost : ∀ e2, post.head? = some e2 → k < e2.1) :
    internalInsert (pre ++ e :: post) k v = (true, pre ++ e :: (k, v) :: post) := by
  have hidx := internalLB_junction pre post e k hp hek hpost
  have hlen : (pre ++ e :: post).length = pre.length + post.length + 1 := by
    simp only [List.length_append, List.length_cons]
    omega
  unfold internalInsert
  dsimp only
  rw [hidx]
  have hcond : ¬ (pre.length + 1 < (pre ++ e :: post).length ∧
      keyAt (pre ++ e :: post) (pre.length + 1) = k) := by
    rintro ⟨hlt, heq⟩
    have hplen : post ≠ [] := by
      intro hnil
      have h0 : post.length = 0 := by rw [hnil]; rfl
      omega
    obtain ⟨p2, prest, hcpost⟩ := List.exists_cons_of_ne_nil hplen
    have hkey : keyAt (pre ++ e :: post) (pre.length + 1) = p2.1 := by
      rw [hcpost]
      exact keyAt_append_mid2 prest e p2 pre
    have hk2 := hpost p2 (by rw [hcpost]; rfl)
    omega
  rw [if_neg hcond]
  rw [insertIdx_append_cons (k, v) pre e post]

theorem withParent_parentOf (n : BNode) (p : Option Nat) : (n.withParent p).parentOf = p := by
  cases n <;> rfl

theorem withParent_sizeOf (n : BNode) (p : Option Nat) : BNode.sizeOf (n.withParent p) = BNode.sizeOf n := by
  cases n <;> rfl

theorem withParent_minSizeOf (n : BNode) (p : Option Nat) :
    (n.withParent p).minSizeOf = n.minSizeOf := by
  cases n <;> rfl

theorem internalSplit_junction (pre post : List (Nat × Nat)) (e : Nat × Nat) (k v imax : Nat)
    (hfull : (pre ++ e :: post).length = imax)
    (hp : List.Pairwise (fun a b : Nat × Nat => a.1 < b.1) ((pre ++ e :: post).drop 1))
    (hek : pre ≠ [] → e.1 < k)
    (hpost : ∀ e2, post.head? = some e2 → k < e2.1) :
    internalSplit (pre ++ e :: post) k v imax =
      ((pre ++ e :: (k, v) :: post).take (internalMinSize imax),
       (pre ++ e :: (k, v) :: post).drop (internalMinSize imax)) := by
  have hidx := internalLB_junction pre post e k hp hek hpost
  unfold internalSplit
  dsimp only
  rw [← hfull, List.take_length]
  rw [show lbLoop k (pre ++ e :: post) 1 (pre ++ e :: post).length = pre.length + 1 from hidx]
  rw [insertIdx_append_cons (k, v) pre e post]

theorem pairwise_keys_junction (e : Nat × Nat) (pre post : List (Nat × Nat))
    (hpre : List.Pairwise (fun a b : Nat × Nat => a.1 < b.1) (pre.drop 1))
    (hpre_hi : ∀ x ∈ pre.drop 1, x.1 < e.1)
    (hpost : List.Pairwise (fun a b : Nat × Nat => a.1 < b.1) (post.drop 1))
    (hpost_lo : ∀ p0, post.head? = some p0 → ∀ x ∈ post.drop 1, p0.1 < x.1)
    (hjump : pre ≠ [] → ∀ p0, post.head? = some p0 → e.1 < p0.1) :
    List.Pairwise (fun a b : Nat × Nat => a.1 < b.1) ((pre ++ e :: post).drop 1) := by
  cases pre with
  | nil =>
    cases post with
    | nil => exact List.Pairwise.nil
    | cons p0 prest =>
      show List.Pairwise _ (p0 :: prest)
      rw [List.pairwise_cons]
      exact ⟨fun x hx => hpost_lo p0 rfl x hx, hpost⟩
  | cons a pre2 =>
    cases post with
    | nil =>
      show List.Pairwise _ (pre2 ++ [e])
      rw [List.pairwise_append]
      refine ⟨hpre, List.pairwise_singleton _ _, ?_⟩
      intro x hx y hy
      rw [List.mem_singleton.mp hy]
      exact hpre_hi x hx
    | cons p0 prest =>
      show List.Pairwise _ (pre2 ++ e :: p0 :: prest)
      rw [List.pairwise_append]
      have hj := hjump (by simp) p0 rfl
      refine ⟨hpre, ?_, ?_⟩
      · rw [List.pairwise_cons]
        constructor
        · intro x hx
          rcases List.mem_cons.mp hx with h | h
          · rw [h]
            exact hj
          · have h2 := hpost_lo p0 rfl x h
            omega
        · rw [List.pairwise_cons]
          exact ⟨fun x hx => hpost_lo p0 rfl x hx, hpost⟩
      · intro x hx y hy
        have hxe : x.1 < e.1 := hpre_hi x hx
        rcases List.mem_cons.mp hy with h | h
        · rw [h]
          exact hxe
        · rcases List.mem_cons.mp h with h2 | h2
          · rw [h2]
            omega
          · have h3 := hpost_lo p0 rfl y h2
            omega

theorem ST_node (s : Nat → Option BNode) (lmax imax h p : Nat) (par lo hi : Option Nat)
    (kvs : List (Nat × Nat)) (ls ps : List Nat) (nxt : Option Nat)
    (hst : ST s lmax imax h p par lo hi kvs ls ps nxt) :
    ∃ n, s p = some n ∧ n.parentOf = par := by
  cases h with
  | zero => exact ⟨_, hst.1, rfl⟩
  | succ n =>
    obtain ⟨ents, cps, h1, _⟩ := hst
    exact ⟨_, h1, rfl⟩

theorem SegP_entry_pid (child : ChildP) (ppid : Nat)
    (hmem : ∀ c cpar clo chi ckvs cls cpids cnx,
      child c cpar clo chi ckvs cls cpids cnx → c ∈ cpids) :
    ∀ (ents : List (Nat × Nat)) (lo hi : Option Nat) (kvs : List (Nat × Nat))
      (leaves pids : List Nat) (nxt : Option Nat),
      SegP child ppid ents lo hi kvs leaves pids nxt →
      ∀ e ∈ ents, e.2 ∈ pids := by
  intro ents
  induction ents with
  | nil =>
    intro lo hi kvs leaves pids nxt _ e he
    exact absurd he (by simp)
  | cons e1 rest ih =>
    intro lo hi kvs leaves pids nxt hseg e he
    obtain ⟨ckvs, cls, cps, rkvs, rls, rps, h1, h2, h3, hc, hs⟩ := hseg
    rw [h3]
    rcases List.mem_cons.mp he with h | h
    · exact List.mem_append_left _ (h ▸ hmem _ _ _ _ _ _ _ _ hc)
    · exact List.mem_append_right _ (ih _ _ _ _ _ _ hs e h)

theorem updateChildren_spec (npid : Nat) :
    ∀ (l : List (Nat × Nat)) (t : BTS),
      (∀ e ∈ l, ∃ n, t.store e.2 = some n) →
      (l.map (fun e : Nat × Nat => e.2)).Nodup →
      ∃ t2, updateChildren t npid l = some t2 ∧
        t2.root = t.root ∧ t2.nextPid = t.nextPid ∧ t2.deleted = t.deleted ∧
        t2.leafMax = t.leafMax ∧ t2.internalMax = t.internalMax ∧
        t2.headerRec = t.headerRec ∧
        ∀ q, t2.store q =
          if q ∈ l.map (fun e : Nat × Nat => e.2) then
            (t.store q).map (fun n => n.withParent (some npid))
          else t.store q := by
  intro l
  induction l with
  | nil =>
    intro t _ _
    exact ⟨t, rfl, rfl, rfl, rfl, rfl, rfl, rfl, fun q => by simp⟩
  | cons e rest ih =>
    intro t hex hnd
    obtain ⟨n, hn⟩ := hex e (by simp)
    have hmem : e.2 ∉ rest.map (fun e : Nat × Nat => e.2) := by
      rw [List.map_cons, List.nodup_cons] at hnd
      exact hnd.1
    have hndr : (rest.map (fun e : Nat × Nat => e.2)).Nodup := by
      rw [List.map_cons, List.nodup_cons] at hnd
      exact hnd.2
    have hex2 : ∀ e2 ∈ rest,
        ∃ n2, (upd t.store e.2 (n.withParent (some npid))) e2.2 = some n2 := by
      intro e2 he2
      obtain ⟨n2, hn2⟩ := hex e2 (by simp [he2])
      have hq : ¬ e2.2 = e.2 := by
        intro hq
        exact hmem (hq ▸ List.mem_map_of_mem _ he2)
      exact ⟨n2, by rw [upd_ne _ _ _ _ hq]; exact hn2⟩
    obtain ⟨t2, hrun, hr1, hr2, hr3, hr4, hr5, hr6, hsq⟩ :=
      ih { t with store := upd t.store e.2 (n.withParent (some npid)) } hex2 hndr
    refine ⟨t2, ?_, hr1, hr2, hr3, hr4, hr5, hr6, ?_⟩
    · show (match t.store e.2 with
        | none => none
        | some n =>
          updateChildren { t with store := upd t.store e.2 (n.withParent (some npid)) } npid
            rest) = some t2
      rw [hn]
      exact hrun
    · intro q
      have hq1 := hsq q
      simp only [List.map_cons, List.mem_cons]
      by_cases hqr : q ∈ rest.map (fun e : Nat × Nat => e.2)
      · have hqe : ¬ q = e.2 := fun h => hmem (h ▸ hqr)
        rw [if_pos (Or.inr hqr)]
        rw [if_pos hqr] at hq1
        rw [hq1]
        show ((upd t.store e.2 (n.withParent (some npid))) q).map _ = _
        rw [upd_ne _ _ _ _ hqe]
      · rw [if_neg hqr] at hq1
        by_cases hqe : q = e.2
        · rw [if_pos (Or.inl hqe)]
          rw [hq1]
          show (upd t.store e.2 (n.withParent (some npid))) q = _
          rw [hqe, upd_same, hn]
          rfl
        · rw [if_neg (fun h => h.elim hqe hqr)]
          rw [hq1]
          show (upd t.store e.2 (n.withParent (some npid))) q = _
          rw [upd_ne _ _ _ _ hqe]

theorem SegP_reparent (s s2 : Nat → Option BNode) (lmax imax h : Nat) (ppid npid : Nat) :
    ∀ (ents : List (Nat × Nat)) (lo hi : Option Nat) (kvs : List (Nat × Nat))
      (ls ps : List Nat) (nxt : Option Nat),
      SegP (STC s lmax imax h) ppid ents lo hi kvs ls ps nxt →
      ps.Nodup →
      (∀ q ∈ ps, s2 q = if q ∈ ents.map (fun e : Nat × Nat => e.2) then
        (s q).map (fun n => n.withParent (some npid)) else s q) →
      SegP (STC s2 lmax imax h) npid ents lo hi kvs ls ps nxt := by
  intro ents
  induction ents with
  | nil =>
    intro lo hi kvs ls ps nxt hseg _ _
    exact hseg
  | cons e rest ih =>
    intro lo hi kvs ls ps nxt hseg hnd hag
    obtain ⟨ckvs, cls, cps, rkvs, rls, rps, h1, h2, h3, hc, hs⟩ := hseg
    subst h1 h2 h3
    have hcnd : cps.Nodup := (List.nodup_append.mp hnd).1
    have hrnd : rps.Nodup := (List.nodup_append.mp hnd).2.1
    have hdisj : ∀ q ∈ cps, q ∉ rps := by
      intro q hq hq2
      exact (List.nodup_append.mp hnd).2.2 hq hq2
    obtain ⟨n, hn, hpar⟩ := ST_node s lmax imax h e.2 (some ppid) lo (sepHi hi rest) ckvs cls
      cps (segNxt nxt rls) hc.1
    have hein : e.2 ∈ cps := ST_mem_pid s lmax imax h e.2 (some ppid) lo (sepHi hi rest) ckvs
      cls cps (segNxt nxt rls) hc.1
    have hrpid : ∀ e2 ∈ rest, e2.2 ∈ rps :=
      SegP_entry_pid (STC s lmax imax h) ppid
        (fun c cpar clo chi ckvs2 cls2 cpids2 cnx2 hch =>
          ST_mem_pid s lmax imax h c cpar clo chi ckvs2 cls2 cpids2 cnx2 hch.1)
        rest (sepHi lo rest) hi rkvs rls rps nxt hs
    refine ⟨ckvs, cls, cps, rkvs, rls, rps, rfl, rfl, rfl, ?_, ?_⟩
    · have hst2 := ST_reparent s lmax imax h e.2 (some ppid) (some npid) lo (sepHi hi rest)
        ckvs cls cps (segNxt nxt rls) n hc.1 hcnd hn
      have hag2 : ∀ q ∈ cps, s2 q = (upd s e.2 (n.withParent (some npid))) q := by
        intro q hq
        have := hag q (List.mem_append_left _ hq)
        by_cases hqe : q = e.2
        · rw [this, if_pos (by rw [List.map_cons, List.mem_cons]; exact Or.inl hqe), hqe, hn]
          show some (n.withParent (some npid)) = _
          rw [upd_same]
        · have hqr : q ∉ (e :: rest).map (fun e : Nat × Nat => e.2) := by
            rw [List.map_cons, List.mem_cons]
            rintro (hh | hh)
            · exact hqe hh
            · rcases List.mem_map.mp hh with ⟨e2, he2, he2q⟩
              exact hdisj q hq (he2q ▸ hrpid e2 he2)
          rw [this, if_neg hqr, upd_ne _ _ _ _ hqe]
      refine ⟨ST_frame lmax imax (upd s e.2 (n.withParent (some npid))) s2 h e.2 (some npid)
        lo (sepHi hi rest) ckvs cls cps (segNxt nxt rls) hst2 hag2, ?_⟩
      show minOk s2 e.2
      unfold minOk
      rw [hag2 e.2 hein, upd_same]
      have hm := hc.2
      unfold minOk at hm
      rw [hn] at hm
      have hm2 : n.minSizeOf ≤ BNode.sizeOf n := hm
      show (n.withParent (some npid)).minSizeOf ≤ BNode.sizeOf (n.withParent (some npid))
      rw [withParent_sizeOf, withParent_minSizeOf]
      exact hm2
    · refine ih (sepHi lo rest) hi rkvs rls rps nxt hs hrnd ?_
      intro q hq
      have := hag q (List.mem_append_right _ hq)
      by_cases hqr : q ∈ rest.map (fun e : Nat × Nat => e.2)
      · rw [this, if_pos (by rw [List.map_cons, List.mem_cons]; exact Or.inr hqr), if_pos hqr]
      · have hqe : ¬ q = e.2 := by
          intro hqe
          exact hdisj q (hqe ▸ hein) hq
        rw [this, if_neg (by
          rw [List.map_cons, List.mem_cons]
          rintro (hh | hh)
          · exact hqe hh
          · exact hqr hh), if_neg hqr]

theorem updateRootPageId_fields (t : BTS) (b : Bool) :
    (updateRootPageId t b).store = t.store ∧ (updateRootPageId t b).root = t.root ∧
    (updateRootPageId t b).nextPid = t.nextPid ∧ (updateRootPageId t b).deleted = t.deleted ∧
    (updateRootPageId t b).leafMax = t.leafMax ∧
    (updateRootPageId t b).internalMax = t.internalMax := by
  unfold updateRootPageId
  cases b <;> cases t.headerRec <;> exact ⟨rfl, rfl, rfl, rfl, rfl, rfl⟩

theorem SegP_children_nodup (child : ChildP) (ppid : Nat)
    (hmem : ∀ c cpar clo chi ckvs cls cpids cnx,
      child c cpar clo chi ckvs cls cpids cnx → c ∈ cpids) :
    ∀ (ents : List (Nat × Nat)) (lo hi : Option Nat) (kvs : List (Nat × Nat))
      (leaves pids : List Nat) (nxt : Option Nat),
      SegP child ppid ents lo hi kvs leaves pids nxt → pids.Nodup →
      (ents.map (fun e : Nat × Nat => e.2)).Nodup := by
  intro ents
  induction ents with
  | nil =>
    intro lo hi kvs leaves pids nxt _ _
    simp
  | cons e rest ih =>
    intro lo hi kvs leaves pids nxt hseg hnd
    obtain ⟨ckvs, cls, cps, rkvs, rls, rps, h1, h2, h3, hc, hs⟩ := hseg
    subst h3
    rw [List.map_cons, List.nodup_cons]
    constructor
    · intro hin
      rcases List.mem_map.mp hin with ⟨e2, he2, he2q⟩
      have h1m : e.2 ∈ cps := hmem _ _ _ _ _ _ _ _ hc
      have h2m : e2.2 ∈ rps :=
        SegP_entry_pid child ppid hmem rest (sepHi lo rest) hi rkvs rls rps nxt hs e2 he2
      exact (List.nodup_append.mp hnd).2.2 h1m (he2q ▸ h2m)
    · exact ih (sepHi lo rest) hi rkvs rls rps nxt hs (List.nodup_append.mp hnd).2.1

theorem SegP_two_mid (child : ChildP) (ppid : Nat) (pre post : List (Nat × Nat))
    (ek m lp rp : Nat) (plo phi : Option Nat)
    (k1 lkvs rkvs k2 : List (Nat × Nat)) (s1 lls rls sl2 : List Nat)
    (p1 lps rps p2 : List Nat) (pnxt : Option Nat)
    (hlls : lls ≠ []) (hrls : rls ≠ [])
    (hpre : SegP child ppid pre plo (some ek) k1 s1 p1 (some (lls.headD 0)))
    (hlch : child lp (some ppid) (if pre.isEmpty then plo else some ek) (some m) lkvs lls lps
      (some (rls.headD 0)))
    (hrch : child rp (some ppid) (some m) (sepHi phi post) rkvs rls rps (segNxt pnxt sl2))
    (hpost : SegP child ppid post (sepHi (some ek) post) phi k2 sl2 p2 pnxt) :
    SegP child ppid (pre ++ (ek, lp) :: (m, rp) :: post) plo phi
      (k1 ++ (lkvs ++ (rkvs ++ k2))) (s1 ++ (lls ++ (rls ++ sl2)))
      (p1 ++ (lps ++ (rps ++ p2))) pnxt := by
  refine SegP_append2 child ppid pre (ek, lp) ((m, rp) :: post) plo phi k1
    (lkvs ++ (rkvs ++ k2)) s1 (lls ++ (rls ++ sl2)) p1 (lps ++ (rps ++ p2)) pnxt ?_ ?_
  · rw [segNxt_append pnxt lls (rls ++ sl2), segNxt_of_ne _ lls hlls]
    exact hpre
  · refine ⟨lkvs, lls, lps, rkvs ++ k2, rls ++ sl2, rps ++ p2, rfl, rfl, rfl, ?_, ?_⟩
    · show child lp (some ppid) _ (some m) lkvs lls lps (segNxt pnxt (rls ++ sl2))
      rw [segNxt_append pnxt rls sl2, segNxt_of_ne _ rls hrls]
      exact hlch
    · refine ⟨rkvs, rls, rps, k2, sl2, p2, rfl, rfl, rfl, ?_, ?_⟩
      · exact hrch
      · show SegP child ppid post (sepHi (some m) post) phi k2 sl2 p2 pnxt
        cases hcp : post with
        | nil =>
          rw [hcp] at hpost
          exact SegP_nil_lo child ppid _ _ phi k2 sl2 p2 pnxt hpost
        | cons e3 r3 =>
          rw [hcp] at hpost
          exact hpost

theorem updateRootPageId_store (t : BTS) (b : Bool) :
    (updateRootPageId t b).store = t.store := (updateRootPageId_fields t b).1

theorem updateRootPageId_root (t : BTS) (b : Bool) :
    (updateRootPageId t b).root = t.root := (updateRootPageId_fields t b).2.1

theorem updateRootPageId_nextPid (t : BTS) (b : Bool) :
    (updateRootPageId t b).nextPid = t.nextPid := (updateRootPageId_fields t b).2.2.1

theorem updateRootPageId_deleted (t : BTS) (b : Bool) :
    (updateRootPageId t b).deleted = t.deleted := (updateRootPageId_fields t b).2.2.2.1

theorem updateRootPageId_leafMax (t : BTS) (b : Bool) :
    (updateRootPageId t b).leafMax = t.leafMax := (updateRootPageId_fields t b).2.2.2.2.1

theorem updateRootPageId_internalMax (t : BTS) (b : Bool) :
    (updateRootPageId t b).internalMax = t.internalMax := (updateRootPageId_fields t b).2.2.2.2.2

theorem splitRoot_fields (t : BTS) (lp rp m : Nat) (ln rn : BNode) :
    (splitRoot t lp rp m ln rn).store
      = upd (upd (upd t.store t.nextPid (.internal none t.internalMax [(0, lp), (m, rp)])) lp
          (ln.withParent (some t.nextPid))) rp (rn.withParent (some t.nextPid)) ∧
    (splitRoot t lp rp m ln rn).root = some t.nextPid ∧
    (splitRoot t lp rp m ln rn).nextPid = t.nextPid + 1 ∧
    (splitRoot t lp rp m ln rn).deleted = t.deleted ∧
    (splitRoot t lp rp m ln rn).leafMax = t.leafMax ∧
    (splitRoot t lp rp m ln rn).internalMax = t.internalMax := by
  unfold splitRoot
  dsimp only
  rw [updateRootPageId_store, updateRootPageId_root, updateRootPageId_nextPid,
    updateRootPageId_deleted, updateRootPageId_leafMax, updateRootPageId_internalMax]
  exact ⟨rfl, rfl, rfl, rfl, rfl, rfl⟩

theorem insertInParent_root (t : BTS) (lp rp m f : Nat) (ln rn : BNode)
    (hln : t.store lp = some ln) (hlnp : ln.parentOf = none)
    (hrn : t.store rp = some rn)
    (hlpn : ¬ lp = t.nextPid) (hrpn : ¬ rp = t.nextPid) :
    insertInParent t lp rp m (f + 1) = some (splitRoot t lp rp m ln rn) := by
  rw [insertInParent, hln]
  dsimp only
  rw [hlnp]
  dsimp only
  unfold splitRoot
  dsimp only
  rw [updateRootPageId_store]
  dsimp only
  rw [upd_ne _ _ _ _ hlpn, hln, upd_ne _ _ _ _ hrpn, hrn]

theorem minOk_frame (s s2 : Nat → Option BNode) (p : Nat) (h : minOk s p)
    (he : s2 p = s p) : minOk s2 p := by
  unfold minOk at h ⊢
  rw [he]
  exact h

theorem iip_spec (lmax imax root : Nat) (hl : 2 ≤ lmax) (him : 2 ≤ imax) :
    ∀ (C : List Frame) (fuel : Nat) (t : BTS) (hh lp rp m : Nat) (par llo lhi : Option Nat)
      (lkvs rkvs : List (Nat × Nat)) (lls rls lps rps : List Nat) (hnxt : Option Nat)
      (preK postK : List (Nat × Nat)) (ctxP : List Nat),
      t.leafMax = lmax → t.internalMax = imax → t.deleted = [] → t.root = some root →
      CtxOK t.store lmax imax root C hh lp par llo lhi (lls.headD 0) hnxt preK postK ctxP →
      ST t.store lmax imax hh lp par llo (some m) lkvs lls lps (some (rls.headD 0)) →
      ST t.store lmax imax hh rp par (some m) lhi rkvs rls rps hnxt →
      minOk t.store lp → minOk t.store rp →
      hiOk lhi m →
      (lps ++ (rps ++ ctxP)).Nodup →
      (∀ q ∈ lps ++ (rps ++ ctxP), q < t.nextPid) →
      0 < t.nextPid →
      C.length < fuel →
      ∃ t2, insertInParent t lp rp m fuel = some t2 ∧ TreeInv t2 := by
  intro C
  induction C with
  | nil =>
    intro fuel t hh lp rp m par llo lhi lkvs rkvs lls rls lps rps hnxt preK postK ctxP
      hlm2 him2 hdel hroot hctx hstL hstR hminL hminR hhim hnd hbnd hpos hfuel
    obtain ⟨e1, e2, e3, e4, e5, e6, e7, e8⟩ := hctx
    subst e2 e3 e4 e5 e6 e7 e8
    cases fuel with
    | zero => omega
    | succ f =>
    obtain ⟨ln, hln, hlnp⟩ := ST_node t.store lmax imax hh lp none none (some m) lkvs lls lps
      (some (rls.headD 0)) hstL
    obtain ⟨rn, hrn, hrnp⟩ := ST_node t.store lmax imax hh rp none (some m) none rkvs rls rps
      none hstR
    have hlpm : lp ∈ lps := ST_mem_pid t.store lmax imax hh lp none none (some m) lkvs lls lps
      (some (rls.headD 0)) hstL
    have hrpm : rp ∈ rps := ST_mem_pid t.store lmax imax hh rp none (some m) none rkvs rls rps
      none hstR
    have hndlr : (lps ++ rps).Nodup := by simpa using hnd
    have hlnd : lps.Nodup := (List.nodup_append.mp hndlr).1
    have hrnd : rps.Nodup := (List.nodup_append.mp hndlr).2.1
    have hdisj : ∀ q ∈ lps, q ∉ rps := fun q hq hq2 => (List.nodup_append.mp hndlr).2.2 hq hq2
    have hbnd2 : ∀ q ∈ lps ++ rps, q < t.nextPid := by
      intro q hq
      apply hbnd
      simpa using hq
    have hlfr : ∀ q ∈ lps, ¬ q = t.nextPid := by
      intro q hq he
      have := hbnd2 q (List.mem_append_left _ hq)
      omega
    have hrfr : ∀ q ∈ rps, ¬ q = t.nextPid := by
      intro q hq he
      have := hbnd2 q (List.mem_append_right _ hq)
      omega
    have hlpn : ¬ lp = t.nextPid := hlfr lp hlpm
    have hrpn : ¬ rp = t.nextPid := hrfr rp hrpm
    have hlr : ¬ lp = rp := fun he => hdisj lp hlpm (he ▸ hrpm)
    have hrls_ne : rls ≠ [] := ST_leaves_ne t.store lmax imax hh rp none (some m) none rkvs rls
      rps none hstR
    -- the three-layer result store
    have hstL1 : ST (upd t.store t.nextPid (.internal none t.internalMax [(0, lp), (m, rp)]))
        lmax imax hh lp none none (some m) lkvs lls lps (some (rls.headD 0)) := by
      refine ST_frame lmax imax t.store _ hh lp none none (some m) lkvs lls lps
        (some (rls.headD 0)) hstL ?_
      intro q hq
      exact upd_ne _ _ _ _ (hlfr q hq)
    have hstR1 : ST (upd t.store t.nextPid (.internal none t.internalMax [(0, lp), (m, rp)]))
        lmax imax hh rp none (some m) none rkvs rls rps none := by
      refine ST_frame lmax imax t.store _ hh rp none (some m) none rkvs rls rps none hstR ?_
      intro q hq
      exact upd_ne _ _ _ _ (hrfr q hq)
    have hsaL : (upd t.store t.nextPid (.internal none t.internalMax [(0, lp), (m, rp)])) lp
        = some ln := by
      rw [upd_ne _ _ _ _ hlpn]
      exact hln
    have hsaR : (upd t.store t.nextPid (.internal none t.internalMax [(0, lp), (m, rp)])) rp
        = some rn := by
      rw [upd_ne _ _ _ _ hrpn]
      exact hrn
    have hstL2 := ST_reparent _ lmax imax hh lp none (some t.nextPid) none (some m) lkvs lls
      lps (some (rls.headD 0)) ln hstL1 hlnd hsaL
    have hstR2 := ST_reparent _ lmax imax hh rp none (some t.nextPid) (some m) none rkvs rls
      rps none rn hstR1 hrnd hsaR
    refine ⟨splitRoot t lp rp m ln rn, insertInParent_root t lp rp m f ln rn hln hlnp hrn
      hlpn hrpn, ?_⟩
    have hsp := splitRoot_fields t lp rp m ln rn
    refine ⟨?_, ?_, ?_, ?_⟩
    · rw [hsp.2.2.2.2.1, hlm2]
      exact hl
    · rw [hsp.2.2.2.2.2, him2]
      exact him
    · rw [hsp.2.2.2.1, hdel]
    · rw [hsp.2.1]
      show ∃ h kvs leaves pids,
        ST (splitRoot t lp rp m ln rn).store (splitRoot t lp rp m ln rn).leafMax
          (splitRoot t lp rp m ln rn).internalMax h t.nextPid none none none kvs leaves pids
          none ∧ _ ∧ _ ∧ _ ∧ _
      rw [hsp.2.2.2.2.1, hsp.2.2.2.2.2, hsp.2.2.1, hlm2, him2, hsp.1]
      have hnsr : ¬ t.nextPid = rp := fun h => hrpn h.symm
      have hnsl : ¬ t.nextPid = lp := fun h => hlpn h.symm
      have hstore3 :
          (upd (upd (upd t.store t.nextPid
            (.internal none t.internalMax [(0, lp), (m, rp)])) lp
            (ln.withParent (some t.nextPid))) rp (rn.withParent (some t.nextPid))) t.nextPid
          = some (.internal none imax [(0, lp), (m, rp)]) := by
        rw [upd_ne _ _ _ _ hnsr, upd_ne _ _ _ _ hnsl, upd_same, him2]
      refine ⟨hh + 1, lkvs ++ (rkvs ++ []), lls ++ (rls ++ []),
        t.nextPid :: (lps ++ (rps ++ [])), ?_, ?_, ?_, ?_, ?_⟩
      · refine ⟨[(0, lp), (m, rp)], lps ++ (rps ++ []), hstore3, by simp; omega, by simp,
          rfl, ?_⟩
        refine ⟨lkvs, lls, lps, rkvs ++ [], rls ++ [], rps ++ [], rfl, rfl, rfl, ?_, ?_⟩
        · refine ⟨?_, ?_⟩
          · show ST _ lmax imax hh lp (some t.nextPid) none (some m) lkvs lls lps
              (segNxt none (rls ++ []))
            rw [show segNxt none (rls ++ []) = some (rls.headD 0) from by
              rw [List.append_nil]; exact segNxt_of_ne none rls hrls_ne]
            refine ST_frame lmax imax _ _ hh lp (some t.nextPid) none (some m) lkvs lls lps
              (some (rls.headD 0)) hstL2 ?_
            intro q hq
            exact upd_ne _ _ _ _ (fun he => hdisj q hq (by rw [he]; exact hrpm))
          · show minOk _ lp
            unfold minOk
            rw [upd_ne _ _ _ _ hlr, upd_same]
            unfold minOk at hminL
            rw [hln] at hminL
            have hm2 : ln.minSizeOf ≤ BNode.sizeOf ln := hminL
            show (ln.withParent (some t.nextPid)).minSizeOf
              ≤ BNode.sizeOf (ln.withParent (some t.nextPid))
            rw [withParent_sizeOf, withParent_minSizeOf]
            exact hm2
        · refine ⟨rkvs, rls, rps, [], [], [], rfl, rfl, rfl, ?_, rfl, rfl, rfl⟩
          refine ⟨?_, ?_⟩
          · show ST _ lmax imax hh rp (some t.nextPid) (some m) none rkvs rls rps
              (segNxt none ([] : List Nat))
            refine ST_frame lmax imax _ _ hh rp (some t.nextPid) (some m) none rkvs rls rps
              none hstR2 ?_
            intro q hq
            by_cases hqe : q = rp
            · rw [hqe, upd_same, upd_same]
            · rw [upd_ne _ _ _ _ hqe, upd_ne _ _ _ _ hqe,
                upd_ne _ _ _ _ (fun he => hdisj lp hlpm (by rw [← he]; exact hq))]
          · show minOk _ rp
            unfold minOk
            rw [upd_same]
            unfold minOk at hminR
            rw [hrn] at hminR
            have hm2 : rn.minSizeOf ≤ BNode.sizeOf rn := hminR
            show (rn.withParent (some t.nextPid)).minSizeOf
              ≤ BNode.sizeOf (rn.withParent (some t.nextPid))
            rw [withParent_sizeOf, withParent_minSizeOf]
            exact hm2
      · unfold RootOk
        rw [hstore3]
        show 2 ≤ ([(0, lp), (m, rp)] : List (Nat × Nat)).length
        simp
      · simp only [List.append_nil]
        rw [List.nodup_cons]
        refine ⟨?_, hndlr⟩
        intro hq
        have := hbnd2 _ hq
        omega
      · intro q hq
        simp only [List.append_nil, List.mem_cons] at hq
        rcases hq with hq | hq
        · omega
        · have := hbnd2 q hq
          omega
      · omega
  | cons fr C2 ih =>
    intro fuel t hh lp rp m par llo lhi lkvs rkvs lls rls lps rps hnxt preK postK ctxP
      hlm2 him2 hdel hroot hctx hstL hstR hminL hminR hhim hnd hbnd hpos hfuel
    obtain ⟨k1, k2, s1, sl2, p1, p2, pnxt, preK2, postK2, ctxP2,
      hst0, hlen0, hsza, hszb, hpe, hloe, hhie, hnxe, hpreseg, hpostseg, hctx2, hpk, hok,
      hcp⟩ := hctx
    subst hpe hloe hhie hnxe hpk hok hcp
    cases fuel with
    | zero => simp at hfuel
    | succ f =>
    obtain ⟨ln, hln, hlnp⟩ := ST_node t.store lmax imax hh lp (some fr.ppid) (holeLo fr)
      (some m) lkvs lls lps (some (rls.headD 0)) hstL
    have hlkne : lkvs ≠ [] := STC_kvs_ne t.store lmax imax hl hh lp (some fr.ppid) (holeLo fr)
      (some m) lkvs lls lps (some (rls.headD 0)) hstL hminL
    have hrkne : rkvs ≠ [] := STC_kvs_ne t.store lmax imax hl hh rp (some fr.ppid) (some m)
      (holeHi fr) rkvs rls rps (segNxt pnxt sl2) hstR hminR
    have hlls_ne : lls ≠ [] := ST_leaves_ne t.store lmax imax hh lp (some fr.ppid) (holeLo fr)
      (some m) lkvs lls lps (some (rls.headD 0)) hstL
    have hrls_ne : rls ≠ [] := ST_leaves_ne t.store lmax imax hh rp (some fr.ppid) (some m)
      (holeHi fr) rkvs rls rps (segNxt pnxt sl2) hstR
    obtain ⟨xL, hxL⟩ := List.exists_mem_of_ne_nil lkvs hlkne
    obtain ⟨xR, hxR⟩ := List.exists_mem_of_ne_nil rkvs hrkne
    have hbL := ST_bound t.store lmax imax hl hh lp (some fr.ppid) (holeLo fr) (some m) lkvs
      lls lps (some (rls.headD 0)) hstL xL hxL
    have hbR := ST_bound t.store lmax imax hl hh rp (some fr.ppid) (some m) (holeHi fr) rkvs
      rls rps (segNxt pnxt sl2) hstR xR hxR
    have hxLm : xL.1 < m := hbL.2
    have hxRm : m ≤ xR.1 := hbR.1
    have hekm : fr.pre ≠ [] → fr.ek < m := by
      intro hpne
      have hlo : holeLo fr = some fr.ek := by
        unfold holeLo
        cases hp : fr.pre with
        | nil => exact absurd hp hpne
        | cons a b => rfl
      have h1 : fr.ek ≤ xL.1 := by
        have := hbL.1
        rw [hlo] at this
        exact this
      omega
    have hmhi : ∀ p0 (prest : List (Nat × Nat)), fr.post = p0 :: prest → m < p0.1 := by
      intro p0 prest hpp
      have hhi : holeHi fr = some p0.1 := by
        unfold holeHi
        rw [hpp]
        rfl
      have h2 : xR.1 < p0.1 := by
        have := hbR.2
        rw [hhi] at this
        exact this
      omega
    have hposth : ∀ e2 : Nat × Nat, fr.post.head? = some e2 → m < e2.1 := by
      intro e2 he2
      cases hcpost : fr.post with
      | nil =>
        rw [hcpost] at he2
        simp at he2
      | cons q0 qrest =>
        rw [hcpost] at he2
        have heq : q0 = e2 := Option.some.inj he2
        rw [← heq]
        exact hmhi q0 qrest hcpost
    have hsepsPre := SegP_seps t.store lmax imax hh fr.ppid hl fr.pre fr.plo (some fr.ek) k1
      s1 p1 (some (lls.headD 0)) hpreseg
    have hsepsPost := SegP_seps t.store lmax imax hh fr.ppid hl fr.post
      (sepHi (some fr.ek) fr.post) fr.phi k2 sl2 p2 pnxt hpostseg
    have hpair : List.Pairwise (fun a b : Nat × Nat => a.1 < b.1)
        ((fr.pre ++ (fr.ek, lp) :: fr.post).drop 1) := by
      refine pairwise_keys_junction (fr.ek, lp) fr.pre fr.post hsepsPre.1 ?_ hsepsPost.1 ?_ ?_
      · intro x hx
        exact (hsepsPre.2 x hx).2
      · intro p0 hp0 x hx
        cases hcpost : fr.post with
        | nil =>
          rw [hcpost] at hp0
          simp at hp0
        | cons q0 qrest =>
          have hseps2 := hsepsPost.2
          rw [hcpost] at hseps2 hx hp0
          have heq : q0 = p0 := Option.some.inj hp0
          have h3 := (hseps2 x hx).1
          rw [← heq]
          exact h3
      · intro hpne p0 hp0
        have h1 := hekm hpne
        have h2 := hposth p0 hp0
        show fr.ek < p0.1
        omega
    -- page id pool facts
    have hA := List.nodup_append.mp hnd
    have hB := List.nodup_append.mp hA.2.1
    have hC := List.nodup_cons.mp hB.2.1
    have hD := List.nodup_append.mp hC.2
    have hE := List.nodup_append.mp hD.1
    have hlnotin : ∀ q ∈ lps, q ∉ rps ∧ ¬ q = fr.ppid ∧ q ∉ p1 ∧ q ∉ p2 ∧ q ∉ ctxP2 := by
      intro q hq
      have h2 := hA.2.2 hq
      simp only [List.mem_append, List.mem_cons, not_or] at h2
      exact ⟨fun h => h2 (Or.inl h), fun h => h2 (Or.inr (Or.inl h)),
        fun h => h2 (Or.inr (Or.inr (Or.inl (Or.inl h)))),
        fun h => h2 (Or.inr (Or.inr (Or.inl (Or.inr h)))),
        fun h => h2 (Or.inr (Or.inr (Or.inr h)))⟩
    have hrnotin : ∀ q ∈ rps, ¬ q = fr.ppid ∧ q ∉ p1 ∧ q ∉ p2 ∧ q ∉ ctxP2 := by
      intro q hq
      have h2 := hB.2.2 hq
      simp only [List.mem_append, List.mem_cons, not_or] at h2
      exact ⟨fun h => h2 (Or.inl h), fun h => h2 (Or.inr (Or.inl (Or.inl h))),
        fun h => h2 (Or.inr (Or.inl (Or.inr h))), fun h => h2 (Or.inr (Or.inr h))⟩
    have hfpnotin : fr.ppid ∉ p1 ∧ fr.ppid ∉ p2 ∧ fr.ppid ∉ ctxP2 := by
      have h2 := hC.1
      simp only [List.mem_append, not_or] at h2
      exact ⟨h2.1.1, h2.1.2, h2.2⟩
    have hlpm := ST_mem_pid t.store lmax imax hh lp (some fr.ppid) (holeLo fr) (some m) lkvs
      lls lps (some (rls.headD 0)) hstL
    have hrpm := ST_mem_pid t.store lmax imax hh rp (some fr.ppid) (some m) (holeHi fr) rkvs
      rls rps (segNxt pnxt sl2) hstR
    by_cases hlt : (fr.pre ++ (fr.ek, lp) :: fr.post).length < imax
    · -- the parent has room: absorb the separator
      have hins := internalInsert_junction fr.pre fr.post (fr.ek, lp) m rp hpair hekm hposth
      refine ⟨{ t with store := upd t.store fr.ppid
                         (.internal fr.ppar imax
                           (fr.pre ++ (fr.ek, lp) :: (m, rp) :: fr.post)) }, ?_, ?_⟩
      · rw [insertInParent, hln]
        dsimp only
        rw [hlnp]
        dsimp only
        rw [hst0]
        dsimp only
        rw [if_pos hlt, hins]
      · have hagq : ∀ q, ¬ q = fr.ppid → (upd t.store fr.ppid
            (BNode.internal fr.ppar imax (fr.pre ++ (fr.ek, lp) :: (m, rp) :: fr.post))) q
            = t.store q := fun q hq => upd_ne _ _ _ _ hq
        have hpre4 := SegP_STC_frame lmax imax hh t.store _ fr.ppid fr.pre fr.plo (some fr.ek)
          k1 s1 p1 (some (lls.headD 0)) hpreseg
          (fun q hq => hagq q (fun he => hfpnotin.1 (by rw [← he]; exact hq)))
        have hpost4 := SegP_STC_frame lmax imax hh t.store _ fr.ppid fr.post
          (sepHi (some fr.ek) fr.post) fr.phi k2 sl2 p2 pnxt hpostseg
          (fun q hq => hagq q (fun he => hfpnotin.2.1 (by rw [← he]; exact hq)))
        have hstL4 := ST_frame lmax imax t.store _ hh lp (some fr.ppid) (holeLo fr) (some m)
          lkvs lls lps (some (rls.headD 0)) hstL (fun q hq => hagq q (hlnotin q hq).2.1)
        have hstR4 := ST_frame lmax imax t.store _ hh rp (some fr.ppid) (some m) (holeHi fr)
          rkvs rls rps (segNxt pnxt sl2) hstR (fun q hq => hagq q (hrnotin q hq).1)
        have hminL4 := minOk_frame t.store _ lp hminL (hagq lp (hlnotin lp hlpm).2.1)
        have hminR4 := minOk_frame t.store _ rp hminR (hagq rp (hrnotin rp hrpm).1)
        have hseg4 := SegP_two_mid (STC _ lmax imax hh) fr.ppid fr.pre fr.post fr.ek m lp rp
          fr.plo fr.phi k1 lkvs rkvs k2 s1 lls rls sl2 p1 lps rps p2 pnxt hlls_ne hrls_ne
          hpre4 ⟨hstL4, hminL4⟩ ⟨hstR4, hminR4⟩ hpost4
        have hstP : ST (upd t.store fr.ppid
            (BNode.internal fr.ppar imax (fr.pre ++ (fr.ek, lp) :: (m, rp) :: fr.post)))
            lmax imax (hh + 1) fr.ppid fr.ppar fr.plo fr.phi
            (k1 ++ (lkvs ++ (rkvs ++ k2))) (s1 ++ (lls ++ (rls ++ sl2)))
            (fr.ppid :: (p1 ++ (lps ++ (rps ++ p2)))) pnxt := by
          refine ⟨fr.pre ++ (fr.ek, lp) :: (m, rp) :: fr.post, p1 ++ (lps ++ (rps ++ p2)),
            upd_same _ _ _, ?_, by simp, rfl, hseg4⟩
          have h1 := hlt
          simp only [List.length_append, List.length_cons] at h1 ⊢
          omega
        have hctx4 := CtxOK_frame lmax imax root t.store _ C2 (hh + 1) fr.ppid fr.ppar fr.plo
          fr.phi (s1.headD (lls.headD 0)) pnxt preK2 postK2 ctxP2 hctx2
          (fun q hq => hagq q (fun he => hfpnotin.2.2 (by rw [← he]; exact hq)))
        have hminP : C2 ≠ [] → minOk (upd t.store fr.ppid
            (BNode.internal fr.ppar imax (fr.pre ++ (fr.ek, lp) :: (m, rp) :: fr.post)))
            fr.ppid := by
          intro hcne
          unfold minOk
          rw [upd_same]
          show internalMinSize imax ≤ (fr.pre ++ (fr.ek, lp) :: (m, rp) :: fr.post).length
          have h1 := hszb hcne
          simp only [List.length_append, List.length_cons] at h1 ⊢
          omega
        have hhead4 : (s1 ++ (lls ++ (rls ++ sl2))).headD 0 = s1.headD (lls.headD 0) :=
          headD_cascade s1 lls (rls ++ sl2) 0 hlls_ne
        obtain ⟨H, lvs, pids, hroot2, hperm, hrok2⟩ := CtxOK_plug _ lmax imax root C2 (hh + 1)
          fr.ppid fr.ppar fr.plo fr.phi (s1.headD (lls.headD 0)) pnxt preK2 postK2 ctxP2
          (k1 ++ (lkvs ++ (rkvs ++ k2))) (s1 ++ (lls ++ (rls ++ sl2)))
          (fr.ppid :: (p1 ++ (lps ++ (rps ++ p2)))) hctx4 hstP hminP hhead4
        have hpermpool : pids.Perm (lps ++ (rps ++ (fr.ppid :: (p1 ++ p2 ++ ctxP2)))) := by
          refine hperm.trans (perm_count _ _ ?_)
          intro x
          simp only [List.count_append, List.count_cons]
          ring
        refine ⟨?_, ?_, ?_, ?_⟩
        · show 2 ≤ t.leafMax
          rw [hlm2]
          exact hl
        · show 2 ≤ t.internalMax
          rw [him2]
          exact him
        · show t.deleted = []
          exact hdel
        · show match t.root with
            | none => True
            | some r => ∃ h2 kvs2 leaves2 pids2,
                ST (upd t.store fr.ppid (BNode.internal fr.ppar imax
                  (fr.pre ++ (fr.ek, lp) :: (m, rp) :: fr.post)))
                  t.leafMax t.internalMax h2 r none none none kvs2 leaves2 pids2 none ∧
                RootOk (upd t.store fr.ppid (BNode.internal fr.ppar imax
                  (fr.pre ++ (fr.ek, lp) :: (m, rp) :: fr.post))) r ∧
                pids2.Nodup ∧ (∀ q ∈ pids2, q < t.nextPid) ∧ 0 < t.nextPid
          rw [hroot, hlm2, him2]
          refine ⟨H, _, lvs, pids, hroot2, ?_, ?_, ?_, hpos⟩
          · rcases hrok2 with hC2nil | hrok
            · have hfr : fr.ppid = root := by
                rw [hC2nil] at hctx2
                exact hctx2.1
              unfold RootOk
              rw [← hfr, upd_same]
              show 2 ≤ (fr.pre ++ (fr.ek, lp) :: (m, rp) :: fr.post).length
              have h1 := hsza hC2nil
              simp only [List.length_append, List.length_cons] at h1 ⊢
              omega
            · exact hrok
          · exact hpermpool.nodup_iff.mpr hnd
          · intro q hq
            exact hbnd q (hpermpool.mem_iff.mp hq)
    · -- the parent is full: split it and recurse up
      have hfull : (fr.pre ++ (fr.ek, lp) :: fr.post).length = imax := by omega
      have hsplit := internalSplit_junction fr.pre fr.post (fr.ek, lp) m rp imax hfull hpair
        hekm hposth
      have hlen2 : (fr.pre ++ (fr.ek, lp) :: (m, rp) :: fr.post).length = imax + 1 := by
        simp only [List.length_append, List.length_cons] at hfull ⊢
        omega
      have hx1 : 1 ≤ internalMinSize imax := by
        unfold internalMinSize
        omega
      have hxle : internalMinSize imax ≤ imax := by
        unfold internalMinSize
        omega
      have hdne : (fr.pre ++ (fr.ek, lp) :: (m, rp) :: fr.post).drop (internalMinSize imax)
          ≠ [] := by
        intro h
        have h2 := congrArg List.length h
        simp only [List.length_drop, List.length_nil] at h2
        omega
      have htne : (fr.pre ++ (fr.ek, lp) :: (m, rp) :: fr.post).take (internalMinSize imax)
          ≠ [] := by
        intro h
        have h2 := congrArg List.length h
        simp only [List.length_take, List.length_nil] at h2
        omega
      obtain ⟨d0, drest, hdrop⟩ := List.exists_cons_of_ne_nil hdne
      have hdlen : (d0 :: drest).length = imax + 1 - internalMinSize imax := by
        rw [← hdrop]
        simp only [List.length_drop]
        omega
      have htlen : ((fr.pre ++ (fr.ek, lp) :: (m, rp) :: fr.post).take
          (internalMinSize imax)).length = internalMinSize imax := by
        simp only [List.length_take]
        omega
      have hseg2 := SegP_two_mid (STC t.store lmax imax hh) fr.ppid fr.pre fr.post fr.ek m lp
        rp fr.plo fr.phi k1 lkvs rkvs k2 s1 lls rls sl2 p1 lps rps p2 pnxt hlls_ne hrls_ne
        hpreseg ⟨hstL, hminL⟩ ⟨hstR, hminR⟩ hpostseg
      have hE2eq : fr.pre ++ (fr.ek, lp) :: (m, rp) :: fr.post
          = (fr.pre ++ (fr.ek, lp) :: (m, rp) :: fr.post).take (internalMinSize imax)
            ++ d0 :: drest := by
        rw [← hdrop, List.take_append_drop]
      rw [hE2eq] at hseg2
      obtain ⟨k1', k2', s1', s2', p1', p2', hK, hL, hP, hseg2a, hseg2b⟩ :=
        SegP_split2 (STC t.store lmax imax hh) fr.ppid _ d0 drest fr.plo fr.phi _ _ _ pnxt
          hseg2
      have hiem : ((fr.pre ++ (fr.ek, lp) :: (m, rp) :: fr.post).take
          (internalMinSize imax)).isEmpty = false := by
        cases h : (fr.pre ++ (fr.ek, lp) :: (m, rp) :: fr.post).take (internalMinSize imax) with
        | nil => exact absurd h htne
        | cons a b => rfl
      have hseg2b' : SegP (STC t.store lmax imax hh) fr.ppid (d0 :: drest) (some d0.1) fr.phi
          k2' s2' p2' pnxt := by
        rw [show (if ((fr.pre ++ (fr.ek, lp) :: (m, rp) :: fr.post).take
            (internalMinSize imax)).isEmpty = true then fr.plo else some d0.1) = some d0.1
          from by rw [hiem]; rfl] at hseg2b
        exact hseg2b
      have hs1ne : s1' ≠ [] := by
        cases hc : (fr.pre ++ (fr.ek, lp) :: (m, rp) :: fr.post).take (internalMinSize imax)
          with
        | nil => exact absurd hc htne
        | cons a w =>
          rw [hc] at hseg2a
          obtain ⟨ckvs, cls, cps, rkvs2, rls2, rps2, g1, g2, g3, gc, gs⟩ := hseg2a
          have hclne : cls ≠ [] := ST_leaves_ne t.store lmax imax hh a.2 _ _ _ ckvs cls cps _
            gc.1
          rw [g2]
          intro hx
          rcases List.append_eq_nil.mp hx with ⟨hx1, _⟩
          exact hclne hx1
      have hs2ne : s2' ≠ [] := by
        obtain ⟨ckvs, cls, cps, rkvs2, rls2, rps2, g1, g2, g3, gc, gs⟩ := hseg2b'
        have hclne : cls ≠ [] := ST_leaves_ne t.store lmax imax hh d0.2 _ _ _ ckvs cls cps _
          gc.1
        rw [g2]
        intro hx
        rcases List.append_eq_nil.mp hx with ⟨hx1, _⟩
        exact hclne hx1
      have hd0mem : d0 ∈ ((fr.pre ++ (fr.ek, lp) :: (m, rp) :: fr.post).take
          (internalMinSize imax) ++ d0 :: drest).drop 1 := by
        cases hc : (fr.pre ++ (fr.ek, lp) :: (m, rp) :: fr.post).take (internalMinSize imax)
          with
        | nil => exact absurd hc htne
        | cons a w =>
          show d0 ∈ w ++ d0 :: drest
          simp
      have hseps2 := SegP_seps t.store lmax imax hh fr.ppid hl
        ((fr.pre ++ (fr.ek, lp) :: (m, rp) :: fr.post).take (internalMinSize imax)
          ++ d0 :: drest) fr.plo fr.phi _ _ _ pnxt hseg2
      have hhim2 : hiOk fr.phi d0.1 := (hseps2.2 d0 hd0mem).2
      -- properties of the context page pool
      have hPnd : (p1 ++ (lps ++ (rps ++ p2))).Nodup := by
        have hpc := List.nodup_iff_count_le_one.mp hnd
        refine List.nodup_iff_count_le_one.mpr ?_
        intro a
        have h2 := hpc a
        simp only [List.count_append, List.count_cons, beq_iff_eq] at h2 ⊢
        by_cases hfa : fr.ppid = a
        · rw [if_pos hfa] at h2
          omega
        · rw [if_neg hfa] at h2
          omega
      have hPnd2 : (p1' ++ p2').Nodup := by
        rw [← hP]
        exact hPnd
      have hp1nd : p1'.Nodup := (List.nodup_append.mp hPnd2).1
      have hp2nd : p2'.Nodup := (List.nodup_append.mp hPnd2).2.1
      have hp12dis : ∀ q ∈ p1', q ∉ p2' := fun q hq hq2 =>
        (List.nodup_append.mp hPnd2).2.2 hq hq2
      have hPprops : ∀ q ∈ p1 ++ (lps ++ (rps ++ p2)),
          ¬ q = fr.ppid ∧ q < t.nextPid ∧ q ∉ ctxP2 := by
        intro q hq
        simp only [List.mem_append] at hq
        rcases hq with hq | hq | hq | hq
        · refine ⟨fun he => hfpnotin.1 (by rw [← he]; exact hq), hbnd q ?_,
            fun hc => hD.2.2 (List.mem_append_left _ hq) hc⟩
          simp only [List.mem_append, List.mem_cons]
          exact Or.inr (Or.inr (Or.inr (Or.inl (Or.inl hq))))
        · refine ⟨(hlnotin q hq).2.1, hbnd q ?_, (hlnotin q hq).2.2.2.2⟩
          simp only [List.mem_append, List.mem_cons]
          exact Or.inl hq
        · refine ⟨(hrnotin q hq).1, hbnd q ?_, (hrnotin q hq).2.2.2⟩
          simp only [List.mem_append, List.mem_cons]
          exact Or.inr (Or.inl hq)
        · refine ⟨fun he => hfpnotin.2.1 (by rw [← he]; exact hq), hbnd q ?_,
            fun hc => hD.2.2 (List.mem_append_right _ hq) hc⟩
          simp only [List.mem_append, List.mem_cons]
          exact Or.inr (Or.inr (Or.inr (Or.inl (Or.inr hq))))
      have hp1P : ∀ q ∈ p1', q ∈ p1 ++ (lps ++ (rps ++ p2)) := by
        intro q hq
        rw [hP]
        exact List.mem_append_left _ hq
      have hp2P : ∀ q ∈ p2', q ∈ p1 ++ (lps ++ (rps ++ p2)) := by
        intro q hq
        rw [hP]
        exact List.mem_append_right _ hq
      have hfpbnd : fr.ppid < t.nextPid := by
        refine hbnd fr.ppid ?_
        simp only [List.mem_append, List.mem_cons]
        exact Or.inr (Or.inr (Or.inl trivial))
      -- children of the new right node
      have hchz : ∀ e ∈ d0 :: drest, e.2 ∈ p2' :=
        SegP_entry_pid (STC t.store lmax imax hh) fr.ppid
          (fun c cpar clo chi ckvs2 cls2 cpids2 cnx2 hch =>
            ST_mem_pid t.store lmax imax hh c cpar clo chi ckvs2 cls2 cpids2 cnx2 hch.1)
          (d0 :: drest) (some d0.1) fr.phi k2' s2' p2' pnxt hseg2b'
      have hndch : ((d0 :: drest).map (fun e : Nat × Nat => e.2)).Nodup :=
        SegP_children_nodup (STC t.store lmax imax hh) fr.ppid
          (fun c cpar clo chi ckvs2 cls2 cpids2 cnx2 hch =>
            ST_mem_pid t.store lmax imax hh c cpar clo chi ckvs2 cls2 cpids2 cnx2 hch.1)
          (d0 :: drest) (some d0.1) fr.phi k2' s2' p2' pnxt hseg2b' hp2nd
      have hex : ∀ e ∈ d0 :: drest, ∃ n,
          ({ t with
              nextPid := t.nextPid + 1,
              store := upd
                (upd t.store fr.ppid
                  (BNode.internal fr.ppar imax
                    ((fr.pre ++ (fr.ek, lp) :: (m, rp) :: fr.post).take
                      (internalMinSize imax))))
                t.nextPid (BNode.internal fr.ppar imax (d0 :: drest)) } : BTS).store e.2
          = some n := by
        intro e he
        obtain ⟨clo, chi, ckvs2, cls2, cpids2, cnx2, hch⟩ :=
          SegP_all_children (STC t.store lmax imax hh) fr.ppid (d0 :: drest) (some d0.1)
            fr.phi k2' s2' p2' pnxt hseg2b' e he
        obtain ⟨n, hn, _⟩ := ST_node t.store lmax imax hh e.2 (some fr.ppid) clo chi ckvs2
          cls2 cpids2 cnx2 hch.1
        have hprops := hPprops e.2 (hp2P e.2 (hchz e he))
        refine ⟨n, ?_⟩
        show (upd (upd t.store fr.ppid _) t.nextPid _) e.2 = some n
        rw [upd_ne _ _ _ _ (fun he2 => by omega), upd_ne _ _ _ _ hprops.1]
        exact hn
      obtain ⟨t2v, hrunUC, hUCroot, hUCnext, hUCdel, hUClm, hUCim, hUChdr, hUCst⟩ :=
        updateChildren_spec t.nextPid (d0 :: drest)
          { t with
            nextPid := t.nextPid + 1,
            store := upd
              (upd t.store fr.ppid
                (BNode.internal fr.ppar imax
                  ((fr.pre ++ (fr.ek, lp) :: (m, rp) :: fr.post).take
                    (internalMinSize imax))))
              t.nextPid (BNode.internal fr.ppar imax (d0 :: drest)) } hex hndch
      -- store of t2v at non-child pages away from the two nodes
      have hstq : ∀ q, q ∉ (d0 :: drest).map (fun e : Nat × Nat => e.2) → ¬ q = fr.ppid →
          ¬ q = t.nextPid → t2v.store q = t.store q := by
        intro q hm1 hm2 hm3
        rw [hUCst q, if_neg hm1]
        show (upd (upd t.store fr.ppid _) t.nextPid _) q = t.store q
        rw [upd_ne _ _ _ _ hm3, upd_ne _ _ _ _ hm2]
      have hchnotq : ∀ q, q ∉ p2' → q ∉ (d0 :: drest).map (fun e : Nat × Nat => e.2) := by
        intro q hq hmem
        rcases List.mem_map.mp hmem with ⟨e, he, he2⟩
        exact hq (he2 ▸ hchz e he)
      -- the two halves of the split parent, under the updated store
      have hsegR5 : SegP (STC t2v.store lmax imax hh) t.nextPid (d0 :: drest) (some d0.1)
          fr.phi k2' s2' p2' pnxt := by
        refine SegP_reparent t.store t2v.store lmax imax hh fr.ppid t.nextPid (d0 :: drest)
          (some d0.1) fr.phi k2' s2' p2' pnxt hseg2b' hp2nd ?_
        intro q hq
        have hprops := hPprops q (hp2P q hq)
        rw [hUCst q]
        by_cases hmem : q ∈ (d0 :: drest).map (fun e : Nat × Nat => e.2)
        · rw [if_pos hmem, if_pos hmem]
          show ((upd (upd t.store fr.ppid _) t.nextPid _) q).map _ = _
          rw [upd_ne _ _ _ _ (fun he2 => by omega), upd_ne _ _ _ _ hprops.1]
        · rw [if_neg hmem, if_neg hmem]
          show (upd (upd t.store fr.ppid _) t.nextPid _) q = _
          rw [upd_ne _ _ _ _ (fun he2 => by omega), upd_ne _ _ _ _ hprops.1]
      have hnmem : t.nextPid ∉ (d0 :: drest).map (fun e : Nat × Nat => e.2) := by
        intro hmem
        rcases List.mem_map.mp hmem with ⟨e, he, he2⟩
        have h3 := (hPprops _ (hp2P _ (hchz e he))).2.1
        omega
      have hfpnmem : fr.ppid ∉ (d0 :: drest).map (fun e : Nat × Nat => e.2) := by
        intro hmem
        rcases List.mem_map.mp hmem with ⟨e, he, he2⟩
        exact (hPprops _ (hp2P _ (hchz e he))).1 he2
      have hstR5 : ST t2v.store lmax imax (hh + 1) t.nextPid fr.ppar (some d0.1) fr.phi k2'
          s2' (t.nextPid :: p2') pnxt := by
        refine ⟨d0 :: drest, p2', ?_, ?_, by simp, rfl, hsegR5⟩
        · rw [hUCst t.nextPid, if_neg hnmem]
          show (upd (upd t.store fr.ppid _) t.nextPid _) t.nextPid = _
          rw [upd_same]
        · rw [hdlen]
          omega
      have hminR5 : minOk t2v.store t.nextPid := by
        unfold minOk
        rw [hUCst t.nextPid, if_neg hnmem]
        show (match (upd (upd t.store fr.ppid (BNode.internal fr.ppar imax
            ((fr.pre ++ (fr.ek, lp) :: (m, rp) :: fr.post).take (internalMinSize imax))))
            t.nextPid (BNode.internal fr.ppar imax (d0 :: drest))) t.nextPid with
          | none => False
          | some n => n.minSizeOf ≤ BNode.sizeOf n)
        rw [upd_same]
        show internalMinSize imax ≤ (d0 :: drest).length
        rw [hdlen]
        unfold internalMinSize
        omega
      have hsegL5 : SegP (STC t2v.store lmax imax hh) fr.ppid
          ((fr.pre ++ (fr.ek, lp) :: (m, rp) :: fr.post).take (internalMinSize imax)) fr.plo
          (some d0.1) k1' s1' p1' (some (s2'.headD 0)) := by
        have h1 := hseg2a
        rw [segNxt_of_ne pnxt s2' hs2ne] at h1
        refine SegP_STC_frame lmax imax hh t.store t2v.store fr.ppid _ fr.plo (some d0.1) k1'
          s1' p1' _ h1 ?_
        intro q hq
        have hprops := hPprops q (hp1P q hq)
        have hqch : q ∉ (d0 :: drest).map (fun e : Nat × Nat => e.2) :=
          hchnotq q (hp12dis q hq)
        exact hstq q hqch hprops.1 (fun he2 => by omega)
      have hstL5 : ST t2v.store lmax imax (hh + 1) fr.ppid fr.ppar fr.plo (some d0.1) k1' s1'
          (fr.ppid :: p1') (some (s2'.headD 0)) := by
        refine ⟨(fr.pre ++ (fr.ek, lp) :: (m, rp) :: fr.post).take (internalMinSize imax),
          p1', ?_, ?_, htne, rfl, hsegL5⟩
        · rw [hUCst fr.ppid, if_neg hfpnmem]
          show (upd (upd t.store fr.ppid _) t.nextPid _) fr.ppid = _
          rw [upd_ne _ _ _ _ (fun he2 => by omega), upd_same]
        · rw [htlen]
          exact hxle
      have hminL5 : minOk t2v.store fr.ppid := by
        unfold minOk
        rw [hUCst fr.ppid, if_neg hfpnmem]
        show (match (upd (upd t.store fr.ppid (BNode.internal fr.ppar imax
            ((fr.pre ++ (fr.ek, lp) :: (m, rp) :: fr.post).take (internalMinSize imax))))
            t.nextPid (BNode.internal fr.ppar imax (d0 :: drest))) fr.ppid with
          | none => False
          | some n => n.minSizeOf ≤ BNode.sizeOf n)
        rw [upd_ne _ _ _ _ (fun he2 => by omega), upd_same]
        show internalMinSize imax ≤ ((fr.pre ++ (fr.ek, lp) :: (m, rp) :: fr.post).take
          (internalMinSize imax)).length
        rw [htlen]
      have hfl5a : (s1' ++ s2').headD 0 = s1'.headD 0 := headD_append_ne 0 hs1ne
      have hfl5 : s1'.headD 0 = s1.headD (lls.headD 0) := by
        rw [← hfl5a, ← hL]
        exact headD_cascade s1 lls (rls ++ sl2) 0 hlls_ne
      have hagctx : ∀ q ∈ ctxP2, t2v.store q = t.store q := by
        intro q hq
        have hq1 : ¬ q = fr.ppid := fun he => hfpnotin.2.2 (by rw [← he]; exact hq)
        have hq2 : q < t.nextPid := by
          refine hbnd q ?_
          simp only [List.mem_append, List.mem_cons]
          exact Or.inr (Or.inr (Or.inr (Or.inr hq)))
        have hq3 : q ∉ p2' := fun hq4 => (hPprops q (hp2P q hq4)).2.2 hq
        exact hstq q (hchnotq q hq3) hq1 (fun he2 => by omega)
      have hctx5 := CtxOK_frame lmax imax root t.store t2v.store C2 (hh + 1) fr.ppid fr.ppar
        fr.plo fr.phi (s1.headD (lls.headD 0)) pnxt preK2 postK2 ctxP2 hctx2 hagctx
      rw [← hfl5] at hctx5
      have hndNew : ((fr.ppid :: p1') ++ ((t.nextPid :: p2') ++ ctxP2)).Nodup := by
        have hpc := List.nodup_iff_count_le_one.mp hnd
        have hcnt : ∀ a : Nat, (p1 ++ (lps ++ (rps ++ p2))).count a = (p1' ++ p2').count a :=
          fun a => congrArg (List.count a) hP
        refine List.nodup_iff_count_le_one.mpr ?_
        intro a
        have h2 := hpc a
        have h3 := hcnt a
        have h4 : t.nextPid ∉ lps ++ (rps ++ (fr.ppid :: (p1 ++ p2 ++ ctxP2))) := by
          intro hmem
          have := hbnd _ hmem
          omega
        have h5 := List.count_eq_zero.mpr h4
        simp only [List.count_append, List.count_cons, beq_iff_eq] at h2 h3 h5 ⊢
        by_cases ha2 : t.nextPid = a
        · subst ha2
          rw [if_neg (by omega : ¬ fr.ppid = t.nextPid)] at h2 h5 ⊢
          rw [if_pos rfl]
          omega
        · rw [if_neg ha2]
          by_cases ha1 : fr.ppid = a
          · rw [if_pos ha1] at h2 ⊢
            omega
          · rw [if_neg ha1] at h2 ⊢
            omega
      have hbndNew : ∀ q ∈ (fr.ppid :: p1') ++ ((t.nextPid :: p2') ++ ctxP2),
          q < t2v.nextPid := by
        rw [hUCnext]
        show ∀ q ∈ (fr.ppid :: p1') ++ ((t.nextPid :: p2') ++ ctxP2), q < t.nextPid + 1
        intro q hq
        simp only [List.mem_append, List.mem_cons] at hq
        rcases hq with (hq | hq) | (hq | hq) | hq
        · omega
        · have := (hPprops q (hp1P q hq)).2.1
          omega
        · omega
        · have := (hPprops q (hp2P q hq)).2.1
          omega
        · have : q < t.nextPid := by
            refine hbnd q ?_
            simp only [List.mem_append, List.mem_cons]
            exact Or.inr (Or.inr (Or.inr (Or.inr hq)))
          omega
      have hroot5 : t2v.root = some root := by
        rw [hUCroot]
        exact hroot
      obtain ⟨t3, hrun3, hinv3⟩ := ih f t2v (hh + 1) fr.ppid t.nextPid d0.1 fr.ppar fr.plo
        fr.phi k1' k2' s1' s2' (fr.ppid :: p1') (t.nextPid :: p2') pnxt preK2 postK2 ctxP2
        (by rw [hUClm]; exact hlm2) (by rw [hUCim]; exact him2) (by rw [hUCdel]; exact hdel)
        hroot5 hctx5 hstL5 hstR5 hminL5 hminR5 hhim2 hndNew hbndNew
        (by rw [hUCnext]; show 0 < t.nextPid + 1; omega)
        (by simp only [List.length_cons] at hfuel; omega)
      refine ⟨t3, ?_, hinv3⟩
      rw [insertInParent, hln]
      dsimp only
      rw [hlnp]
      dsimp only
      rw [hst0]
      dsimp only
      rw [if_neg hlt]
      rw [hsplit]
      dsimp only
      rw [hdrop, hrunUC]
      exact hrun3

theorem CtxOK_len (s : Nat → Option BNode) (lmax imax root : Nat) :
    ∀ (C : List Frame) (hh hp : Nat) (hpar hlo hhi : Option Nat) (fl : Nat) (hnxt : Option Nat)
      (preK postK : List (Nat × Nat)) (ctxP : List Nat),
      CtxOK s lmax imax root C hh hp hpar hlo hhi fl hnxt preK postK ctxP →
      C.length ≤ ctxP.length := by
  intro C
  induction C with
  | nil =>
    intro hh hp hpar hlo hhi fl hnxt preK postK ctxP _
    simp
  | cons f C2 ih =>
    intro hh hp hpar hlo hhi fl hnxt preK postK ctxP hctx
    obtain ⟨k1, k2, s1, sl2, p1, p2, pnxt, preK2, postK2, ctxP2,
      _, _, _, _, _, _, _, _, _, _, hctx2, _, _, hcp⟩ := hctx
    have h1 := ih (hh + 1) f.ppid f.ppar f.plo f.phi (s1.headD fl) pnxt preK2 postK2 ctxP2
      hctx2
    rw [hcp]
    simp only [List.length_cons, List.length_append]
    omega

theorem newLeafRoot_fields (t : BTS) :
    (newLeafRoot t).store = upd t.store t.nextPid (.leaf none t.leafMax none []) ∧
    (newLeafRoot t).root = some t.nextPid ∧
    (newLeafRoot t).nextPid = t.nextPid + 1 ∧
    (newLeafRoot t).deleted = t.deleted ∧
    (newLeafRoot t).leafMax = t.leafMax ∧
    (newLeafRoot t).internalMax = t.internalMax := by
  unfold newLeafRoot
  dsimp only
  rw [updateRootPageId_store, updateRootPageId_root, updateRootPageId_nextPid,
    updateRootPageId_deleted, updateRootPageId_leafMax, updateRootPageId_internalMax]
  exact ⟨rfl, rfl, rfl, rfl, rfl, rfl⟩

theorem treeInv_newLeafRoot (t : BTS) (hlm : 2 ≤ t.leafMax) (him : 2 ≤ t.internalMax)
    (hdel : t.deleted = []) : TreeInv (newLeafRoot t) := by
  have hf := newLeafRoot_fields t
  refine ⟨by rw [hf.2.2.2.2.1]; exact hlm, by rw [hf.2.2.2.2.2]; exact him,
    by rw [hf.2.2.2.1]; exact hdel, ?_⟩
  rw [hf.2.1]
  show ∃ h kvs leaves pids,
    ST (newLeafRoot t).store (newLeafRoot t).leafMax (newLeafRoot t).internalMax h t.nextPid
      none none none kvs leaves pids none ∧
    RootOk (newLeafRoot t).store t.nextPid ∧ pids.Nodup ∧
    (∀ q ∈ pids, q < (newLeafRoot t).nextPid) ∧ 0 < (newLeafRoot t).nextPid
  rw [hf.1, hf.2.2.1, hf.2.2.2.2.1, hf.2.2.2.2.2]
  refine ⟨0, [], [t.nextPid], [t.nextPid], ⟨upd_same _ _ _, rfl, rfl, by simp; omega,
    List.Pairwise.nil, fun x hx => absurd hx (by simp)⟩, ?_, by simp, ?_, by omega⟩
  · unfold RootOk
    rw [upd_same]
    trivial
  · intro q hq
    simp only [List.mem_singleton] at hq
    omega

theorem insertT_shift (t : BTS) (k v : Nat) (hr : t.root = none) :
    insertT t k v = insertT (newLeafRoot t) k v := by
  unfold insertT
  rw [hr]
  rw [(newLeafRoot_fields t).2.1]
  rfl

theorem leafIns_shape (k v : Nat) :
    ∀ kvs : List (Nat × Nat), List.Pairwise (fun a b : Nat × Nat => a.1 < b.1) kvs →
      (∀ x ∈ kvs, ¬ x.1 = k) →
      ∃ pre post, kvs = pre ++ post ∧ leafIns k v kvs = pre ++ (k, v) :: post ∧
        (∀ x ∈ pre, x.1 < k) ∧ (∀ x ∈ post, k < x.1) := by
  intro kvs
  induction kvs with
  | nil =>
    intro _ _
    exact ⟨[], [], rfl, rfl, fun x hx => absurd hx (by simp),
      fun x hx => absurd hx (by simp)⟩
  | cons kv rest ih =>
    intro hp hne
    by_cases hk : k < kv.1
    · refine ⟨[], kv :: rest, rfl, ?_, fun x hx => absurd hx (by simp), ?_⟩
      · show (if k < kv.1 then (k, v) :: kv :: rest else kv :: leafIns k v rest) = _
        rw [if_pos hk]
        rfl
      · intro x hx
        rcases List.mem_cons.mp hx with h | h
        · rw [h]
          exact hk
        · have := (List.pairwise_cons.mp hp).1 x h
          omega
    · have hkv : kv.1 < k := by
        have := hne kv (by simp)
        omega
      obtain ⟨pre, post, h1, h2, h3, h4⟩ := ih (List.pairwise_cons.mp hp).2
        (fun x hx => hne x (by simp [hx]))
      refine ⟨kv :: pre, post, by rw [List.cons_append, ← h1], ?_, ?_, h4⟩
      · show (if k < kv.1 then (k, v) :: kv :: rest else kv :: leafIns k v rest) = _
        rw [if_neg hk, h2]
        rfl
      · intro x hx
        rcases List.mem_cons.mp hx with h | h
        · rw [h]
          exact hkv
        · exact h3 x h

theorem pairwise_insert_mid (l1 l2 : List (Nat × Nat)) (k v : Nat)
    (hp : List.Pairwise (fun a b : Nat × Nat => a.1 < b.1) (l1 ++ l2))
    (h3 : ∀ x ∈ l1, x.1 < k) (h4 : ∀ x ∈ l2, k < x.1) :
    List.Pairwise (fun a b : Nat × Nat => a.1 < b.1) (l1 ++ (k, v) :: l2) := by
  rw [List.pairwise_append] at hp
  rw [List.pairwise_append]
  refine ⟨hp.1, ?_, ?_⟩
  · rw [List.pairwise_cons]
    exact ⟨fun x hx => h4 x hx, hp.2.1⟩
  · intro x hx y hy
    rcases List.mem_cons.mp hy with h | h
    · rw [h]
      exact h3 x hx
    · exact hp.2.2 x hx y h

theorem insertT_nonempty (t : BTS) (k v r : Nat) (hroot : t.root = some r)
    (hinv : TreeInv t) : ∃ b t2, insertT t k v = some (b, t2) ∧ TreeInv t2 := by
  obtain ⟨hlm, him, hdel, hrest⟩ := hinv
  rw [hroot] at hrest
  obtain ⟨H, kvs0, leaves0, pids0, hst0, hrok0, hnd0, hbnd0, hpos0⟩ := hrest
  have hHlt : H < pids0.length := ST_height_lt t.store t.leafMax t.internalMax H r none none
    none kvs0 leaves0 pids0 none hst0
  have hplen : pids0.length ≤ t.nextPid := nodup_bound_length pids0 t.nextPid hnd0 hbnd0
  have hHf : H < t.nextPid := by omega
  have hctx0 : CtxOK t.store t.leafMax t.internalMax r [] H r none none none
      (leaves0.headD 0) none [] [] [] := ⟨rfl, rfl, rfl, rfl, rfl, rfl, rfl, rfl⟩
  obtain ⟨C2, lp, lpar, llo, lhi, lkv, lnxt, preK2, postK2, ctxP2, hctx2, hstleaf, hkvseq,
    hlok, hhik, hdesc, hperm2, hC2nil, hC2min⟩ :=
    dig_aux t.store t.leafMax t.internalMax r k H [] r none none none (leaves0.headD 0) none
      [] [] [] kvs0 leaves0 pids0 pids0 hctx0 hst0 rfl trivial trivial
      (fun _ => hrok0) (fun hne => absurd rfl hne) (by simp)
  have hsl : t.store lp = some (.leaf lpar t.leafMax lnxt lkv) := hstleaf.1
  have hlplen : lkv.length < t.leafMax := hstleaf.2.2.2.1
  have hlsort : List.Pairwise (fun a b : Nat × Nat => a.1 < b.1) lkv := hstleaf.2.2.2.2.1
  have hlinb : InB llo lhi lkv := hstleaf.2.2.2.2.2
  have hndlc : ([lp] ++ ctxP2).Nodup := hperm2.nodup_iff.mp hnd0
  have hlpnotc : lp ∉ ctxP2 := fun hc => (List.nodup_append.mp hndlc).2.2 (by simp) hc
  have hctxnd : ctxP2.Nodup := (List.nodup_append.mp hndlc).2.1
  have hbndlc : ∀ q ∈ [lp] ++ ctxP2, q < t.nextPid := fun q hq =>
    hbnd0 q (hperm2.mem_iff.mpr hq)
  have hlplt : lp < t.nextPid := hbndlc lp (by simp)
  have hbndc : ∀ q ∈ ctxP2, q < t.nextPid := fun q hq => hbndlc q (by simp [hq])
  have hC2len : C2.length < t.nextPid + 1 := by
    have h1 := CtxOK_len t.store t.leafMax t.internalMax r C2 0 lp lpar llo lhi lp lnxt preK2
      postK2 ctxP2 hctx2
    have h2 : ctxP2.length ≤ t.nextPid := nodup_bound_length ctxP2 t.nextPid hctxnd hbndc
    omega
  have hif : (if t.root = none then newLeafRoot t else t) = t := by
    rw [if_neg]
    rw [hroot]
    simp
  have hdesc2 : descend t.store k t.nextPid t.root = some lp := by
    rw [hroot]
    exact hdesc t.nextPid hHf
  unfold insertT
  dsimp only
  rw [hif, hdesc2]
  dsimp only
  rw [hsl]
  dsimp only
  by_cases hany : lkv.any (fun kv => kv.1 = k) = true
  · have hli : leafInsert lkv k v = (false, lkv) := by
      unfold leafInsert
      rw [if_pos hany]
    rw [hli]
    refine ⟨false, t, rfl, hlm, him, hdel, ?_⟩
    rw [hroot]
    exact ⟨H, kvs0, leaves0, pids0, hst0, hrok0, hnd0, hbnd0, hpos0⟩
  · have hnotin : ∀ x ∈ lkv, ¬ x.1 = k := by
      simp only [List.any_eq_true, decide_eq_true_eq] at hany
      intro x hx he
      exact hany ⟨x, hx, he⟩
    have hli : leafInsert lkv k v = (true, leafIns k v lkv) := by
      unfold leafInsert
      rw [if_neg hany]
    rw [hli]
    dsimp only
    obtain ⟨pre, post, hsp1, hsp2, hsp3, hsp4⟩ := leafIns_shape k v lkv hlsort hnotin
    have hlen1 : (leafIns k v lkv).length = lkv.length + 1 := by
      rw [hsp2, hsp1]
      simp only [List.length_append, List.length_cons]
      omega
    have hsort1 : List.Pairwise (fun a b : Nat × Nat => a.1 < b.1) (leafIns k v lkv) := by
      rw [hsp2]
      refine pairwise_insert_mid pre post k v ?_ hsp3 hsp4
      rw [← hsp1]
      exact hlsort
    have hmem1 : ∀ x ∈ leafIns k v lkv, x ∈ lkv ∨ x = (k, v) := by
      intro x hx
      rw [hsp2] at hx
      rcases List.mem_append.mp hx with h | h
      · exact Or.inl (by rw [hsp1]; exact List.mem_append_left _ h)
      · rcases List.mem_cons.mp h with h | h
        · exact Or.inr h
        · exact Or.inl (by rw [hsp1]; exact List.mem_append_right _ h)
    have hinb1 : InB llo lhi (leafIns k v lkv) := by
      intro x hx
      rcases hmem1 x hx with h | h
      · exact hlinb x h
      · rw [h]
        exact ⟨hlok, hhik⟩
    by_cases hfit : (leafIns k v lkv).length < t.leafMax
    · -- the pair fits in the leaf
      refine ⟨true, { t with store := upd t.store lp
                                 (.leaf lpar t.leafMax lnxt (leafIns k v lkv)) },
        by rw [if_pos hfit], ?_⟩
      have hstnew : ST (upd t.store lp (.leaf lpar t.leafMax lnxt (leafIns k v lkv)))
          t.leafMax t.internalMax 0 lp lpar llo lhi (leafIns k v lkv) [lp] [lp] lnxt :=
        ⟨upd_same _ _ _, rfl, rfl, hfit, hsort1, hinb1⟩
      have hctxf := CtxOK_frame t.leafMax t.internalMax r t.store
        (upd t.store lp (.leaf lpar t.leafMax lnxt (leafIns k v lkv))) C2 0 lp lpar llo lhi lp
        lnxt preK2 postK2 ctxP2 hctx2
        (fun q hq => upd_ne t.store lp (.leaf lpar t.leafMax lnxt (leafIns k v lkv)) q
          (fun he => hlpnotc (by rw [← he]; exact hq)))
      have hminP : C2 ≠ [] → minOk (upd t.store lp
          (.leaf lpar t.leafMax lnxt (leafIns k v lkv))) lp := by
        intro hcne
        have h1 := hC2min hcne
        unfold minOk at h1 ⊢
        rw [hsl] at h1
        rw [upd_same]
        show leafMinSize t.leafMax ≤ (leafIns k v lkv).length
        have h2 : leafMinSize t.leafMax ≤ lkv.length := h1
        omega
      obtain ⟨H2, lvs, pids, hroot2, hperm3, hrok2⟩ := CtxOK_plug _ t.leafMax t.internalMax r
        C2 0 lp lpar llo lhi lp lnxt preK2 postK2 ctxP2 (leafIns k v lkv) [lp] [lp] hctxf
        hstnew hminP rfl
      refine ⟨hlm, him, hdel, ?_⟩
      show match t.root with
        | none => True
        | some r2 => ∃ h2 kvs2 leaves2 pids2,
            ST (upd t.store lp (.leaf lpar t.leafMax lnxt (leafIns k v lkv))) t.leafMax
              t.internalMax h2 r2 none none none kvs2 leaves2 pids2 none ∧
            RootOk (upd t.store lp (.leaf lpar t.leafMax lnxt (leafIns k v lkv))) r2 ∧
            pids2.Nodup ∧ (∀ q ∈ pids2, q < t.nextPid) ∧ 0 < t.nextPid
      rw [hroot]
      refine ⟨H2, _, lvs, pids, hroot2, ?_, ?_, ?_, hpos0⟩
      · rcases hrok2 with hC2isnil | hrok
        · have hlpr : lp = r := by
            rw [hC2isnil] at hctx2
            exact hctx2.1
          unfold RootOk
          rw [← hlpr, upd_same]
          trivial
        · exact hrok
      · exact hperm3.nodup_iff.mpr hndlc
      · intro q hq
        exact hbndlc q (hperm3.mem_iff.mp hq)
    · -- the leaf is full: split it and insert the separator in the parent
      have hfull : (leafIns k v lkv).length = t.leafMax := by omega
      have hk1 : 1 ≤ leafMinSize t.leafMax := by
        unfold leafMinSize
        omega
      have hklt : leafMinSize t.leafMax < t.leafMax := by
        unfold leafMinSize
        omega
      have hdne : (leafIns k v lkv).drop (leafMinSize t.leafMax) ≠ [] := by
        intro h
        have h2 := congrArg List.length h
        simp only [List.length_drop, List.length_nil] at h2
        omega
      obtain ⟨d0, drest, hdrop⟩ := List.exists_cons_of_ne_nil hdne
      have hdlen : (d0 :: drest).length = t.leafMax - leafMinSize t.leafMax := by
        rw [← hdrop]
        simp only [List.length_drop]
        omega
      have htlen : ((leafIns k v lkv).take (leafMinSize t.leafMax)).length
          = leafMinSize t.leafMax := by
        simp only [List.length_take]
        omega
      have hTD : (leafIns k v lkv).take (leafMinSize t.leafMax) ++ (d0 :: drest)
          = leafIns k v lkv := by
        rw [← hdrop, List.take_append_drop]
      have hsortTD : List.Pairwise (fun a b : Nat × Nat => a.1 < b.1)
          ((leafIns k v lkv).take (leafMinSize t.leafMax) ++ (d0 :: drest)) := by
        rw [hTD]
        exact hsort1
      have hpa := List.pairwise_append.mp hsortTD
      have htlt : ∀ x ∈ (leafIns k v lkv).take (leafMinSize t.leafMax), x.1 < d0.1 :=
        fun x hx => hpa.2.2 x hx d0 (by simp)
      have hdge : ∀ x ∈ d0 :: drest, d0.1 ≤ x.1 := by
        intro x hx
        rcases List.mem_cons.mp hx with h | h
        · rw [h]
        · have := (List.pairwise_cons.mp hpa.2.1).1 x h
          omega
      have hsubT : ∀ x ∈ (leafIns k v lkv).take (leafMinSize t.leafMax),
          x ∈ leafIns k v lkv := by
        intro x hx
        rw [← hTD]
        exact List.mem_append_left _ hx
      have hsubD : ∀ x ∈ d0 :: drest, x ∈ leafIns k v lkv := by
        intro x hx
        rw [← hTD]
        exact List.mem_append_right _ hx
      have hinbT : InB llo (some d0.1) ((leafIns k v lkv).take (leafMinSize t.leafMax)) :=
        fun x hx => ⟨(hinb1 x (hsubT x hx)).1, htlt x hx⟩
      have hinbD : InB (some d0.1) lhi (d0 :: drest) :=
        fun x hx => ⟨hdge x hx, (hinb1 x (hsubD x hx)).2⟩
      have hhimD : hiOk lhi d0.1 := (hinb1 d0 (hsubD d0 (by simp))).2
      have hstL1 : ST (upd (upd t.store lp (.leaf lpar t.leafMax (some t.nextPid)
            ((leafIns k v lkv).take (leafMinSize t.leafMax)))) t.nextPid
            (.leaf lpar t.leafMax lnxt (d0 :: drest)))
          t.leafMax t.internalMax 0 lp lpar llo (some d0.1)
          ((leafIns k v lkv).take (leafMinSize t.leafMax)) [lp] [lp]
          (some ([t.nextPid].headD 0)) := by
        refine ⟨?_, rfl, rfl, by rw [htlen]; exact hklt, hpa.1, hinbT⟩
        rw [upd_ne _ _ _ _ (fun he => by omega), upd_same]
        rfl
      have hstR1 : ST (upd (upd t.store lp (.leaf lpar t.leafMax (some t.nextPid)
            ((leafIns k v lkv).take (leafMinSize t.leafMax)))) t.nextPid
            (.leaf lpar t.leafMax lnxt (d0 :: drest)))
          t.leafMax t.internalMax 0 t.nextPid lpar (some d0.1) lhi (d0 :: drest)
          [t.nextPid] [t.nextPid] lnxt := by
        refine ⟨?_, rfl, rfl, by rw [hdlen]; omega, hpa.2.1, hinbD⟩
        rw [upd_same]
      have hminL1 : minOk (upd (upd t.store lp (.leaf lpar t.leafMax (some t.nextPid)
            ((leafIns k v lkv).take (leafMinSize t.leafMax)))) t.nextPid
            (.leaf lpar t.leafMax lnxt (d0 :: drest))) lp := by
        unfold minOk
        rw [upd_ne _ _ _ _ (fun he => by omega), upd_same]
        show leafMinSize t.leafMax
          ≤ ((leafIns k v lkv).take (leafMinSize t.leafMax)).length
        rw [htlen]
      have hminR1 : minOk (upd (upd t.store lp (.leaf lpar t.leafMax (some t.nextPid)
            ((leafIns k v lkv).take (leafMinSize t.leafMax)))) t.nextPid
            (.leaf lpar t.leafMax lnxt (d0 :: drest))) t.nextPid := by
        unfold minOk
        rw [upd_same]
        show leafMinSize t.leafMax ≤ (d0 :: drest).length
        rw [hdlen]
        unfold leafMinSize
        omega
      have hctxf : CtxOK (upd (upd t.store lp (.leaf lpar t.leafMax (some t.nextPid)
            ((leafIns k v lkv).take (leafMinSize t.leafMax)))) t.nextPid
            (.leaf lpar t.leafMax lnxt (d0 :: drest)))
          t.leafMax t.internalMax r C2 0 lp lpar llo lhi lp lnxt preK2 postK2 ctxP2 := by
        refine CtxOK_frame t.leafMax t.internalMax r t.store _ C2 0 lp lpar llo lhi lp lnxt
          preK2 postK2 ctxP2 hctx2 ?_
        intro q hq
        have hq1 : q < t.nextPid := hbndc q hq
        rw [upd_ne _ _ _ _ (fun he => by omega),
          upd_ne _ _ _ _ (fun he => hlpnotc (by rw [← he]; exact hq))]
      have hndN : ([lp] ++ ([t.nextPid] ++ ctxP2)).Nodup := by
        refine List.nodup_cons.mpr ⟨?_, List.nodup_cons.mpr ⟨?_, hctxnd⟩⟩
        · intro h
          rcases List.mem_cons.mp h with h | h
          · omega
          · exact hlpnotc h
        · intro h
          have := hbndc _ h
          omega
      have hbndN : ∀ q ∈ [lp] ++ ([t.nextPid] ++ ctxP2), q < t.nextPid + 1 := by
        intro q hq
        simp only [List.singleton_append, List.mem_cons] at hq
        rcases hq with hq | hq | hq
        · omega
        · omega
        · have := hbndc q hq
          omega
      obtain ⟨t3, hrun3, hinv3⟩ := iip_spec t.leafMax t.internalMax r hlm him C2
        (t.nextPid + 1)
        { t with nextPid := t.nextPid + 1,
                 store := upd (upd t.store lp (.leaf lpar t.leafMax (some t.nextPid)
                     ((leafIns k v lkv).take (leafMinSize t.leafMax)))) t.nextPid
                   (.leaf lpar t.leafMax lnxt (d0 :: drest)) }
        0 lp t.nextPid d0.1 lpar llo lhi
        ((leafIns k v lkv).take (leafMinSize t.leafMax)) (d0 :: drest) [lp] [t.nextPid]
        [lp] [t.nextPid] lnxt preK2 postK2 ctxP2 rfl rfl hdel hroot hctxf hstL1 hstR1
        hminL1 hminR1 hhimD hndN hbndN (by show 0 < t.nextPid + 1; omega) hC2len
      refine ⟨true, t3, ?_, hinv3⟩
      rw [if_neg hfit]
      rw [hdrop]
      have hrun3' : insertInParent
          { t with nextPid := t.nextPid + 1,
                   store := upd (upd t.store lp (.leaf lpar t.leafMax (some t.nextPid)
                       ((leafIns k v lkv).take (leafMinSize t.leafMax)))) t.nextPid
                     (.leaf lpar t.leafMax lnxt (d0 :: drest)) }
          lp t.nextPid (keyAt (d0 :: drest) 0) (t.nextPid + 1) = some t3 := hrun3
      rw [hrun3']

theorem insertT_inv (t : BTS) (k v : Nat) (hinv : TreeInv t) :
    ∃ b t2, insertT t k v = some (b, t2) ∧ TreeInv t2 := by
  cases hr : t.root with
  | none =>
    rw [insertT_shift t k v hr]
    have hinv2 := treeInv_newLeafRoot t hinv.1 hinv.2.1 hinv.2.2.1
    exact insertT_nonempty (newLeafRoot t) k v t.nextPid (newLeafRoot_fields t).2.1 hinv2
  | some r =>
    exact insertT_nonempty t k v r hr hinv

theorem leafIns_append (k v : Nat) :
    ∀ l : List (Nat × Nat), (∀ x ∈ l, x.1 < k) → leafIns k v l = l ++ [(k, v)] := by
  intro l
  induction l with
  | nil => intro _; rfl
  | cons a rest ih =>
    intro hlt
    show (if k < a.1 then (k, v) :: a :: rest else a :: leafIns k v rest) = _
    rw [if_neg (by have := hlt a (by simp); omega), ih (fun x hx => hlt x (by simp [hx]))]
    rfl

theorem set_append_cons (e2 : Nat × Nat) :
    ∀ (pre : List (Nat × Nat)) (e : Nat × Nat) (post : List (Nat × Nat)),
      (pre ++ e :: post).set pre.length e2 = pre ++ e2 :: post := by
  intro pre
  induction pre with
  | nil => intro e post; rfl
  | cons a rest ih =>
    intro e post
    show (a :: (rest ++ e :: post)).set (rest.length + 1) e2 = _
    rw [List.set_cons_succ, ih e post]
    rfl

theorem eraseIdx_append_cons2 :
    ∀ (pre : List (Nat × Nat)) (e1 e2 : Nat × Nat) (post : List (Nat × Nat)),
      (pre ++ e1 :: e2 :: post).eraseIdx (pre.length + 1) = pre ++ e1 :: post := by
  intro pre
  induction pre with
  | nil => intro e1 e2 post; rfl
  | cons a rest ih =>
    intro e1 e2 post
    show (a :: (rest ++ e1 :: e2 :: post)).eraseIdx (rest.length + 1 + 1) = _
    rw [List.eraseIdx_cons_succ, ih e1 e2 post]
    rfl

theorem findIdx_junction_aux (c : Nat) :
    ∀ (pre : List (Nat × Nat)) (ek : Nat) (post : List (Nat × Nat)) (s : Nat),
      (∀ e ∈ pre, ¬ e.2 = c) →
      List.findIdx? (fun e => e.2 = c) (pre ++ (ek, c) :: post) s = some (s + pre.length) := by
  intro pre
  induction pre with
  | nil =>
    intro ek post s _
    rw [List.nil_append, List.findIdx?_cons]
    rw [if_pos (by simp)]
    simp
  | cons a rest ih =>
    intro ek post s hne
    rw [List.cons_append, List.findIdx?_cons]
    rw [if_neg (by simp [hne a (by simp)])]
    rw [ih ek post (s + 1) (fun e he => hne e (by simp [he]))]
    congr 1
    simp only [List.length_cons]
    omega

theorem findIdx_junction (c : Nat) (pre : List (Nat × Nat)) (ek : Nat)
    (post : List (Nat × Nat)) (hne : ∀ e ∈ pre, ¬ e.2 = c) :
    List.findIdx? (fun e => e.2 = c) (pre ++ (ek, c) :: post) = some pre.length := by
  have h := findIdx_junction_aux c pre ek post 0 hne
  simpa using h

theorem getD_append_last (e : Nat × Nat) :
    ∀ (l : List (Nat × Nat)) (l2 : List (Nat × Nat)) (d : Nat × Nat),
      (l ++ e :: l2).getD l.length d = e := by
  intro l
  induction l with
  | nil => intro l2 d; rfl
  | cons a rest ih =>
    intro l2 d
    show (a :: (rest ++ e :: l2)).getD (rest.length + 1) d = e
    rw [List.getD_cons_succ]
    exact ih l2 d

theorem eraseP_shape (k : Nat) :
    ∀ kvs : List (Nat × Nat), kvs.any (fun kv => kv.1 = k) = true →
      ∃ pre v0 post, kvs = pre ++ (k, v0) :: post ∧ (∀ x ∈ pre, ¬ x.1 = k) ∧
        kvs.eraseP (fun kv => kv.1 = k) = pre ++ post := by
  intro kvs
  induction kvs with
  | nil =>
    intro h
    simp at h
  | cons a rest ih =>
    intro hany
    by_cases ha : a.1 = k
    · refine ⟨[], a.2, rest, ?_, fun x hx => absurd hx (by simp), ?_⟩
      · show a :: rest = (k, a.2) :: rest
        rw [show (k, a.2) = a from by rw [← ha]]
      · simp [List.eraseP_cons, ha]
    · have hrest : rest.any (fun kv => kv.1 = k) = true := by
        simp only [List.any_cons, Bool.or_eq_true, decide_eq_true_eq] at hany
        rcases hany with h | h
        · exact absurd h ha
        · exact h
      obtain ⟨pre, v0, post, h1, h2, h3⟩ := ih hrest
      refine ⟨a :: pre, v0, post, by rw [List.cons_append, ← h1], ?_, ?_⟩
      · intro x hx
        rcases List.mem_cons.mp hx with h | h
        · rw [h]
          exact ha
        · exact h2 x h
      · simp only [List.eraseP_cons]
        rw [show decide (a.1 = k) = false from by simp [ha]]
        show a :: List.eraseP _ rest = _
        rw [h3]
        rfl

theorem keyAt_mem_drop (l : List (Nat × Nat)) (j : Nat) (h1 : 1 ≤ j) (h2 : j < l.length) :
    (l.getD j (0, 0)) ∈ l.drop 1 := by
  rw [List.getD_eq_getElem l (0, 0) h2]
  cases l with
  | nil => simp at h2
  | cons a rest =>
    cases j with
    | zero => omega
    | succ j2 =>
      show (a :: rest)[j2 + 1] ∈ rest
      rw [List.getElem_cons_succ]
      exact List.getElem_mem _

theorem internalInsert_append (ents : List (Nat × Nat)) (k v : Nat) (hne : ents ≠ [])
    (hp : List.Pairwise (fun a b : Nat × Nat => a.1 < b.1) (ents.drop 1))
    (hub : ∀ x ∈ ents.drop 1, x.1 < k) :
    internalInsert ents k v = (true, ents ++ [(k, v)]) := by
  have hlen : 1 ≤ ents.length := by
    cases ents with
    | nil => exact absurd rfl hne
    | cons a rest => simp
  have hsort := keyAt_lt_of_pairwise ents hp
  have hlow : ∀ j, 1 ≤ j → j < ents.length → keyAt ents j < k := by
    intro j hj1 hj2
    exact hub _ (keyAt_mem_drop ents j hj1 hj2)
  have hspec := lbLoop_spec k ents hsort ents.length 1 ents.length (by omega) (by omega)
    hlen (Nat.le_refl _) (fun j hj1 hj2 => absurd (Nat.lt_of_le_of_lt hj1 hj2) (Nat.lt_irrefl 1))
    (fun j hj1 hj2 => absurd (Nat.lt_of_le_of_lt hj1 hj2) (Nat.lt_irrefl _))
  have hidx : lbLoop k ents 1 ents.length = ents.length := by
    rcases Nat.lt_or_ge (lbLoop k ents 1 ents.length) ents.length with hlt | hge
    · have h1 := hspec.2.2.2 (lbLoop k ents 1 ents.length) (Nat.le_refl _) hlt
      have h2 := hlow (lbLoop k ents 1 ents.length) hspec.1 hlt
      omega
    · have := hspec.2.1
      omega
  unfold internalInsert internalLB
  dsimp only
  rw [hidx]
  rw [if_neg (by intro h; omega)]
  rw [List.insertIdx_length_self]

theorem foldl_leafInsert_append :
    ∀ (rkvs lkvs : List (Nat × Nat)),
      (∀ x ∈ lkvs, ∀ y ∈ rkvs, x.1 < y.1) →
      List.Pairwise (fun a b : Nat × Nat => a.1 < b.1) rkvs →
      rkvs.foldl (fun acc kv => (leafInsert acc kv.1 kv.2).2) lkvs = lkvs ++ rkvs := by
  intro rkvs
  induction rkvs with
  | nil =>
    intro lkvs _ _
    simp
  | cons r0 rrest ih =>
    intro lkvs hcross hsort
    have hany : lkvs.any (fun kv => kv.1 = r0.1) = false := by
      rw [List.any_eq_false]
      intro x hx
      have := hcross x hx r0 (by simp)
      simp only [decide_eq_true_eq]
      omega
    have hli : leafInsert lkvs r0.1 r0.2 = (true, lkvs ++ [r0]) := by
      unfold leafInsert
      rw [if_neg (by rw [hany]; simp)]
      rw [leafIns_append r0.1 r0.2 lkvs (fun x hx => hcross x hx r0 (by simp))]
    show List.foldl _ (leafInsert lkvs r0.1 r0.2).2 rrest = _
    rw [hli]
    have hrec := ih (lkvs ++ [r0]) ?_ (List.pairwise_cons.mp hsort).2
    · rw [hrec, List.append_assoc]
      rfl
    · intro x hx y hy
      rcases List.mem_append.mp hx with h | h
      · exact hcross x h y (by simp [hy])
      · rw [List.mem_singleton.mp h]
        exact (List.pairwise_cons.mp hsort).1 y hy

theorem foldl_internalInsert_append :
    ∀ (rents lents : List (Nat × Nat)),
      lents ≠ [] →
      List.Pairwise (fun a b : Nat × Nat => a.1 < b.1) (lents.drop 1) →
      (∀ x ∈ lents.drop 1, ∀ y ∈ rents, x.1 < y.1) →
      List.Pairwise (fun a b : Nat × Nat => a.1 < b.1) rents →
      rents.foldl (fun acc e => (internalInsert acc e.1 e.2).2) lents = lents ++ rents := by
  intro rents
  induction rents with
  | nil =>
    intro lents _ _ _ _
    simp
  | cons r0 rrest ih =>
    intro lents hne hp hcross hsort
    have hins := internalInsert_append lents r0.1 r0.2 hne hp
      (fun x hx => hcross x hx r0 (by simp))
    show List.foldl _ (internalInsert lents r0.1 r0.2).2 rrest = _
    rw [hins]
    have hrec := ih (lents ++ [r0]) (by simp) ?_ ?_ (List.pairwise_cons.mp hsort).2
    · rw [hrec, List.append_assoc]
      rfl
    · -- (lents ++ [r0]).drop 1 pairwise
      cases hc : lents with
      | nil => exact absurd hc hne
      | cons a rest =>
        show List.Pairwise _ (rest ++ [r0])
        rw [List.pairwise_append]
        refine ⟨by have := hp; rw [hc] at this; exact this, List.pairwise_singleton _ _, ?_⟩
        intro x hx y hy
        rw [List.mem_singleton.mp hy]
        refine hcross x ?_ r0 (by simp)
        rw [hc]
        exact hx
    · intro x hx y hy
      cases hc : lents with
      | nil => exact absurd hc hne
      | cons a rest =>
        rw [hc] at hx
        have hx2 : x ∈ rest ++ [r0] := hx
        rcases List.mem_append.mp hx2 with h | h
        · refine hcross x ?_ y (by simp [hy])
          rw [hc]
          exact h
        · rw [List.mem_singleton.mp h]
          exact (List.pairwise_cons.mp hsort).1 y hy

theorem SegP_change_lo (child : ChildP) (ppid : Nat)
    (hch : ∀ c cpar clo chi clo2 ckvs cls cpids cnx,
      child c cpar clo chi ckvs cls cpids cnx → (∀ x ∈ ckvs, loOk clo2 x.1) →
      child c cpar clo2 chi ckvs cls cpids cnx) :
    ∀ (ents : List (Nat × Nat)) (lo lo2 hi : Option Nat) (kvs : List (Nat × Nat))
      (ls ps : List Nat) (nxt : Option Nat),
      SegP child ppid ents lo hi kvs ls ps nxt →
      (∀ x ∈ kvs, loOk lo2 x.1) →
      SegP child ppid ents lo2 hi kvs ls ps nxt := by
  intro ents
  cases ents with
  | nil =>
    intro lo lo2 hi kvs ls ps nxt h _
    exact h
  | cons e rest =>
    intro lo lo2 hi kvs ls ps nxt h hlo
    obtain ⟨ckvs, cls, cps, rkvs, rls, rps, h1, h2, h3, hc, hs⟩ := h
    subst h1 h2 h3
    refine ⟨ckvs, cls, cps, rkvs, rls, rps, rfl, rfl, rfl, ?_, ?_⟩
    · exact hch _ _ _ _ lo2 _ _ _ _ hc (fun x hx => hlo x (List.mem_append_left _ hx))
    · cases hr : rest with
      | nil =>
        rw [hr] at hs
        exact SegP_nil_lo child ppid _ _ hi rkvs rls rps nxt hs
      | cons e2 r2 =>
        rw [hr] at hs
        exact hs

theorem SegP_change_hi (child : ChildP) (ppid : Nat)
    (hch : ∀ c cpar clo chi chi2 ckvs cls cpids cnx,
      child c cpar clo chi ckvs cls cpids cnx → (∀ x ∈ ckvs, hiOk chi2 x.1) →
      child c cpar clo chi2 ckvs cls cpids cnx) :
    ∀ (ents : List (Nat × Nat)) (lo hi hi2 : Option Nat) (kvs : List (Nat × Nat))
      (ls ps : List Nat) (nxt : Option Nat),
      SegP child ppid ents lo hi kvs ls ps nxt →
      (∀ x ∈ kvs, hiOk hi2 x.1) →
      SegP child ppid ents lo hi2 kvs ls ps nxt := by
  intro ents
  induction ents with
  | nil =>
    intro lo hi hi2 kvs ls ps nxt h _
    exact h
  | cons e rest ih =>
    intro lo hi hi2 kvs ls ps nxt h hhi
    obtain ⟨ckvs, cls, cps, rkvs, rls, rps, h1, h2, h3, hc, hs⟩ := h
    subst h1 h2 h3
    refine ⟨ckvs, cls, cps, rkvs, rls, rps, rfl, rfl, rfl, ?_, ?_⟩
    · cases hr : rest with
      | nil =>
        rw [hr] at hc
        exact hch _ _ _ _ hi2 _ _ _ _ hc (fun x hx => hhi x (List.mem_append_left _ hx))
      | cons e2 r2 =>
        rw [hr] at hc
        exact hc
    · exact ih (sepHi lo rest) hi hi2 rkvs rls rps nxt hs
        (fun x hx => hhi x (List.mem_append_right _ hx))

theorem ST_change_lo (s : Nat → Option BNode) (lmax imax : Nat) :
    ∀ (h p : Nat) (par lo lo2 hi : Option Nat) (kvs : List (Nat × Nat)) (ls ps : List Nat)
      (nxt : Option Nat),
      ST s lmax imax h p par lo hi kvs ls ps nxt →
      (∀ x ∈ kvs, loOk lo2 x.1) →
      ST s lmax imax h p par lo2 hi kvs ls ps nxt := by
  intro h
  induction h with
  | zero =>
    intro p par lo lo2 hi kvs ls ps nxt hst hlo
    exact ⟨hst.1, hst.2.1, hst.2.2.1, hst.2.2.2.1, hst.2.2.2.2.1,
      fun x hx => ⟨hlo x hx, (hst.2.2.2.2.2 x hx).2⟩⟩
  | succ n ih =>
    intro p par lo lo2 hi kvs ls ps nxt hst hlo
    obtain ⟨ents, cps, h1, h2, h3, h4, hseg⟩ := hst
    refine ⟨ents, cps, h1, h2, h3, h4, ?_⟩
    refine SegP_change_lo (STC s lmax imax n) p ?_ ents lo lo2 hi kvs ls cps nxt hseg hlo
    intro c cpar clo chi clo2 ckvs cls cpids cnx hch hlo2
    exact ⟨ih c cpar clo clo2 chi ckvs cls cpids cnx hch.1 hlo2, hch.2⟩

theorem ST_change_hi (s : Nat → Option BNode) (lmax imax : Nat) :
    ∀ (h p : Nat) (par lo hi hi2 : Option Nat) (kvs : List (Nat × Nat)) (ls ps : List Nat)
      (nxt : Option Nat),
      ST s lmax imax h p par lo hi kvs ls ps nxt →
      (∀ x ∈ kvs, hiOk hi2 x.1) →
      ST s lmax imax h p par lo hi2 kvs ls ps nxt := by
  intro h
  induction h with
  | zero =>
    intro p par lo hi hi2 kvs ls ps nxt hst hhi
    exact ⟨hst.1, hst.2.1, hst.2.2.1, hst.2.2.2.1, hst.2.2.2.2.1,
      fun x hx => ⟨(hst.2.2.2.2.2 x hx).1, hhi x hx⟩⟩
  | succ n ih =>
    intro p par lo hi hi2 kvs ls ps nxt hst hhi
    obtain ⟨ents, cps, h1, h2, h3, h4, hseg⟩ := hst
    refine ⟨ents, cps, h1, h2, h3, h4, ?_⟩
    refine SegP_change_hi (STC s lmax imax n) p ?_ ents lo hi hi2 kvs ls cps nxt hseg hhi
    intro c cpar clo chi chi2 ckvs cls cpids cnx hch hhi2
    exact ⟨ih c cpar clo chi chi2 ckvs cls cpids cnx hch.1 hhi2, hch.2⟩

theorem erasePk_last (k : Nat) :
    ∀ (l : List (Nat × Nat)) (v : Nat), (∀ x ∈ l, ¬ x.1 = k) →
      (l ++ [(k, v)]).eraseP (fun kv => kv.1 = k) = l := by
  intro l
  induction l with
  | nil =>
    intro v _
    rw [List.nil_append, List.eraseP_cons,
      show (decide (((k, v) : Nat × Nat).1 = k)) = true from by simp]
    rfl
  | cons a rest ih =>
    intro v hne
    rw [List.cons_append, List.eraseP_cons,
      show (decide (a.1 = k)) = false from by simp [hne a (by simp)]]
    show a :: List.eraseP _ (rest ++ [(k, v)]) = a :: rest
    rw [ih v (fun x hx => hne x (by simp [hx]))]

theorem leafRemove_last (k v : Nat) (l : List (Nat × Nat)) (hne : ∀ x ∈ l, ¬ x.1 = k) :
    leafRemove (l ++ [(k, v)]) k = (true, l) := by
  unfold leafRemove
  rw [if_pos (by simp), erasePk_last k l v hne]

theorem leafRemove_head (k v : Nat) (l : List (Nat × Nat)) :
    leafRemove ((k, v) :: l) k = (true, l) := by
  unfold leafRemove
  rw [if_pos (by simp), List.eraseP_cons,
    show (decide (((k, v) : Nat × Nat).1 = k)) = true from by simp]
  rfl

theorem leafIns_front (k v : Nat) :
    ∀ l : List (Nat × Nat), (∀ x ∈ l, k < x.1) → leafIns k v l = (k, v) :: l := by
  intro l
  cases l with
  | nil => intro _; rfl
  | cons a rest =>
    intro h
    show (if k < a.1 then _ else _) = _
    rw [if_pos (h a (by simp))]

theorem leafInsert_front (k v : Nat) (l : List (Nat × Nat)) (h : ∀ x ∈ l, k < x.1) :
    leafInsert l k v = (true, (k, v) :: l) := by
  have hany : l.any (fun kv => kv.1 = k) = false := by
    rw [List.any_eq_false]
    intro x hx
    simp only [decide_eq_true_eq]
    have := h x hx
    omega
  unfold leafInsert
  rw [if_neg (by rw [hany]; simp), leafIns_front k v l h]

theorem set_append_cons2 (x : Nat × Nat) :
    ∀ (pre : List (Nat × Nat)) (e e2 : Nat × Nat) (post : List (Nat × Nat)),
      (pre ++ e :: e2 :: post).set (pre.length + 1) x = pre ++ e :: x :: post := by
  intro pre
  induction pre with
  | nil => intro e e2 post; rfl
  | cons a rest ih =>
    intro e e2 post
    show (a :: (rest ++ e :: e2 :: post)).set (rest.length + 1 + 1) x = _
    rw [List.set_cons_succ, ih e e2 post]
    rfl

theorem valueAt_append_mid (post : List (Nat × Nat)) (e : Nat × Nat) :
    ∀ pre : List (Nat × Nat), valueAt (pre ++ e :: post) pre.length = e.2 := by
  intro pre
  unfold valueAt
  rw [getD_append_last e pre post (0, 0)]

theorem valueAt_append_mid2 (post : List (Nat × Nat)) (e e2 : Nat × Nat) :
    ∀ pre : List (Nat × Nat), valueAt (pre ++ e :: e2 :: post) (pre.length + 1) = e2.2 := by
  intro pre
  unfold valueAt
  induction pre with
  | nil => rfl
  | cons a t ih =>
    simp only [List.cons_append, List.length_cons, List.getD_cons_succ]
    exact ih

theorem take_len_append (l : List (Nat × Nat)) (b : Nat × Nat) :
    (l ++ [b]).take ((l ++ [b]).length - 1) = l := by
  have h : (l ++ [b]).length - 1 = l.length := by simp
  rw [h, List.take_left]

theorem drop_len_append (l : List (Nat × Nat)) (b : Nat × Nat) :
    (l ++ [b]).drop ((l ++ [b]).length - 1) = [b] := by
  have h : (l ++ [b]).length - 1 = l.length := by simp
  rw [h, List.drop_left]

theorem huf_pack (lmax imax root : Nat) (t2 : BTS) (C2 : List Frame) (hh2 pp : Nat)
    (ppar plo phi : Option Nat) (pnxt : Option Nat)
    (preK2 postK2 : List (Nat × Nat)) (ctxP2 : List Nat)
    (K : List (Nat × Nat)) (L P pool : List Nat) (N : Nat)
    (hctx2 : CtxOK t2.store lmax imax root C2 hh2 pp ppar plo phi (L.headD 0) pnxt
      preK2 postK2 ctxP2)
    (hstp : ST t2.store lmax imax hh2 pp ppar plo phi K L P pnxt)
    (hmin : C2 ≠ [] → minOk t2.store pp)
    (hrok : C2 = [] → RootOk t2.store root)
    (hroot2 : t2.root = some root)
    (hperm : (P ++ ctxP2).Perm pool)
    (hpnd : pool.Nodup)
    (hpbnd : ∀ q ∈ pool, q < N)
    (hpdel : ∀ q ∈ t2.deleted, q ∉ pool) :
    ∃ r2 H2 kvs2 lvs2 pids2,
      t2.root = some r2 ∧
      ST t2.store lmax imax H2 r2 none none none kvs2 lvs2 pids2 none ∧
      RootOk t2.store r2 ∧
      pids2.Nodup ∧ (∀ q ∈ pids2, q < N) ∧
      (∀ q ∈ t2.deleted, q ∉ pids2) := by
  obtain ⟨H, lvs, pids, hstR, hperm2, hor⟩ := CtxOK_plug t2.store lmax imax root C2 hh2 pp
    ppar plo phi (L.headD 0) pnxt preK2 postK2 ctxP2 K L P hctx2 hstp hmin rfl
  have hperm3 : pids.Perm pool := hperm2.trans hperm
  refine ⟨root, H, preK2 ++ (K ++ postK2), lvs, pids, hroot2, hstR, ?_, ?_, ?_, ?_⟩
  · rcases hor with h | h
    · exact hrok h
    · exact h
  · exact (List.Perm.nodup_iff hperm3).mpr hpnd
  · intro q hq
    exact hpbnd q (hperm3.mem_iff.mp hq)
  · intro q hq hq2
    exact hpdel q hq (hperm3.mem_iff.mp hq2)

theorem leafIns_back (k v : Nat) :
    ∀ l : List (Nat × Nat), (∀ x ∈ l, x.1 < k) → leafIns k v l = l ++ [(k, v)] := by
  intro l
  induction l with
  | nil => intro _; rfl
  | cons a rest ih =>
    intro h
    show (if k < a.1 then _ else _) = _
    rw [if_neg (by have := h a (by simp); omega), ih (fun x hx => h x (by simp [hx]))]
    rfl

theorem leafInsert_back (k v : Nat) (l : List (Nat × Nat)) (h : ∀ x ∈ l, x.1 < k) :
    leafInsert l k v = (true, l ++ [(k, v)]) := by
  have hany : l.any (fun kv => kv.1 = k) = false := by
    rw [List.any_eq_false]
    intro x hx
    simp only [decide_eq_true_eq]
    have := h x hx
    omega
  unfold leafInsert
  rw [if_neg (by rw [hany]; simp), leafIns_back k v l h]

theorem leafRemove_head2 (b : Nat × Nat) (l : List (Nat × Nat)) :
    leafRemove (b :: l) b.1 = (true, l) := by
  unfold leafRemove
  rw [if_pos (by simp), List.eraseP_cons, show (decide (b.1 = b.1)) = true from by simp]
  rfl

theorem huf_tail (lmax imax root : Nat) (him : 3 ≤ imax)
    (C2 : List Frame)
    (ihf : ∀ (fuel : Nat) (t : BTS) (hh pid : Nat) (par llo lhi : Option Nat)
      (kvs : List (Nat × Nat)) (ls ps : List Nat) (hnxt : Option Nat)
      (preK postK : List (Nat × Nat)) (ctxP : List Nat) (t2 : BTS),
      t.leafMax = lmax → t.internalMax = imax → t.root = some root →
      CtxOK t.store lmax imax root C2 hh pid par llo lhi (ls.headD 0) hnxt preK postK ctxP →
      ST t.store lmax imax hh pid par llo lhi kvs ls ps hnxt →
      (C2 ≠ [] → ∀ n, t.store pid = some n → BNode.sizeOf n + 1 = n.minSizeOf) →
      (∀ a b, llo = some a → lhi = some b → a < b) →
      (C2 = [] → ∀ gp k0 c, t.store pid = some (.internal gp imax [(k0, c)]) →
        (match t.store c with
          | some (.internal _ _ ents2) => 2 ≤ ents2.length
          | _ => True)) →
      (ps ++ ctxP).Nodup →
      (∀ q ∈ ps ++ ctxP, q < t.nextPid) →
      (∀ q ∈ t.deleted, q ∉ ps ++ ctxP) →
      0 < t.nextPid →
      handleUnderFlow t pid fuel = some t2 →
      t2.leafMax = lmax ∧ t2.internalMax = imax ∧ t2.nextPid = t.nextPid ∧
      ∃ r2 H2 kvs2 lvs2 pids2,
        t2.root = some r2 ∧
        ST t2.store lmax imax H2 r2 none none none kvs2 lvs2 pids2 none ∧
        RootOk t2.store r2 ∧
        pids2.Nodup ∧ (∀ q ∈ pids2, q < t.nextPid) ∧
        (∀ q ∈ t2.deleted, q ∉ pids2))
    (f : Nat) (t2x t2 : BTS) (hh2 pp : Nat)
    (fgp flo fhi : Option Nat) (ents1 K2 : List (Nat × Nat))
    (L2 P2 : List Nat) (pnxt : Option Nat) (preK2 postK2 : List (Nat × Nat)) (ctxP2 : List Nat)
    (N : Nat) (hN : t2x.nextPid = N)
    (hlm2 : t2x.leafMax = lmax) (him2 : t2x.internalMax = imax) (hroot2 : t2x.root = some root)
    (hspp : t2x.store pp = some (.internal fgp imax ents1))
    (hlen1 : C2 ≠ [] → internalMinSize imax ≤ ents1.length + 1)
    (hstp : ST t2x.store lmax imax hh2 pp fgp flo fhi K2 L2 (pp :: P2) pnxt)
    (hctxp : CtxOK t2x.store lmax imax root C2 hh2 pp fgp flo fhi (L2.headD 0) pnxt
      preK2 postK2 ctxP2)
    (hwltp : ∀ a b, flo = some a → fhi = some b → a < b)
    (hsingp : ∀ k0 c, ents1 = [(k0, c)] →
      (match t2x.store c with | some (.internal _ _ e3) => 2 ≤ e3.length | _ => True))
    (hndp : ((pp :: P2) ++ ctxP2).Nodup)
    (hbndp : ∀ q ∈ (pp :: P2) ++ ctxP2, q < t2x.nextPid)
    (hdelp : ∀ q ∈ t2x.deleted, q ∉ (pp :: P2) ++ ctxP2)
    (hposp : 0 < t2x.nextPid)
    (hrun : (if ents1.length < internalMinSize imax then handleUnderFlow t2x pp f
             else some t2x) = some t2) :
    t2.leafMax = lmax ∧ t2.internalMax = imax ∧ t2.nextPid = N ∧
    ∃ r2 H2 kvs2 lvs2 pids2,
      t2.root = some r2 ∧
      ST t2.store lmax imax H2 r2 none none none kvs2 lvs2 pids2 none ∧
      RootOk t2.store r2 ∧
      pids2.Nodup ∧ (∀ q ∈ pids2, q < N) ∧
      (∀ q ∈ t2.deleted, q ∉ pids2) := by
  subst hN
  by_cases hrec : ents1.length < internalMinSize imax
  · rw [if_pos hrec] at hrun
    refine ihf f t2x hh2 pp fgp flo fhi K2 L2 (pp :: P2) pnxt preK2 postK2 ctxP2 t2
      hlm2 him2 hroot2 hctxp hstp ?_ hwltp ?_ hndp hbndp hdelp hposp hrun
    · intro hC2 n hn
      rw [hspp] at hn
      have hn2 := Option.some.inj hn
      subst hn2
      show ents1.length + 1 = internalMinSize imax
      have h2 := hlen1 hC2
      omega
    · intro _ gp k0 c hc
      rw [hspp] at hc
      obtain ⟨hg1, hg2, hg3⟩ := BNode.internal.inj (Option.some.inj hc)
      exact hsingp k0 c hg3
  · rw [if_neg hrec] at hrun
    have ht2e : t2 = t2x := (Option.some.inj hrun).symm
    subst ht2e
    refine ⟨hlm2, him2, rfl, ?_⟩
    refine huf_pack lmax imax root t2 C2 hh2 pp fgp flo fhi pnxt preK2 postK2 ctxP2
      K2 L2 (pp :: P2) ((pp :: P2) ++ ctxP2) t2.nextPid hctxp hstp ?_ ?_ hroot2
      (List.Perm.refl _) hndp hbndp hdelp
    · intro _
      unfold minOk
      rw [hspp]
      show (BNode.internal fgp imax ents1).minSizeOf ≤ (BNode.internal fgp imax ents1).sizeOf
      show internalMinSize imax ≤ ents1.length
      omega
    · intro hC2
      subst hC2
      have hpr : pp = root := hctxp.1
      unfold RootOk
      rw [← hpr, hspp]
      show 2 ≤ ents1.length
      have h2 : internalMinSize imax ≤ ents1.length := by omega
      unfold internalMinSize at h2
      omega

end Storage
